import Mathlib

/-!
A boundary-tag heap allocator (`allocator.c`).

Shallow embedding of the allocator and proofs about it.

* Memory is a map from byte addresses to 64-bit words; the allocator only ever
  touches eight-byte aligned words.  `size_t` arithmetic wraps modulo `2^64`;
  pointers are natural numbers, null being `0`.
* The three globals `base`, `end`, `free_list_head` and the segment owned by the
  provider form the `State`.
* `PAGE_SIZE` comes from `segment.h`, which is not part of the sources: it is a
  parameter of every function that uses it.
* Loops take a fuel argument; `none` means that the call did not return.
-/

namespace Allocator

/-! ## Machine words -/

/-- Number of values of a `size_t`: `2^64`. -/
def WORD : Nat := 18446744073709551616

def ALIGNMENT : Nat := 8

/-- Size of a boundary tag, `sizeof(size_t)`. -/
def HFSIZE : Nat := 8

/-- Size of a link, `sizeof(void *)`. -/
def PTRSIZE : Nat := 8

def INT_MAX : Nat := 2147483647

/-- Wrapping `size_t` addition. -/
def add64 (a b : Nat) : Nat := (a + b) % WORD

/-- Wrapping `size_t` subtraction. -/
def sub64 (a b : Nat) : Nat := (a + (WORD - b % WORD)) % WORD

/-- Wrapping `size_t` multiplication. -/
def mul64 (a b : Nat) : Nat := (a * b) % WORD

/-- Bitwise complement of a `size_t`. -/
def not64 (a : Nat) : Nat := WORD - 1 - a % WORD

/-! ## Memory and state -/

/-- Memory: the word stored at each byte address. -/
abbrev Mem := Nat → Nat

/-- Store of one word. -/
def Mem.write (m : Mem) (a v : Nat) : Mem := fun x => if x = a then v else m x

/-- The heap segment owned by the provider: its first byte and its size in bytes. -/
structure Segment where
  start : Nat
  size : Nat

/-- The allocator's globals, the memory and the provider's segment. -/
structure State where
  mem : Mem
  base : Nat
  end_ : Nat
  free_list_head : Nat
  seg : Segment

/-! ## Segment provider -/

/-- Modelled from the spec: `init_heap_segment` of the absent `segment.c`.  It reserves
`pages * page_size` bytes at `start` (the address the system picks) and returns that
address, eight-byte aligned, or null on failure.  The region lies inside the 64-bit
address space. -/
def init_heap_segment (PAGE_SIZE start pages : Nat) : Nat × Segment :=
  if start % 8 = 0 ∧ 0 < start ∧ start + pages * PAGE_SIZE < WORD then
    (start, ⟨start, pages * PAGE_SIZE⟩)
  else (0, ⟨0, 0⟩)

/-- Modelled from the spec: `extend_heap_segment` of the absent `segment.c`.  When the
provider grants the request it extends the segment by `pages * page_size` bytes,
contiguously, and returns the start of the new bytes; otherwise it returns null and the
segment is unchanged. -/
def extend_heap_segment (PAGE_SIZE : Nat) (grant : Bool) (seg : Segment) (pages : Nat) :
    Nat × Segment :=
  if grant = true ∧ seg.start + seg.size + pages * PAGE_SIZE < WORD then
    (seg.start + seg.size, ⟨seg.start, seg.size + pages * PAGE_SIZE⟩)
  else (0, seg)

/-- Modelled from the spec: `heap_segment_start` of the absent `segment.c`. -/
def heap_segment_start (seg : Segment) : Nat := seg.start

/-- Modelled from the spec: `heap_segment_size` of the absent `segment.c`. -/
def heap_segment_size (seg : Segment) : Nat := seg.size

/-! ## Block layout primitives -/

def write_size (m : Mem) (ptr sz alloc : Nat) : Mem := m.write ptr (sz ||| alloc)

def read_size (m : Mem) (ptr : Nat) : Nat := m ptr &&& not64 7

def read_alloc (m : Mem) (ptr : Nat) : Nat := m ptr &&& 1

def roundup (sz mult : Nat) : Nat := sub64 (add64 sz mult) 1 &&& not64 (sub64 mult 1)

def payload_to_head (ptr : Nat) : Nat := ptr - HFSIZE

def head_to_payload (ptr : Nat) : Nat := ptr + HFSIZE

def head_to_prev (ptr : Nat) : Nat := head_to_payload ptr

def head_to_next (ptr : Nat) : Nat := head_to_payload ptr + PTRSIZE

def payload_to_foot (m : Mem) (ptr : Nat) : Nat := ptr + read_size m (payload_to_head ptr)

def next_block (m : Mem) (ptr : Nat) : Nat := payload_to_foot m ptr + 2 * HFSIZE

def prev_block (m : Mem) (ptr : Nat) : Nat :=
  ptr - 2 * HFSIZE - read_size m (ptr - 2 * HFSIZE)

/-! ## Free list -/

def insert_node (s : State) (ptr : Nat) : State :=
  let prev := head_to_prev ptr
  let next := head_to_next ptr
  let m1 := s.mem.write prev 0
  let m2 := m1.write next s.free_list_head
  let m3 := if s.free_list_head ≠ 0 then m2.write (head_to_prev s.free_list_head) ptr else m2
  { s with mem := m3, free_list_head := ptr }

def delete_node (s : State) (ptr : Nat) : State :=
  let prev := head_to_prev ptr
  let next := head_to_next ptr
  if s.mem prev = 0 ∧ s.mem next = 0 then
    { s with free_list_head := 0 }
  else if s.mem prev = 0 then
    let m1 := s.mem.write (head_to_prev (s.mem next)) 0
    { s with mem := m1, free_list_head := m1 next }
  else if s.mem next = 0 then
    { s with mem := s.mem.write (head_to_next (s.mem prev)) 0 }
  else
    let m1 := s.mem.write (head_to_next (s.mem prev)) (s.mem next)
    { s with mem := m1.write (head_to_prev (m1 next)) (m1 prev) }

/-! ## Coalescer -/

def merge_free_block (s : State) (ptr : Nat) : State :=
  let size := read_size s.mem (payload_to_head ptr)
  let prev_alloc :=
    if payload_to_head ptr ≠ s.base then
      read_alloc s.mem (payload_to_head (prev_block s.mem ptr))
    else 1
  let next_alloc :=
    if payload_to_foot s.mem ptr ≠ s.end_ then
      read_alloc s.mem (payload_to_head (next_block s.mem ptr))
    else 1
  if prev_alloc ≠ 0 ∧ next_alloc = 0 then
    let next_ptr := next_block s.mem ptr
    let size := add64 size (add64 (read_size s.mem (payload_to_head next_ptr)) (2 * HFSIZE))
    let m1 := write_size s.mem (payload_to_head ptr) size 0
    let m2 := write_size m1 (payload_to_foot m1 ptr) size 0
    let s3 := delete_node { s with mem := m2 } (payload_to_head next_ptr)
    insert_node s3 (payload_to_head ptr)
  else if prev_alloc = 0 ∧ next_alloc ≠ 0 then
    let prev_ptr := prev_block s.mem ptr
    let size := add64 size (add64 (read_size s.mem (payload_to_head prev_ptr)) (2 * HFSIZE))
    let m1 := write_size s.mem (payload_to_foot s.mem ptr) size 0
    let m2 := write_size m1 (payload_to_head prev_ptr) size 0
    let s3 := delete_node { s with mem := m2 } (payload_to_head prev_ptr)
    insert_node s3 (payload_to_head prev_ptr)
  else if prev_alloc = 0 ∧ next_alloc = 0 then
    let prev_ptr := prev_block s.mem ptr
    let next_ptr := next_block s.mem ptr
    let size := add64 size
      (add64 (add64 (read_size s.mem (payload_to_head prev_ptr))
        (read_size s.mem (payload_to_head next_ptr))) (4 * HFSIZE))
    let m1 := write_size s.mem (payload_to_head prev_ptr) size 0
    let m2 := write_size m1 (payload_to_foot m1 next_ptr) size 0
    let s3 := delete_node { s with mem := m2 } (payload_to_head next_ptr)
    let s4 := delete_node s3 (payload_to_head prev_ptr)
    insert_node s4 (payload_to_head prev_ptr)
  else
    insert_node s (payload_to_head ptr)

/-! ## Placement -/

/-- The loop of `find_free_block`, started at node `cur`; `none` when the fuel runs out. -/
def find_free_block_from (m : Mem) (size : Nat) : Nat → Nat → Option Nat
  | 0, _ => none
  | fuel + 1, cur =>
    if cur = 0 then some 0
    else if read_size m cur ≥ size then some (head_to_payload cur)
    else find_free_block_from m size fuel (m (head_to_next cur))

def find_free_block (fuel : Nat) (s : State) (size : Nat) : Option Nat :=
  find_free_block_from s.mem size fuel s.free_list_head

def allocate (s : State) (ptr size : Nat) : State :=
  let freesz := read_size s.mem (payload_to_head ptr)
  if sub64 freesz size ≥ 2 * HFSIZE + 2 * PTRSIZE then
    let m1 := write_size s.mem (payload_to_head ptr) size 1
    let m2 := write_size m1 (payload_to_foot m1 ptr) size 1
    let free_ptr := next_block m2 ptr
    let m3 := write_size m2 (payload_to_head free_ptr) (sub64 (sub64 freesz size) (2 * HFSIZE)) 0
    let m4 := write_size m3 (payload_to_foot m3 free_ptr) (sub64 (sub64 freesz size) (2 * HFSIZE)) 0
    let s5 := delete_node { s with mem := m4 } (payload_to_head ptr)
    insert_node s5 (payload_to_head free_ptr)
  else
    let m1 := write_size s.mem (payload_to_head ptr) freesz 1
    let m2 := write_size m1 (payload_to_foot m1 ptr) freesz 1
    delete_node { s with mem := m2 } (payload_to_head ptr)

/-! ## Public API -/

/-- The function `myinit`; `start` is the address at which the provider places the segment. -/
def myinit (PAGE_SIZE start : Nat) (s : State) : Bool × State :=
  let r := init_heap_segment PAGE_SIZE start 1
  let base := r.1
  if base = 0 then (false, { s with base := base, seg := r.2 })
  else
    let end_ := base + PAGE_SIZE - HFSIZE
    let m1 := write_size s.mem base (sub64 PAGE_SIZE (2 * HFSIZE)) 0
    let m2 := write_size m1 end_ (sub64 PAGE_SIZE (2 * HFSIZE)) 0
    let m3 := m2.write (head_to_prev base) 0
    let m4 := m3.write (head_to_next base) 0
    (true, { mem := m4, base := base, end_ := end_, free_list_head := base, seg := r.2 })

/-- The size adjustment shared by `mymalloc` and `myrealloc`. -/
def adjust_size (requestedsz : Nat) : Nat :=
  if requestedsz ≤ 2 * PTRSIZE then 2 * PTRSIZE else roundup requestedsz ALIGNMENT

def mymalloc (PAGE_SIZE fuel : Nat) (grant : Bool) (s : State) (requestedsz : Nat) :
    Option (Nat × State) :=
  if requestedsz = 0 ∨ requestedsz > INT_MAX then some (0, s)
  else
    let size := adjust_size requestedsz
    match find_free_block fuel s size with
    | none => none
    | some ptr =>
      if ptr ≠ 0 then some (ptr, allocate s ptr size)
      else
        let tail_free := read_alloc s.mem s.end_ = 0
        let end_size := if tail_free then read_size s.mem s.end_ else 0
        let ptr := if tail_free then s.end_ - end_size else s.end_ + 2 * HFSIZE
        let num_pages := roundup (add64 (sub64 size end_size) (2 * HFSIZE)) PAGE_SIZE / PAGE_SIZE
        let r := extend_heap_segment PAGE_SIZE grant s.seg num_pages
        let newbase := r.1
        if newbase = 0 then some (0, s)
        else
          let end_ := newbase + mul64 PAGE_SIZE num_pages - HFSIZE
          let m1 := write_size s.mem newbase (sub64 (mul64 PAGE_SIZE num_pages) (2 * HFSIZE)) 0
          let m2 := write_size m1 end_ (sub64 (mul64 PAGE_SIZE num_pages) (2 * HFSIZE)) 0
          let s3 := merge_free_block { s with mem := m2, end_ := end_, seg := r.2 }
            (head_to_payload newbase)
          some (ptr, allocate s3 ptr size)

def myfree (s : State) (ptr : Nat) : State :=
  if ptr = 0 then s
  else
    let size := read_size s.mem (payload_to_head ptr)
    let m1 := write_size s.mem (payload_to_head ptr) size 0
    let m2 := write_size m1 (payload_to_foot m1 ptr) size 0
    merge_free_block { s with mem := m2 } ptr

/-- Copy of `n` bytes out of memory, as done by `memcpy(temp, src, n)`. -/
def memcpy_out (m : Mem) (src : Nat) : Nat → Nat := fun i => m (src + i)

/-- Copy of `n` bytes into memory, as done by `memcpy(dst, temp, n)`. -/
def memcpy_in (m : Mem) (dst : Nat) (temp : Nat → Nat) (n : Nat) : Mem :=
  fun x => if dst ≤ x ∧ x < dst + n then temp (x - dst) else m x

/-- The function `myrealloc`; `none` when the call does not return: the loop of `find_free_block`
ran out of fuel, or `memcpy` was handed a null destination. -/
def myrealloc (PAGE_SIZE fuel : Nat) (grant : Bool) (s : State) (old_ptr newsz : Nat) :
    Option (Nat × State) :=
  if old_ptr = 0 then mymalloc PAGE_SIZE fuel grant s newsz
  else if newsz = 0 then some (0, myfree s old_ptr)
  else
    let oldsz := read_size s.mem (payload_to_head old_ptr)
    let newsz := adjust_size newsz
    if newsz ≤ oldsz then
      if sub64 oldsz newsz ≥ 2 * HFSIZE + 2 * PTRSIZE then
        let m1 := write_size s.mem (payload_to_head old_ptr) newsz 1
        let m2 := write_size m1 (payload_to_foot m1 old_ptr) newsz 1
        let free_ptr := next_block m2 old_ptr
        let m3 := write_size m2 (payload_to_head free_ptr)
          (sub64 (sub64 oldsz newsz) (2 * HFSIZE)) 0
        let m4 := write_size m3 (payload_to_foot m3 free_ptr)
          (sub64 (sub64 oldsz newsz) (2 * HFSIZE)) 0
        some (old_ptr, merge_free_block { s with mem := m4 } free_ptr)
      else some (old_ptr, s)
    else
      let temp := memcpy_out s.mem old_ptr
      let s1 := myfree s old_ptr
      match mymalloc PAGE_SIZE fuel grant s1 newsz with
      | none => none
      | some (new_ptr, s2) =>
        if new_ptr = 0 then none
        else some (new_ptr, { s2 with mem := memcpy_in s2.mem new_ptr temp oldsz })

/-- The loop of `validate_heap` over the free list, started at node `cur`. -/
def validate_loop (m : Mem) : Nat → Nat → Option Bool
  | 0, _ => none
  | fuel + 1, cur =>
    if cur = 0 then some true
    else
      let size_1 := read_size m cur
      let foot := payload_to_foot m (head_to_payload cur)
      let size_2 := read_size m foot
      if size_1 ≠ size_2 then some false
      else if read_alloc m cur ≠ 0 ∨ read_alloc m foot ≠ 0 then some false
      else validate_loop m fuel (m (head_to_next cur))

def validate_heap (fuel : Nat) (s : State) : Option Bool :=
  if s.base ≠ heap_segment_start s.seg then some false
  else if s.end_ ≠ s.base + heap_segment_size s.seg - HFSIZE then some false
  else if s.free_list_head ≠ 0 ∧ s.mem (head_to_prev s.free_list_head) ≠ 0 then some false
  else validate_loop s.mem fuel s.free_list_head

/-! ## Vocabulary of the specification -/

/-- Heads of the blocks met when walking the heap from `base`, block by block, until the
block whose foot is `end`. -/
inductive IsBlock (s : State) : Nat → Prop
  | first : IsBlock s s.base
  | next {h : Nat} : IsBlock s h → payload_to_foot s.mem (head_to_payload h) ≠ s.end_ →
      IsBlock s (payload_to_head (next_block s.mem (head_to_payload h)))

/-- The payload `p` belongs to a block of the heap whose head is marked allocated. -/
def Allocated (s : State) (p : Nat) : Prop :=
  ∃ h, IsBlock s h ∧ p = head_to_payload h ∧ read_alloc s.mem h = 1

/-- The aligned address `a` lies inside the payload of an allocated block. -/
def InAllocatedPayload (s : State) (a : Nat) : Prop :=
  ∃ h, IsBlock s h ∧ read_alloc s.mem h = 1 ∧ a % 8 = 0 ∧
    head_to_payload h ≤ a ∧ a < payload_to_foot s.mem (head_to_payload h)

/-- States reachable from a successful `myinit` by calls of `mymalloc`, `myfree` and
`myrealloc` that return, with valid arguments, and by stores of the client into the
payloads it owns. -/
inductive Reachable (PAGE_SIZE : Nat) : State → Prop
  | init (s0 : State) (start : Nat) :
      (myinit PAGE_SIZE start s0).1 = true → Reachable PAGE_SIZE (myinit PAGE_SIZE start s0).2
  | malloc {s : State} (fuel : Nat) (grant : Bool) (n : Nat) {q : Nat} {s' : State} :
      Reachable PAGE_SIZE s → mymalloc PAGE_SIZE fuel grant s n = some (q, s') →
      Reachable PAGE_SIZE s'
  | free {s : State} (p : Nat) :
      Reachable PAGE_SIZE s → (p = 0 ∨ Allocated s p) → Reachable PAGE_SIZE (myfree s p)
  | realloc {s : State} (fuel : Nat) (grant : Bool) (p n : Nat) {q : Nat} {s' : State} :
      Reachable PAGE_SIZE s → (p = 0 ∨ Allocated s p) → n ≤ INT_MAX →
      myrealloc PAGE_SIZE fuel grant s p n = some (q, s') → Reachable PAGE_SIZE s'
  | store {s : State} (a v : Nat) :
      Reachable PAGE_SIZE s → InAllocatedPayload s a → v < WORD →
      Reachable PAGE_SIZE { s with mem := s.mem.write a v }

/-- The page sizes the allocator is written for: a power of two (the mask arithmetic of
`roundup` needs it) that leaves room for one free block (`2*HFSIZE + 2*PTRSIZE`). -/
def PageOK (PAGE_SIZE : Nat) : Prop := ∃ k, 5 ≤ k ∧ k < 64 ∧ PAGE_SIZE = 2 ^ k

/-- Head and foot of the block at head `h` carry the same size and the same alloc flag. -/
def TagsAgree (m : Mem) (h : Nat) : Prop :=
  read_size m (payload_to_foot m (head_to_payload h)) = read_size m h ∧
  read_alloc m (payload_to_foot m (head_to_payload h)) = read_alloc m h

/-- Walking from head `h`, every block has agreeing tags, each next head starts right
after the previous foot, and the walk ends with a foot exactly at `e`. -/
inductive Tiled (m : Mem) (e : Nat) : Nat → Prop
  | last {h : Nat} : TagsAgree m h → payload_to_foot m (head_to_payload h) = e → Tiled m e h
  | cons {h : Nat} : TagsAgree m h → payload_to_foot m (head_to_payload h) ≠ e →
      Tiled m e (payload_to_foot m (head_to_payload h) + HFSIZE) → Tiled m e h

/-- Following `next` links from node `cur` visits exactly the nodes of `l` and then
reaches null. -/
def NextChain (m : Mem) : Nat → List Nat → Prop
  | cur, [] => cur = 0
  | cur, h :: t => cur = h ∧ h ≠ 0 ∧ NextChain m (m (head_to_next h)) t

/-- The block at head `h` is a free block of the heap of size `sz`: it covers the
addresses from `h` to `h + sz + 2*HFSIZE`. -/
def FreeBlock (s : State) (h sz : Nat) : Prop :=
  IsBlock s h ∧ read_alloc s.mem h = 0 ∧ read_size s.mem h = sz

/-- The byte at address `a` of a little-endian memory of words. -/
def byte_at (m : Mem) (a : Nat) : Nat := m (a - a % 8) / 256 ^ (a % 8) % 256

/-- The number of pages `mymalloc` asks from the provider when no free block fits. -/
def requested_pages (PAGE_SIZE : Nat) (s : State) (size : Nat) : Nat :=
  roundup (add64 (sub64 size (if read_alloc s.mem s.end_ = 0 then read_size s.mem s.end_ else 0))
    (2 * HFSIZE)) PAGE_SIZE / PAGE_SIZE

/-- Bytes that growth has to add for a block of `size` bytes, in the words of the
specification: `requested_size - tail_free_size + 2*word`. -/
def growth_need (s : State) (size : Nat) : Nat :=
  size - (if read_alloc s.mem s.end_ = 0 then read_size s.mem s.end_ else 0) + 2 * HFSIZE

/-- The number `k` is the least whole number of pages of `PAGE_SIZE` bytes that covers
`need` bytes. -/
def least_pages (PAGE_SIZE need k : Nat) : Prop :=
  need ≤ k * PAGE_SIZE ∧ ∀ j, need ≤ j * PAGE_SIZE → k ≤ j

/-- The number `r` is the least multiple of `mult` that is at least `sz`. -/
def least_multiple (mult sz r : Nat) : Prop :=
  mult ∣ r ∧ sz ≤ r ∧ ∀ r', mult ∣ r' → sz ≤ r' → r ≤ r'

/-- The block before the block of payload `p` exists and is free, as `merge_free_block`
tests it: the head of `p` is not `base` and the head of the previous block has flag 0. -/
@[reducible] def prev_is_free (s : State) (p : Nat) : Prop :=
  payload_to_head p ≠ s.base ∧ read_alloc s.mem (payload_to_head (prev_block s.mem p)) = 0

/-- The block after the block of payload `p` exists and is free, as `merge_free_block`
tests it: the foot of `p` is not `end` and the head of the next block has flag 0. -/
@[reducible] def next_is_free (s : State) (p : Nat) : Prop :=
  payload_to_foot s.mem p ≠ s.end_ ∧ read_alloc s.mem (payload_to_head (next_block s.mem p)) = 0

/-- Head that the specification gives to the free block covering `p` after `free(p)`: the
head of the previous block when that block is free, else the head of `p`. -/
def merged_head (s : State) (p : Nat) : Nat :=
  if prev_is_free s p then payload_to_head (prev_block s.mem p) else payload_to_head p

/-- Foot that the specification gives to the free block covering `p` after `free(p)`: the
foot of the next block when that block is free, else the foot of `p`. -/
def merged_foot (s : State) (p : Nat) : Nat :=
  if next_is_free s p then payload_to_foot s.mem (next_block s.mem p)
  else payload_to_foot s.mem p

/-- Size that the specification gives to the free block covering `p` after `free(p)`: the
size of `p` plus, for each free neighbour, its size and `2*word`. -/
def merged_size (s : State) (p : Nat) : Nat :=
  read_size s.mem (payload_to_head p) +
    (if prev_is_free s p then
      read_size s.mem (payload_to_head (prev_block s.mem p)) + 2 * HFSIZE else 0) +
    (if next_is_free s p then
      read_size s.mem (payload_to_head (next_block s.mem p)) + 2 * HFSIZE else 0)

/-- The placement address of `mymalloc` on its growth path, `ptr`: `end + 2*HFSIZE` when the
last block of the heap is allocated, `end - end_size` when it is free. -/
def growth_ptr (s : State) : Nat :=
  if read_alloc s.mem s.end_ = 0 then s.end_ - read_size s.mem s.end_ else s.end_ + 2 * HFSIZE

/-- The state of `mymalloc` on its growth path, when the provider has granted the pages,
after `merge_free_block(head_to_payload(newbase))` and before `allocate(ptr, size)`. -/
def growth_state (PAGE_SIZE : Nat) (grant : Bool) (s : State) (size : Nat) : State :=
  let end_size := if read_alloc s.mem s.end_ = 0 then read_size s.mem s.end_ else 0
  let num_pages := roundup (add64 (sub64 size end_size) (2 * HFSIZE)) PAGE_SIZE / PAGE_SIZE
  let r := extend_heap_segment PAGE_SIZE grant s.seg num_pages
  let newbase := r.1
  let end_ := newbase + mul64 PAGE_SIZE num_pages - HFSIZE
  let m1 := write_size s.mem newbase (sub64 (mul64 PAGE_SIZE num_pages) (2 * HFSIZE)) 0
  let m2 := write_size m1 end_ (sub64 (mul64 PAGE_SIZE num_pages) (2 * HFSIZE)) 0
  merge_free_block { s with mem := m2, end_ := end_, seg := r.2 } (head_to_payload newbase)

/-! ## A small scenario, used to instantiate the theorems -/

/-- A state before `myinit`: zeroed memory, null globals, no segment. -/
def blank : State := ⟨fun _ => 0, 0, 0, 0, ⟨0, 0⟩⟩

/-- After `myinit` with a page of 4096 bytes placed at address 4096. -/
def demo_init : State := (myinit 4096 4096 blank).2

/-- After `a = mymalloc(24)`. -/
def demo_a : Nat × State := (mymalloc 4096 4 true demo_init 24).getD (0, blank)

/-- After `b = mymalloc(24)`. -/
def demo_b : Nat × State := (mymalloc 4096 4 true demo_a.2 24).getD (0, blank)

/-- After `myfree(a)`: a hole before `b` and the free remainder after it. -/
def demo_hole : State := myfree demo_b.2 demo_a.1

/-- After `a = mymalloc(24)` and a store of the bytes `01 02 .. 08` at `a`. -/
def demo_pat : State := { demo_a.2 with mem := demo_a.2.mem.write 4104 578437695752307201 }

/-- After `myrealloc(a, 64)` on `demo_pat`. -/
def demo_re : Nat × State := (myrealloc 4096 4 true demo_pat demo_a.1 64).getD (0, blank)

/-- After `myfree(a)` and `myfree(b)`: nothing is allocated any more. -/
def demo_empty : State := myfree demo_hole demo_b.1

/-- After `mymalloc(8000)` right after `myinit`: the heap has grown. -/
def demo_big : Nat × State := (mymalloc 4096 4 true demo_init 8000).getD (0, blank)

/-- A block as the boundary tags describe it. -/
structure Blk where
  size : Nat
  used : Bool

/-- The tag word of a block. -/
def Blk.tag (b : Blk) : Nat := b.size + (if b.used then 1 else 0)

/-- Bytes covered by a run of blocks, tags included. -/
def span : List Blk → Nat
  | [] => 0
  | b :: t => b.size + 16 + span t

/-- Head and foot tags of a run of blocks laid out from address `a`. -/
def Tags (m : Mem) : Nat → List Blk → Prop
  | _, [] => True
  | a, b :: t => m a = b.tag ∧ m (a + 8 + b.size) = b.tag ∧ Tags m (a + 16 + b.size) t

/-- Every size is a multiple of eight and leaves room for the two links. -/
def Shape (bs : List Blk) : Prop := ∀ b ∈ bs, b.size % 8 = 0 ∧ 16 ≤ b.size

/-- Head addresses of a run of blocks laid out from address `a`. -/
def heads : Nat → List Blk → List Nat
  | _, [] => []
  | a, b :: t => a :: heads (a + 16 + b.size) t

/-- Head addresses of the free blocks of a run laid out from address `a`. -/
def freeHeads : Nat → List Blk → List Nat
  | _, [] => []
  | a, b :: t => if b.used then freeHeads (a + 16 + b.size) t
                 else a :: freeHeads (a + 16 + b.size) t

/-- No two neighbouring blocks are both free. -/
def NoAdj (bs : List Blk) : Prop := List.Chain' (fun b c => b.used = true ∨ c.used = true) bs

/-- The address `x` lies in the footprint of an allocated block of the run. -/
def InUsed : Nat → List Blk → Nat → Prop
  | _, [], _ => False
  | a, b :: t, x => (b.used = true ∧ a ≤ x ∧ x < a + 16 + b.size) ∨ InUsed (a + 16 + b.size) t x

/-- First element of a list, or the default. -/
def firstD : List Nat → Nat → Nat
  | [], d => d
  | x :: _, _ => x

/-- Last element of a list, or the default. -/
def lastD : List Nat → Nat → Nat
  | [], d => d
  | x :: t, _ => lastD t x

/-- Doubly linked list: the nodes `l` between the node `p` (or null) and the node `n`
(or null). -/
def Links (m : Mem) : Nat → List Nat → Nat → Prop
  | _, [], _ => True
  | p, x :: t, n => x ≠ 0 ∧ m (x + 8) = p ∧ m (x + 16) = firstD t n ∧ Links m x t n

/-- Two heads are at least one minimal block apart. -/
def Far (x y : Nat) : Prop := x + 32 ≤ y ∨ y + 32 ≤ x

/-- An address is one of the two link cells of a node of `l`. -/
def Cells (l : List Nat) (x : Nat) : Prop := ∃ y ∈ l, x = y + 8 ∨ x = y + 16

/-- Facts on the globals and the segment. -/
structure Geo (s : State) : Prop where
  base_pos : 0 < s.base
  base_al : s.base % 8 = 0
  seg_start : s.seg.start = s.base
  seg_size : s.base + s.seg.size = s.end_ + 8
  bound : s.end_ + 8 < WORD

/-- The memory holds the tags of the blocks `bs` and the links of the list `fl`. -/
structure Mid (s : State) (bs : List Blk) (fl : List Nat) : Prop where
  geo : Geo s
  shape : Shape bs
  tags : Tags s.mem s.base bs
  span_eq : s.base + span bs = s.end_ + 8
  links : Links s.mem 0 fl 0
  head : s.free_list_head = firstD fl 0
  far : fl.Pairwise Far

/-- The state is represented by the blocks `bs` and the free list `fl`. -/
structure Rep (s : State) (bs : List Blk) (fl : List Nat) : Prop where
  mid : Mid s bs fl
  ne : bs ≠ []
  mem_iff : ∀ h, h ∈ fl ↔ h ∈ freeHeads s.base bs
  noadj : NoAdj bs

/-- The address `x` lies in the footprint of a free block of the run. -/
def InFree : Nat → List Blk → Nat → Prop
  | _, [], _ => False
  | a, b :: t, x => (b.used = false ∧ a ≤ x ∧ x < a + 16 + b.size) ∨ InFree (a + 16 + b.size) t x

/-- Size of the last block of `pre` when it is free. -/
def prevFree (pre : List Blk) : Option Nat :=
  match pre.getLast? with
  | some c => if c.used then none else some c.size
  | none => none

/-- Size of the first block of `post` when it is free. -/
def nextFree (post : List Blk) : Option Nat :=
  match post with
  | c :: _ => if c.used then none else some c.size
  | [] => none

/-- The blocks after the block of size `sz` between `pre` and `post` has been merged with
its free neighbours. -/
def coalesce (pre : List Blk) (sz : Nat) (post : List Blk) : List Blk :=
  match prevFree pre, nextFree post with
  | some p, some n => pre.dropLast ++ ⟨sz + (p + n + 32), false⟩ :: post.tail
  | some p, none => pre.dropLast ++ ⟨sz + (p + 16), false⟩ :: post
  | none, some n => pre ++ ⟨sz + (n + 16), false⟩ :: post.tail
  | none, none => pre ++ ⟨sz, false⟩ :: post

/-- Head of the block that results from the merge. -/
def coalesceHead (a : Nat) (pre : List Blk) : Nat :=
  match prevFree pre with
  | some p => a + span pre - (p + 16)
  | none => a + span pre

/-- The blocks that replace a free block of size `f` when `size` bytes are allocated in it. -/
def carve (f size : Nat) : List Blk :=
  if size + 32 ≤ f then [⟨size, true⟩, ⟨f - size - 16, false⟩] else [⟨f, true⟩]

/-- Size of the last block when it is free, else zero: `end_size` in `mymalloc`. -/
def tailFree (bs : List Blk) : Nat := (prevFree bs).getD 0

/-- Number of pages `mymalloc` asks from the provider. -/
def growPages (PAGE_SIZE : Nat) (bs : List Blk) (size : Nat) : Nat :=
  roundup (add64 (sub64 size (tailFree bs)) (2 * HFSIZE)) PAGE_SIZE / PAGE_SIZE

/-- The blocks that growth leaves alone: all of them but a free last block. -/
def growKeep (bs : List Blk) : List Blk :=
  match prevFree bs with
  | some _ => bs.dropLast
  | none => bs

/-- Size of the free block at the end of the heap after growth by `bytes` bytes. -/
def growFree (bs : List Blk) (bytes : Nat) : Nat :=
  match prevFree bs with
  | some e => bytes - 16 + (e + 16)
  | none => bytes - 16

/-- State on entry of `merge_free_block`: the block of size `sz` between `pre` and `post`
is tagged free and is not on the list yet; its neighbours may be free. -/
structure PreMerge (s : State) (pre : List Blk) (sz : Nat) (post : List Blk)
    (fl : List Nat) : Prop where
  mid : Mid s (pre ++ ⟨sz, false⟩ :: post) fl
  mem_iff : ∀ h, h ∈ fl ↔
    h ∈ freeHeads s.base pre ∨ h ∈ freeHeads (s.base + span pre + 16 + sz) post
  noadj_pre : NoAdj pre
  noadj_post : NoAdj post

/-- The invariant of the allocator. -/
def Inv (s : State) : Prop := ∃ bs fl, Rep s bs fl

/-- The block `b` of the run `bs` laid out from address `a` has its head at `h`. -/
def BlockAt (a : Nat) (bs : List Blk) (h : Nat) (b : Blk) : Prop :=
  ∃ u v, bs = u ++ b :: v ∧ h = a + span u

/-- What a call leaves of the allocated blocks of `bs`, the block at head `hp` apart: they
are blocks of the new state with the same contents, and the payload `r` that the call
returns, when not null, belongs to another allocated block, of at least `need` bytes. -/
def Frame (s s' : State) (bs : List Blk) (hp r need : Nat) : Prop :=
  ∃ bs' fl', Rep s' bs' fl' ∧ s'.base = s.base ∧
    (∀ h z, BlockAt s.base bs h ⟨z, true⟩ → h ≠ hp →
      BlockAt s.base bs' h ⟨z, true⟩ ∧ (∀ x, h ≤ x → x < h + 16 + z → s'.mem x = s.mem x) ∧
      (r ≠ 0 → h + 8 ≠ r)) ∧
    (r ≠ 0 → 8 ≤ r ∧ ∃ c, BlockAt s.base bs' (r - 8) ⟨c, true⟩ ∧ need ≤ c)

/-! ## Machine arithmetic -/

theorem and_mask (x k : Nat) (hk : k ≤ 64) :
    x &&& (2 ^ 64 - 2 ^ k) = (x / 2 ^ k % 2 ^ (64 - k)) * 2 ^ k := by
  apply Nat.eq_of_testBit_eq
  intro i
  have h : (2 ^ 64 - 2 ^ k : Nat) = (2 ^ (64 - k) - 1) <<< k := by
    rw [Nat.shiftLeft_eq, Nat.sub_mul, one_mul, ← pow_add]
    congr 2
    omega
  rw [h, Nat.testBit_and, Nat.testBit_shiftLeft, Nat.testBit_two_pow_sub_one, mul_comm,
    Nat.testBit_mul_pow_two, Nat.testBit_mod_two_pow, ← Nat.shiftRight_eq_div_pow,
    Nat.testBit_shiftRight]
  by_cases h4 : k ≤ i
  · have : k + (i - k) = i := by omega
    simp [h4, this]
    by_cases h5 : i - k < 64 - k <;> simp [h5]
  · simp [h4]

theorem or_one_of_even (x : Nat) (h : x % 2 = 0) : x ||| 1 = x + 1 := by
  have := Nat.mul_add_lt_is_or (i := 1) (b := 1) (by norm_num) (x / 2)
  have e : 2 ^ 1 * (x / 2) = x := by omega
  rw [e] at this
  exact this.symm

theorem read_size_eq (m : Mem) (a : Nat) :
    read_size m a = (m a / 8 % 2305843009213693952) * 8 := by
  have := and_mask (m a) 3 (by norm_num)
  simpa [read_size, not64, WORD] using this

theorem read_alloc_eq (m : Mem) (a : Nat) : read_alloc m a = m a % 2 := by
  simp [read_alloc, Nat.and_one_is_mod]

theorem write_size_used (m : Mem) (a sz : Nat) (h : sz % 8 = 0) :
    write_size m a sz 1 = m.write a (sz + 1) := by
  simp [write_size, or_one_of_even sz (by omega)]

theorem write_size_free (m : Mem) (a sz : Nat) : write_size m a sz 0 = m.write a sz := by
  simp [write_size]

/-! ## Memory and list lemmas -/

@[simp] theorem firstD_nil (d : Nat) : firstD [] d = d := rfl
@[simp] theorem firstD_cons (x : Nat) (t : List Nat) (d : Nat) : firstD (x :: t) d = x := rfl
@[simp] theorem lastD_nil (d : Nat) : lastD [] d = d := rfl
@[simp] theorem lastD_cons (x : Nat) (t : List Nat) (d : Nat) : lastD (x :: t) d = lastD t x := rfl

@[simp] theorem write_same (m : Mem) (a v : Nat) : m.write a v a = v := by simp [Mem.write]

theorem write_other (m : Mem) (a v x : Nat) (h : x ≠ a) : m.write a v x = m x := by
  simp [Mem.write, h]

theorem lastD_append_cons (xs : List Nat) (y : Nat) (ys : List Nat) (d : Nat) :
    lastD (xs ++ y :: ys) d = lastD ys y := by
  induction xs generalizing d with
  | nil => rfl
  | cons x t ih => simpa using ih x

theorem lastD_mem (xs : List Nat) (d : Nat) (h : xs ≠ []) : lastD xs d ∈ xs := by
  induction xs generalizing d with
  | nil => exact absurd rfl h
  | cons x t ih =>
    cases t with
    | nil => simp
    | cons y t => 
      have := ih x (by simp)
      simp only [lastD_cons] at this ⊢
      exact List.mem_cons_of_mem _ this

theorem Links_frame {m m' : Mem} {p n : Nat} {l : List Nat}
    (hf : ∀ x ∈ l, m' (x + 8) = m (x + 8) ∧ m' (x + 16) = m (x + 16))
    (h : Links m p l n) : Links m' p l n := by
  induction l generalizing p with
  | nil => trivial
  | cons x t ih =>
    obtain ⟨h0, h1, h2, h3⟩ := h
    have hx := hf x (List.mem_cons_self _ _)
    exact ⟨h0, by rw [hx.1]; exact h1, by rw [hx.2]; exact h2,
      ih (fun y hy => hf y (List.mem_cons_of_mem _ hy)) h3⟩

theorem Links_append {m : Mem} {p n : Nat} {xs ys : List Nat} :
    Links m p (xs ++ ys) n ↔ Links m p xs (firstD ys n) ∧ Links m (lastD xs p) ys n := by
  induction xs generalizing p with
  | nil => simp [Links, lastD]
  | cons x t ih =>
    cases t with
    | nil => simp [Links, and_assoc]
    | cons y t =>
      have := ih (p := x)
      simp only [List.cons_append, Links, lastD_cons, firstD_cons] at this ⊢
      rw [this]
      simp [and_assoc]

theorem Links_ne_zero {m : Mem} {p n : Nat} {l : List Nat} (h : Links m p l n) :
    ∀ x ∈ l, x ≠ 0 := by
  induction l generalizing p with
  | nil => simp
  | cons x t ih =>
    intro y hy
    rcases List.mem_cons.1 hy with rfl | hy
    · exact h.1
    · exact ih h.2.2.2 y hy

/-- Redirecting the `next` link of the last node. -/
theorem Links_set_next {m : Mem} {p n k : Nat} {l : List Nat} (hl : l ≠ [])
    (hp : l.Pairwise Far) (h : Links m p l n) :
    Links (m.write (lastD l p + 16) k) p l k := by
  induction l generalizing p with
  | nil => exact absurd rfl hl
  | cons x t ih =>
    obtain ⟨h0, h1, h2, h3⟩ := h
    rw [List.pairwise_cons] at hp
    cases t with
    | nil =>
      refine ⟨h0, ?_, ?_, trivial⟩
      · simp only [lastD_cons, lastD_nil]; rw [write_other _ _ _ _ (by omega)]; exact h1
      · simp
    | cons y t =>
      have ih' := ih (p := x) (by simp) hp.2 h3
      have hm : lastD (y :: t) x ∈ y :: t := lastD_mem _ _ (by simp)
      have hfar := hp.1 _ hm
      simp only [lastD_cons] at ih' hm hfar ⊢
      unfold Far at hfar
      refine ⟨h0, ?_, ?_, ih'⟩
      · rw [write_other _ _ _ _ (by omega)]; exact h1
      · rw [write_other _ _ _ _ (by omega)]; simpa using h2

/-- Redirecting the `prev` link of the first node. -/
theorem Links_set_prev {m : Mem} {p p' n y : Nat} {t : List Nat}
    (hp : (y :: t).Pairwise Far) (h : Links m p (y :: t) n) :
    Links (m.write (y + 8) p') p' (y :: t) n := by
  obtain ⟨h0, _, h2, h3⟩ := h
  rw [List.pairwise_cons] at hp
  refine ⟨h0, by simp, ?_, ?_⟩
  · rw [write_other _ _ _ _ (by omega)]; exact h2
  · apply Links_frame _ h3
    intro x hx
    have := hp.1 x hx
    unfold Far at this
    constructor <;> rw [write_other _ _ _ _ (by omega)]


theorem Far_ne {x y : Nat} (h : Far x y) : x ≠ y := by unfold Far at h; omega

theorem insert_node_spec (s : State) (h : Nat) (fl : List Nat)
    (hl : Links s.mem 0 fl 0) (hh : s.free_list_head = firstD fl 0)
    (hp : (h :: fl).Pairwise Far) (h0 : h ≠ 0) :
    Links (insert_node s h).mem 0 (h :: fl) 0 ∧ (insert_node s h).free_list_head = h ∧
    (insert_node s h).base = s.base ∧ (insert_node s h).end_ = s.end_ ∧
    (insert_node s h).seg = s.seg ∧
    (∀ x, (∀ y ∈ h :: fl, x ≠ y + 8 ∧ x ≠ y + 16) → (insert_node s h).mem x = s.mem x) := by
  have hp' := List.pairwise_cons.1 hp
  cases fl with
  | nil =>
    simp only [firstD_nil] at hh
    refine ⟨?_, rfl, rfl, rfl, rfl, ?_⟩
    · simp [insert_node, hh, Links, head_to_prev, head_to_next, head_to_payload, HFSIZE, PTRSIZE,
        Mem.write, h0]
    · intro x hx
      have := hx h (by simp)
      simp [insert_node, hh, head_to_prev, head_to_next, head_to_payload, HFSIZE, PTRSIZE,
        Mem.write, this.1, this.2]
  | cons y t =>
    simp only [firstD_cons] at hh
    have hy0 : y ≠ 0 := hl.1
    have hfar : Far h y := hp'.1 y (by simp)
    unfold Far at hfar
    have e : (insert_node s h).mem =
        ((s.mem.write (h + 8) 0).write (h + 16) y).write (y + 8) h := by
      simp [insert_node, hh, hy0, head_to_prev, head_to_next, head_to_payload, HFSIZE, PTRSIZE]
    refine ⟨?_, rfl, rfl, rfl, rfl, ?_⟩
    · rw [e]
      refine ⟨h0, ?_, ?_, ?_⟩
      · rw [write_other _ _ _ _ (by omega), write_other _ _ _ _ (by omega), write_same]
      · rw [write_other _ _ _ _ (by omega), write_same]; rfl
      · apply Links_set_prev hp'.2
        apply Links_frame _ hl
        intro x hx
        have hf : Far h x := hp'.1 x hx
        unfold Far at hf
        constructor <;>
          rw [write_other _ _ _ _ (by omega), write_other _ _ _ _ (by omega)]
    · intro x hx
      have h1 := hx h (by simp)
      have h2 := hx y (by simp)
      rw [e, write_other _ _ _ _ h2.1, write_other _ _ _ _ h1.2, write_other _ _ _ _ h1.1]

theorem delete_node_spec (s : State) (h : Nat) (xs ys : List Nat)
    (hl : Links s.mem 0 (xs ++ h :: ys) 0) (hh : s.free_list_head = firstD (xs ++ h :: ys) 0)
    (hp : (xs ++ h :: ys).Pairwise Far) :
    Links (delete_node s h).mem 0 (xs ++ ys) 0 ∧
    (delete_node s h).free_list_head = firstD (xs ++ ys) 0 ∧
    (delete_node s h).base = s.base ∧ (delete_node s h).end_ = s.end_ ∧
    (delete_node s h).seg = s.seg ∧
    (∀ x, (∀ y ∈ xs ++ ys, x ≠ y + 8 ∧ x ≠ y + 16) → (delete_node s h).mem x = s.mem x) := by
  rw [Links_append] at hl
  obtain ⟨hxs, hne, hprev, hnext, hys⟩ := hl
  rw [List.pairwise_append, List.pairwise_cons] at hp
  obtain ⟨pxs, ⟨phys, pys⟩, pxy⟩ := hp
  simp only [firstD_cons] at hxs
  rcases List.eq_nil_or_concat xs with rfl | ⟨xs', a, rfl⟩
  · simp only [lastD_nil] at hprev
    simp only [List.nil_append, firstD_cons] at hh ⊢
    cases ys with
    | nil =>
      simp only [firstD_nil] at hnext
      simp [delete_node, head_to_prev, head_to_next, head_to_payload, HFSIZE, PTRSIZE, hprev,
        hnext, Links]
    | cons y t =>
      simp only [firstD_cons] at hnext
      have hy0 : y ≠ 0 := hys.1
      have hfar : Far h y := phys y (by simp)
      unfold Far at hfar
      have e : delete_node s h =
          { s with mem := s.mem.write (y + 8) 0, free_list_head := y } := by
        simp [delete_node, head_to_prev, head_to_next, head_to_payload, HFSIZE, PTRSIZE, hprev,
          hnext, hy0]
        rw [write_other _ _ _ _ (by omega)]; exact hnext
      rw [e]
      refine ⟨Links_set_prev pys hys, rfl, rfl, rfl, rfl, ?_⟩
      intro x hx
      have := hx y (by simp)
      exact write_other _ _ _ _ this.1
  · simp only [List.concat_eq_append] at *
    have hla : lastD (xs' ++ [a]) 0 = a := by rw [lastD_append_cons]; rfl
    try rw [hla] at hprev
    have ha0 : a ≠ 0 := Links_ne_zero hxs a (by simp)
    have hfa : Far a h := pxy a (by simp) h (by simp)
    unfold Far at hfa
    have hhd : ∀ l : List Nat, firstD (xs' ++ [a] ++ l) 0 = firstD (xs' ++ [a]) 0 := by
      intro l; cases xs' <;> rfl
    rw [hhd] at hh
    have hset := Links_set_next (k := firstD ys 0) (by simp) pxs hxs
    rw [hla] at hset
    cases ys with
    | nil =>
      simp only [firstD_nil] at hnext hset
      have e : delete_node s h = { s with mem := s.mem.write (a + 16) 0 } := by
        simp [delete_node, head_to_prev, head_to_next, head_to_payload, HFSIZE, PTRSIZE, hprev,
          hnext, ha0]
      rw [e]
      refine ⟨by simpa using hset, by simpa using hh, rfl, rfl, rfl, ?_⟩
      intro x hx
      have := hx a (by simp)
      exact write_other _ _ _ _ this.2
    | cons y t =>
      simp only [firstD_cons] at hnext hset
      have hy0 : y ≠ 0 := hys.1
      have hfy : Far h y := phys y (by simp)
      have hay : Far a y := pxy a (by simp) y (by simp)
      unfold Far at hfy hay
      have e : delete_node s h =
          { s with mem := (s.mem.write (a + 16) y).write (y + 8) a } := by
        simp [delete_node, head_to_prev, head_to_next, head_to_payload, HFSIZE, PTRSIZE, hprev,
          hnext, ha0, hy0]
        rw [write_other _ _ _ _ (by omega), write_other _ _ _ _ (by omega), hprev, hnext]
      rw [e]
      refine ⟨?_, ?_, rfl, rfl, rfl, ?_⟩
      · rw [Links_append]
        simp only [firstD_cons]
        rw [hla]
        constructor
        · apply Links_frame _ hset
          intro x hx
          have hf : Far x y := pxy x hx y (by simp)
          unfold Far at hf
          constructor <;> rw [write_other _ _ _ _ (by omega)]
        · apply Links_set_prev pys
          apply Links_frame _ hys
          intro x hx
          have hf : Far a x := pxy a (by simp) x (List.mem_cons_of_mem _ (by simpa using hx))
          unfold Far at hf
          constructor <;> rw [write_other _ _ _ _ (by omega)]
      · rw [hhd]; exact hh
      · intro x hx
        have h1 := hx a (by simp)
        have h2 := hx y (by simp)
        show ((s.mem.write (a + 16) y).write (y + 8) a) x = s.mem x
        rw [write_other _ _ _ _ h2.1, write_other _ _ _ _ h1.2]



/-! ## Runs of blocks -/

@[simp] theorem span_nil : span [] = 0 := rfl
@[simp] theorem span_cons (b : Blk) (t : List Blk) : span (b :: t) = b.size + 16 + span t := rfl

@[simp] theorem span_append (xs ys : List Blk) : span (xs ++ ys) = span xs + span ys := by
  induction xs with
  | nil => simp
  | cons b t ih => simp [ih]; omega

theorem Shape_cons {b : Blk} {t : List Blk} :
    Shape (b :: t) ↔ (b.size % 8 = 0 ∧ 16 ≤ b.size) ∧ Shape t := by
  simp [Shape]

theorem Shape_append {xs ys : List Blk} : Shape (xs ++ ys) ↔ Shape xs ∧ Shape ys := by
  simp only [Shape, List.mem_append]
  constructor
  · intro h
    exact ⟨fun b hb => h b (Or.inl hb), fun b hb => h b (Or.inr hb)⟩
  · rintro ⟨h1, h2⟩ b (hb | hb)
    · exact h1 b hb
    · exact h2 b hb

theorem Shape_nil : Shape [] := by simp [Shape]

theorem Tags_append {m : Mem} {a : Nat} {xs ys : List Blk} :
    Tags m a (xs ++ ys) ↔ Tags m a xs ∧ Tags m (a + span xs) ys := by
  induction xs generalizing a with
  | nil => simp [Tags]
  | cons b t ih =>
    have e : a + 16 + b.size + span t = a + (b.size + 16 + span t) := by omega
    simp [Tags, ih, and_assoc, e]

theorem heads_append (a : Nat) (xs ys : List Blk) :
    heads a (xs ++ ys) = heads a xs ++ heads (a + span xs) ys := by
  induction xs generalizing a with
  | nil => simp [heads]
  | cons b t ih =>
    have e : a + 16 + b.size + span t = a + (b.size + 16 + span t) := by omega
    simp [heads, ih, e]

theorem freeHeads_append (a : Nat) (xs ys : List Blk) :
    freeHeads a (xs ++ ys) = freeHeads a xs ++ freeHeads (a + span xs) ys := by
  induction xs generalizing a with
  | nil => simp [freeHeads]
  | cons b t ih =>
    have e : a + 16 + b.size + span t = a + (b.size + 16 + span t) := by omega
    cases hb : b.used <;> simp [freeHeads, ih, e, hb]

theorem InUsed_append (a : Nat) (xs ys : List Blk) (x : Nat) :
    InUsed a (xs ++ ys) x ↔ InUsed a xs x ∨ InUsed (a + span xs) ys x := by
  induction xs generalizing a with
  | nil => simp [InUsed]
  | cons b t ih =>
    have e : a + 16 + b.size + span t = a + (b.size + 16 + span t) := by omega
    simp [InUsed, ih, e, or_assoc]

theorem heads_bounds {a : Nat} {bs : List Blk} (hs : Shape bs) {y : Nat}
    (hy : y ∈ heads a bs) : a ≤ y ∧ y + 32 ≤ a + span bs := by
  induction bs generalizing a with
  | nil => simp [heads] at hy
  | cons b t ih =>
    rw [Shape_cons] at hs
    simp only [heads, List.mem_cons] at hy
    rcases hy with rfl | hy
    · simp only [span_cons]; omega
    · have := ih hs.2 hy
      simp only [span_cons]; omega

theorem freeHeads_sub {a : Nat} {bs : List Blk} {y : Nat} (hy : y ∈ freeHeads a bs) :
    y ∈ heads a bs := by
  induction bs generalizing a with
  | nil => simp [freeHeads] at hy
  | cons b t ih =>
    cases hb : b.used
    · simp only [freeHeads, hb, heads, List.mem_cons, Bool.false_eq_true, if_false] at hy ⊢
      rcases hy with hy | hy
      · exact Or.inl hy
      · exact Or.inr (ih hy)
    · simp only [freeHeads, hb, heads, List.mem_cons, if_true] at hy ⊢
      exact Or.inr (ih hy)

theorem InUsed_bounds {a : Nat} {bs : List Blk} {x : Nat} (h : InUsed a bs x) :
    a ≤ x ∧ x < a + span bs := by
  induction bs generalizing a with
  | nil => exact absurd h (by simp [InUsed])
  | cons b t ih =>
    simp only [InUsed] at h
    rcases h with h | h
    · simp only [span_cons]; omega
    · have := ih h
      simp only [span_cons]; omega

theorem heads_far {a : Nat} {bs : List Blk} (hs : Shape bs) {x y : Nat}
    (hx : x ∈ heads a bs) (hy : y ∈ heads a bs) (hne : x ≠ y) : Far x y := by
  induction bs generalizing a with
  | nil => simp [heads] at hx
  | cons b t ih =>
    rw [Shape_cons] at hs
    simp only [heads, List.mem_cons] at hx hy
    unfold Far
    rcases hx with rfl | hx <;> rcases hy with rfl | hy
    · exact absurd rfl hne
    · have := heads_bounds hs.2 hy; omega
    · have := heads_bounds hs.2 hx; omega
    · exact ih hs.2 hx hy

theorem heads_pairwise {a : Nat} {bs : List Blk} (hs : Shape bs) {l : List Nat}
    (hn : l.Nodup) (hl : ∀ y ∈ l, y ∈ heads a bs) : l.Pairwise Far :=
  hn.pairwise_of_forall_ne (fun x hx y hy hne => heads_far hs (hl x hx) (hl y hy) hne)

theorem Tags_frame {m m' : Mem} {a : Nat} {bs : List Blk} (hs : Shape bs)
    (hf : ∀ x, a ≤ x → x < a + span bs → ¬ Cells (heads a bs) x → m' x = m x)
    (h : Tags m a bs) : Tags m' a bs := by
  induction bs generalizing a with
  | nil => trivial
  | cons b t ih =>
    rw [Shape_cons] at hs
    obtain ⟨h1, h2, h3⟩ := h
    simp only [span_cons] at hf
    refine ⟨?_, ?_, ih hs.2 ?_ h3⟩
    · rw [hf a (by omega) (by omega)]; exact h1
      rintro ⟨y, hy, hxy⟩
      have := heads_bounds (Shape_cons.2 hs) hy
      omega
    · rw [hf _ (by omega) (by omega)]; exact h2
      rintro ⟨y, hy, hxy⟩
      simp only [heads, List.mem_cons] at hy
      rcases hy with rfl | hy
      · omega
      · have := heads_bounds hs.2 hy; omega
    · intro x hx1 hx2 hc
      apply hf x (by omega) (by omega)
      rintro ⟨y, hy, hxy⟩
      simp only [heads, List.mem_cons] at hy
      rcases hy with rfl | hy
      · omega
      · exact hc ⟨y, hy, hxy⟩

theorem Tags_frame_range {m m' : Mem} {a : Nat} {bs : List Blk} (hs : Shape bs)
    (hf : ∀ x, a ≤ x → x < a + span bs → m' x = m x) (h : Tags m a bs) : Tags m' a bs :=
  Tags_frame hs (fun x h1 h2 _ => hf x h1 h2) h

/-- A used footprint holds no link cell of a free block. -/
theorem InUsed_not_cell {a : Nat} {bs : List Blk} (hs : Shape bs) {x : Nat}
    (h : InUsed a bs x) : ¬ Cells (freeHeads a bs) x := by
  induction bs generalizing a with
  | nil => exact absurd h (by simp [InUsed])
  | cons b t ih =>
    rw [Shape_cons] at hs
    simp only [InUsed] at h
    rintro ⟨y, hy, hxy⟩
    rcases h with ⟨hb, h1, h2⟩ | h
    · simp only [freeHeads, hb, if_true] at hy
      have := heads_bounds hs.2 (freeHeads_sub hy)
      omega
    · have hb := InUsed_bounds h
      cases hu : b.used <;> simp only [freeHeads, hu] at hy
      · simp only [Bool.false_eq_true, if_false, List.mem_cons] at hy
        rcases hy with rfl | hy
        · omega
        · exact ih hs.2 h ⟨y, hy, hxy⟩
      · exact ih hs.2 h ⟨y, by simpa using hy, hxy⟩

theorem read_size_tag {m : Mem} {a : Nat} {b : Blk} (h : m a = b.tag) (h8 : b.size % 8 = 0)
    (hb : b.size < WORD) : read_size m a = b.size := by
  rw [read_size_eq, h]
  unfold Blk.tag WORD at *
  cases b.used <;> simp <;> omega

theorem read_alloc_tag {m : Mem} {a : Nat} {b : Blk} (h : m a = b.tag) (h8 : b.size % 8 = 0) :
    read_alloc m a = if b.used then 1 else 0 := by
  rw [read_alloc_eq, h]
  unfold Blk.tag
  cases b.used <;> simp <;> omega


theorem Cells_mono {l l' : List Nat} {x : Nat} (h : ∀ y ∈ l, y ∈ l') (hc : Cells l x) :
    Cells l' x := by
  obtain ⟨y, hy, hxy⟩ := hc
  exact ⟨y, h y hy, hxy⟩

theorem Mid_delete {s : State} {bs : List Blk} {fl : List Nat} {h : Nat}
    (hM : Mid s bs fl) (hm : h ∈ fl) (hsub : ∀ y ∈ fl, y ≠ h → y ∈ heads s.base bs) :
    ∃ fl', Mid (delete_node s h) bs fl' ∧ (∀ x, x ∈ fl' ↔ x ∈ fl ∧ x ≠ h) ∧
      (∀ x, ¬ Cells fl' x → (delete_node s h).mem x = s.mem x) := by
  obtain ⟨xs, ys, rfl⟩ := List.append_of_mem hm
  obtain ⟨h1, h2, h3, h4, h5, h6⟩ := delete_node_spec s h xs ys hM.links hM.head hM.far
  have hfar := hM.far
  rw [List.pairwise_append, List.pairwise_cons] at hfar
  obtain ⟨pxs, ⟨phys, pys⟩, pxy⟩ := hfar
  have hmem : ∀ x, x ∈ xs ++ ys ↔ x ∈ xs ++ h :: ys ∧ x ≠ h := by
    intro x
    simp only [List.mem_append, List.mem_cons]
    constructor
    · rintro (hx | hx)
      · exact ⟨Or.inl hx, Far_ne (pxy x hx h (by simp))⟩
      · exact ⟨Or.inr (Or.inr hx), (Far_ne (phys x hx)).symm⟩
    · rintro ⟨hx | rfl | hx, hne⟩
      · exact Or.inl hx
      · exact absurd rfl hne
      · exact Or.inr hx
  have hfr : ∀ x, ¬ Cells (xs ++ ys) x → (delete_node s h).mem x = s.mem x := by
    intro x hx
    apply h6
    intro y hy
    constructor <;> intro hxy <;> exact hx ⟨y, hy, by simp [hxy]⟩
  refine ⟨xs ++ ys, ⟨?_, hM.shape, ?_, ?_, h1, h2, ?_⟩, hmem, hfr⟩
  · have g := hM.geo
    exact ⟨by rw [h3]; exact g.base_pos, by rw [h3]; exact g.base_al,
      by rw [h5, h3]; exact g.seg_start, by rw [h5, h3, h4]; exact g.seg_size,
      by rw [h4]; exact g.bound⟩
  · rw [h3]
    apply Tags_frame hM.shape _ hM.tags
    intro x _ _ hc
    apply hfr
    intro hc'
    apply hc
    apply Cells_mono _ hc'
    intro y hy
    have := (hmem y).1 hy
    exact hsub y this.1 this.2
  · rw [h3, h4]; exact hM.span_eq
  · rw [List.pairwise_append]
    exact ⟨pxs, pys, fun a ha b hb => pxy a ha b (List.mem_cons_of_mem _ hb)⟩

theorem Mid_insert {s : State} {bs : List Blk} {fl : List Nat} {h : Nat}
    (hM : Mid s bs fl) (hh : h ∈ heads s.base bs) (hsub : ∀ y ∈ fl, y ∈ heads s.base bs)
    (hn : h ∉ fl) :
    Mid (insert_node s h) bs (h :: fl) ∧
      (∀ x, ¬ Cells (h :: fl) x → (insert_node s h).mem x = s.mem x) := by
  have hp : (h :: fl).Pairwise Far := by
    rw [List.pairwise_cons]
    refine ⟨fun y hy => heads_far hM.shape hh (hsub y hy) ?_, hM.far⟩
    rintro rfl
    exact hn hy
  have h0 : h ≠ 0 := by
    have := heads_bounds hM.shape hh
    have := hM.geo.base_pos
    omega
  obtain ⟨h1, h2, h3, h4, h5, h6⟩ := insert_node_spec s h fl hM.links hM.head hp h0
  have hfr : ∀ x, ¬ Cells (h :: fl) x → (insert_node s h).mem x = s.mem x := by
    intro x hx
    apply h6
    intro y hy
    constructor <;> intro hxy <;> exact hx ⟨y, hy, by simp [hxy]⟩
  refine ⟨⟨?_, hM.shape, ?_, ?_, h1, by rw [h2]; rfl, hp⟩, hfr⟩
  · have g := hM.geo
    exact ⟨by rw [h3]; exact g.base_pos, by rw [h3]; exact g.base_al,
      by rw [h5, h3]; exact g.seg_start, by rw [h5, h3, h4]; exact g.seg_size,
      by rw [h4]; exact g.bound⟩
  · rw [h3]
    apply Tags_frame hM.shape _ hM.tags
    intro x _ _ hc
    apply hfr
    intro hc'
    apply hc
    apply Cells_mono _ hc'
    intro y hy
    rcases List.mem_cons.1 hy with rfl | hy
    · exact hh
    · exact hsub y hy
  · rw [h3, h4]; exact hM.span_eq

/-! ### No two adjacent free blocks -/

theorem NoAdj_left {xs ys : List Blk} (h : NoAdj (xs ++ ys)) : NoAdj xs :=
  List.Chain'.left_of_append h

theorem NoAdj_right {l r : List Blk} (h : NoAdj (l ++ r)) : NoAdj r :=
  List.Chain'.right_of_append h

theorem NoAdj_congr {bs bs' : List Blk} (h : bs.map Blk.used = bs'.map Blk.used)
    (hn : NoAdj bs) : NoAdj bs' := by
  have key : ∀ l : List Blk, NoAdj l ↔
      List.Chain' (fun (b c : Bool) => b = true ∨ c = true) (l.map Blk.used) := by
    intro l
    unfold NoAdj
    rw [List.chain'_map]
  rw [key] at hn ⊢
  rw [← h]; exact hn

theorem NoAdj_used_cons {u : Blk} {ys : List Blk} (hu : u.used = true) (h : NoAdj ys) :
    NoAdj (u :: ys) := by
  unfold NoAdj at *
  cases ys with
  | nil => simp
  | cons y t => exact List.Chain'.cons (Or.inl hu) h

theorem NoAdj_snoc_used {u : Blk} {xs : List Blk} (hu : u.used = true) (h : NoAdj xs) :
    NoAdj (xs ++ [u]) := by
  unfold NoAdj at *
  rw [List.chain'_append]
  refine ⟨h, by simp, ?_⟩
  intro x _ y hy
  simp at hy
  subst hy
  exact Or.inr hu

theorem NoAdj_split {xs ys : List Blk} {b : Blk} :
    NoAdj (xs ++ b :: ys) ↔ NoAdj (xs ++ [b]) ∧ NoAdj (b :: ys) :=
  List.chain'_split

theorem NoAdj_cons_cons {b c : Blk} {t : List Blk} :
    NoAdj (b :: c :: t) ↔ (b.used = true ∨ c.used = true) ∧ NoAdj (c :: t) :=
  List.chain'_cons

theorem NoAdj_snoc_snoc {b c : Blk} {t : List Blk} :
    NoAdj (t ++ [b] ++ [c]) ↔ NoAdj (t ++ [b]) ∧ (b.used = true ∨ c.used = true) := by
  rw [List.append_assoc]
  show NoAdj (t ++ b :: [c]) ↔ _
  rw [NoAdj_split, NoAdj_cons_cons]
  simp [NoAdj]


theorem read_size_write_ne (m : Mem) (a v x : Nat) (h : x ≠ a) :
    read_size (m.write a v) x = read_size m x := by
  simp [read_size, write_other _ _ _ _ h]

theorem read_alloc_write_ne (m : Mem) (a v x : Nat) (h : x ≠ a) :
    read_alloc (m.write a v) x = read_alloc m x := by
  simp [read_alloc, write_other _ _ _ _ h]

theorem read_size_write_used (m : Mem) (a sz : Nat) (h8 : sz % 8 = 0) (hb : sz < WORD) :
    read_size (m.write a (sz + 1)) a = sz := by
  rw [read_size_eq, write_same]; unfold WORD at hb; omega

theorem read_size_write_free (m : Mem) (a sz : Nat) (h8 : sz % 8 = 0) (hb : sz < WORD) :
    read_size (m.write a sz) a = sz := by
  rw [read_size_eq, write_same]; unfold WORD at hb; omega

theorem sub64_eq {a b : Nat} (h : b ≤ a) (ha : a < WORD) : sub64 a b = a - b := by
  unfold sub64; unfold WORD at *; omega

theorem add64_eq {a b : Nat} (h : a + b < WORD) : add64 a b = a + b := by
  unfold add64; unfold WORD at *; omega

theorem allocate_split_eq (s : State) (a f size : Nat) (hm : s.mem a = f) (hf8 : f % 8 = 0)
    (hfb : f < WORD) (h8 : size % 8 = 0) (hle : size + 32 ≤ f) :
    allocate s (a + 8) size =
      insert_node (delete_node { s with mem :=
        (((s.mem.write a (size + 1)).write (a + 8 + size) (size + 1)).write
          (a + 16 + size) (f - size - 16)).write (a + 8 + f) (f - size - 16) } a)
        (a + 16 + size) := by
  have hrs : read_size s.mem a = f := by
    rw [read_size_eq, hm]; unfold WORD at hfb; omega
  have hsb : size < WORD := by omega
  have e1 : sub64 f size = f - size := sub64_eq (by omega) hfb
  have e2 : sub64 (f - size) 16 = f - size - 16 := sub64_eq (by omega) (by omega)
  unfold allocate
  simp only [payload_to_head, payload_to_foot, next_block, HFSIZE, PTRSIZE, Nat.add_sub_cancel,
    hrs, e1, e2]
  have c : f - size ≥ 2 * 8 + 2 * 8 := by omega
  simp only [c, if_true, write_size_used _ _ _ h8, write_size_free,
    read_size_write_used _ _ _ h8 hsb]
  have r2 : read_size ((s.mem.write a (size + 1)).write (a + 8 + size) (size + 1)) a = size := by
    rw [read_size_write_ne _ _ _ _ (by omega), read_size_write_used _ _ _ h8 hsb]
  simp only [r2]
  have e3 : a + 8 + size + 2 * 8 - 8 = a + 16 + size := by omega
  simp only [e3]
  have r3 : read_size ((((s.mem.write a (size + 1)).write (a + 8 + size) (size + 1)).write
          (a + 16 + size) (f - size - 16))) (a + 16 + size) = f - size - 16 :=
    read_size_write_free _ _ _ (by omega) (by omega)
  simp only [r3]
  have e4 : a + 8 + size + 2 * 8 + (f - size - 16) = a + 8 + f := by omega
  simp only [e4]

@[simp] theorem delete_node_base (s : State) (h : Nat) : (delete_node s h).base = s.base := by
  unfold delete_node; dsimp only; split_ifs <;> rfl

@[simp] theorem delete_node_end (s : State) (h : Nat) : (delete_node s h).end_ = s.end_ := by
  unfold delete_node; dsimp only; split_ifs <;> rfl

@[simp] theorem delete_node_seg (s : State) (h : Nat) : (delete_node s h).seg = s.seg := by
  unfold delete_node; dsimp only; split_ifs <;> rfl

@[simp] theorem insert_node_base (s : State) (h : Nat) : (insert_node s h).base = s.base := rfl

@[simp] theorem insert_node_end (s : State) (h : Nat) : (insert_node s h).end_ = s.end_ := rfl

@[simp] theorem insert_node_seg (s : State) (h : Nat) : (insert_node s h).seg = s.seg := rfl

theorem Geo_mem {s : State} (g : Geo s) (m : Mem) : Geo { s with mem := m } :=
  ⟨g.base_pos, g.base_al, g.seg_start, g.seg_size, g.bound⟩

theorem Rep_far {s : State} {bs : List Blk} {fl : List Nat} (h : Rep s bs fl) :
    ∀ y ∈ fl, y ∈ heads s.base bs := fun y hy => freeHeads_sub ((h.mem_iff y).1 hy)

theorem allocate_split_spec {s : State} {pre post : List Blk} {f size : Nat} {fl : List Nat}
    (hR : Rep s (pre ++ ⟨f, false⟩ :: post) fl) (h8 : size % 8 = 0) (h16 : 16 ≤ size)
    (hle : size + 32 ≤ f) :
    ∃ fl', Rep (allocate s (s.base + span pre + 8) size)
        (pre ++ ⟨size, true⟩ :: ⟨f - size - 16, false⟩ :: post) fl' ∧
      (∀ x, ¬ (s.base + span pre ≤ x ∧ x < s.base + span pre + 16 + f) → ¬ Cells fl x →
        (allocate s (s.base + span pre + 8) size).mem x = s.mem x) := by
  have hM := hR.mid
  have hg := hM.geo
  obtain ⟨hspre, hsb, hspost⟩ : Shape pre ∧ (f % 8 = 0 ∧ 16 ≤ f) ∧ Shape post := by
    have := hM.shape
    rw [Shape_append, Shape_cons] at this
    exact ⟨this.1, this.2.1, this.2.2⟩
  obtain ⟨htpre, hth, htf, htpost⟩ : Tags s.mem s.base pre ∧ s.mem (s.base + span pre) = f ∧
      s.mem (s.base + span pre + 8 + f) = f ∧ Tags s.mem (s.base + span pre + 16 + f) post :=
    Tags_append.1 hM.tags
  have hsp : s.base + (span pre + (f + 16 + span post)) = s.end_ + 8 := by
    have := hM.span_eq
    simpa only [span_append, span_cons] using this
  have hb := hg.bound
  generalize ha : s.base + span pre = a at *
  have hfb : f < WORD := by omega
  rw [allocate_split_eq s a f size hth hsb.1 hfb h8 hle]
  generalize hM4 : (((s.mem.write a (size + 1)).write (a + 8 + size) (size + 1)).write
          (a + 16 + size) (f - size - 16)).write (a + 8 + f) (f - size - 16) = M4
  have hM4x : ∀ x, x ≠ a → x ≠ a + 8 + size → x ≠ a + 16 + size → x ≠ a + 8 + f →
      M4 x = s.mem x := by
    intro x h1 h2 h3 h4
    rw [← hM4, write_other _ _ _ _ h4, write_other _ _ _ _ h3, write_other _ _ _ _ h2,
      write_other _ _ _ _ h1]
  have e1 : a + 16 + size + 16 + (f - size - 16) = a + 16 + f := by omega
  have e2 : a + 16 + size + 8 + (f - size - 16) = a + 8 + f := by omega
  -- positions of the nodes of the old list
  have hpos : ∀ y ∈ fl, (y ∈ heads s.base pre ∧ y + 32 ≤ a) ∨ y = a ∨
      (y ∈ heads (a + 16 + f) post ∧ a + 16 + f ≤ y) := by
    intro y hy
    have := Rep_far hR y hy
    rw [heads_append, ha] at this
    simp only [heads, List.mem_append, List.mem_cons] at this
    rcases this with h | h | h
    · have := heads_bounds hspre h
      exact Or.inl ⟨h, by omega⟩
    · exact Or.inr (Or.inl h)
    · have := heads_bounds hspost h
      exact Or.inr (Or.inr ⟨h, by omega⟩)
  have hMid4 : Mid { s with mem := M4 }
      (pre ++ ⟨size, true⟩ :: ⟨f - size - 16, false⟩ :: post) fl := by
    refine ⟨Geo_mem hg M4, ?_, ?_, ?_, ?_, hM.head, hM.far⟩
    · rw [Shape_append, Shape_cons, Shape_cons]
      exact ⟨hspre, ⟨h8, h16⟩, ⟨by dsimp only; omega, by dsimp only; omega⟩, hspost⟩
    · show Tags M4 s.base _
      rw [Tags_append]
      simp only [Tags, Blk.tag, if_true, Bool.false_eq_true, if_false, Nat.add_zero, ha, e1, e2]
      refine ⟨Tags_frame_range hspre ?_ htpre, ?_, ?_, ?_, ?_, ?_⟩
      · intro x _ hx
        exact hM4x x (by omega) (by omega) (by omega) (by omega)
      · rw [← hM4]
        rw [write_other _ _ _ _ (by omega), write_other _ _ _ _ (by omega),
          write_other _ _ _ _ (by omega), write_same]
      · rw [← hM4]
        rw [write_other _ _ _ _ (by omega), write_other _ _ _ _ (by omega), write_same]
      · rw [← hM4]
        rw [write_other _ _ _ _ (by omega), write_same]
      · rw [← hM4]
        rw [write_same]
      · apply Tags_frame_range hspost _ htpost
        intro x hx _
        exact hM4x x (by omega) (by omega) (by omega) (by omega)
    · show s.base + _ = s.end_ + 8
      simp only [span_append, span_cons]
      omega
    · apply Links_frame _ hM.links
      intro y hy
      rcases hpos y hy with h | h | h
      · exact ⟨hM4x _ (by omega) (by omega) (by omega) (by omega),
          hM4x _ (by omega) (by omega) (by omega) (by omega)⟩
      · exact ⟨hM4x _ (by omega) (by omega) (by omega) (by omega),
          hM4x _ (by omega) (by omega) (by omega) (by omega)⟩
      · exact ⟨hM4x _ (by omega) (by omega) (by omega) (by omega),
          hM4x _ (by omega) (by omega) (by omega) (by omega)⟩
  have hhd : ∀ y, y ∈ heads s.base (pre ++ ⟨size, true⟩ :: ⟨f - size - 16, false⟩ :: post) ↔
      y ∈ heads s.base pre ∨ y = a ∨ y = a + 16 + size ∨ y ∈ heads (a + 16 + f) post := by
    intro y
    rw [heads_append, ha]
    simp only [heads, List.mem_append, List.mem_cons, e1]
  simp only [delete_node_base, insert_node_base] at *
  have hain : a ∈ fl := by
    rw [hR.mem_iff, freeHeads_append, ha]
    simp [freeHeads]
  obtain ⟨fl1, hMid5, hmem5, hfr5⟩ := Mid_delete (h := a) hMid4 hain (by
    intro y hy hne
    show y ∈ heads s.base _
    rw [hhd]
    rcases hpos y hy with h | h | h
    · exact Or.inl h.1
    · exact absurd h hne
    · exact Or.inr (Or.inr (Or.inr h.1)))
  have hsub5 : ∀ y ∈ fl1, y ∈ heads s.base
      (pre ++ ⟨size, true⟩ :: ⟨f - size - 16, false⟩ :: post) := by
    intro y hy
    have := (hmem5 y).1 hy
    rw [hhd]
    rcases hpos y this.1 with h | h | h
    · exact Or.inl h.1
    · exact absurd h this.2
    · exact Or.inr (Or.inr (Or.inr h.1))
  have hnin : a + 16 + size ∉ fl1 := by
    intro hin
    have := (hmem5 _).1 hin
    rcases hpos _ this.1 with h | h | h <;> omega
  obtain ⟨hMid6, hfr6⟩ := Mid_insert (h := a + 16 + size) hMid5
    (by rw [delete_node_base]; show _ ∈ heads s.base _; rw [hhd]
        exact Or.inr (Or.inr (Or.inl rfl)))
    (by simpa only [delete_node_base] using hsub5) hnin
  refine ⟨(a + 16 + size) :: fl1, ⟨hMid6, by simp, ?_, ?_⟩, ?_⟩
  · intro y
    rw [insert_node_base, delete_node_base]
    show y ∈ _ ↔ y ∈ freeHeads s.base _
    rw [freeHeads_append, ha]
    simp only [freeHeads, if_true, Bool.false_eq_true, if_false, List.mem_append, List.mem_cons,
      e1, hmem5, hR.mem_iff, freeHeads_append, ha]
    constructor
    · rintro (h | ⟨h | h | h, hne⟩)
      · exact Or.inr (Or.inl h)
      · exact Or.inl h
      · exact absurd h hne
      · exact Or.inr (Or.inr h)
    · rintro (h | h | h)
      · refine Or.inr ⟨Or.inl h, ?_⟩
        have := heads_bounds hspre (freeHeads_sub h); omega
      · exact Or.inl h
      · refine Or.inr ⟨Or.inr (Or.inr h), ?_⟩
        have := heads_bounds hspost (freeHeads_sub h); omega
  · have hn := hR.noadj
    rw [NoAdj_split] at hn
    have h1 : NoAdj (⟨f - size - 16, false⟩ :: post) :=
      NoAdj_congr (by simp) hn.2
    have h2 : NoAdj (⟨size, true⟩ :: ⟨f - size - 16, false⟩ :: post) := NoAdj_used_cons rfl h1
    rw [NoAdj_split]
    exact ⟨NoAdj_snoc_used rfl (NoAdj_left hn.1), h2⟩
  · intro x hx hc
    rw [hfr6 x, hfr5 x, ← hM4]
    · show (((s.mem.write a (size + 1)).write (a + 8 + size) (size + 1)).write
          (a + 16 + size) (f - size - 16)).write (a + 8 + f) (f - size - 16) x = s.mem x
      rw [write_other _ _ _ _ (by omega), write_other _ _ _ _ (by omega),
        write_other _ _ _ _ (by omega), write_other _ _ _ _ (by omega)]
    · intro hc'
      exact hc (Cells_mono (fun y hy => ((hmem5 y).1 hy).1) hc')
    · rintro ⟨y, hy, hxy⟩
      rcases List.mem_cons.1 hy with rfl | hy
      · omega
      · exact hc ⟨y, ((hmem5 y).1 hy).1, hxy⟩

theorem allocate_whole_eq (s : State) (a f size : Nat) (hm : s.mem a = f) (hf8 : f % 8 = 0)
    (hfb : f < WORD) (hle : size ≤ f) (hlt : f < size + 32) :
    allocate s (a + 8) size =
      delete_node { s with mem := (s.mem.write a (f + 1)).write (a + 8 + f) (f + 1) } a := by
  have hrs : read_size s.mem a = f := by
    rw [read_size_eq, hm]; unfold WORD at hfb; omega
  have e1 : sub64 f size = f - size := sub64_eq (by omega) hfb
  unfold allocate
  simp only [payload_to_head, payload_to_foot, HFSIZE, PTRSIZE, Nat.add_sub_cancel, hrs, e1]
  have c : ¬ (f - size ≥ 2 * 8 + 2 * 8) := by omega
  simp only [c, if_false, write_size_used _ _ _ hf8, read_size_write_used _ _ _ hf8 hfb]

theorem allocate_whole_spec {s : State} {pre post : List Blk} {f size : Nat} {fl : List Nat}
    (hR : Rep s (pre ++ ⟨f, false⟩ :: post) fl) (hle : size ≤ f) (hlt : f < size + 32) :
    ∃ fl', Rep (allocate s (s.base + span pre + 8) size) (pre ++ ⟨f, true⟩ :: post) fl' ∧
      (∀ x, ¬ (s.base + span pre ≤ x ∧ x < s.base + span pre + 16 + f) → ¬ Cells fl x →
        (allocate s (s.base + span pre + 8) size).mem x = s.mem x) := by
  have hM := hR.mid
  have hg := hM.geo
  obtain ⟨hspre, hsb, hspost⟩ : Shape pre ∧ (f % 8 = 0 ∧ 16 ≤ f) ∧ Shape post := by
    have := hM.shape
    rw [Shape_append, Shape_cons] at this
    exact ⟨this.1, this.2.1, this.2.2⟩
  obtain ⟨htpre, hth, htf, htpost⟩ : Tags s.mem s.base pre ∧ s.mem (s.base + span pre) = f ∧
      s.mem (s.base + span pre + 8 + f) = f ∧ Tags s.mem (s.base + span pre + 16 + f) post :=
    Tags_append.1 hM.tags
  have hsp : s.base + (span pre + (f + 16 + span post)) = s.end_ + 8 := by
    have := hM.span_eq
    simpa only [span_append, span_cons] using this
  have hb := hg.bound
  generalize ha : s.base + span pre = a at *
  have hfb : f < WORD := by omega
  rw [allocate_whole_eq s a f size hth hsb.1 hfb hle hlt]
  generalize hM4 : (s.mem.write a (f + 1)).write (a + 8 + f) (f + 1) = M4
  have hM4x : ∀ x, x ≠ a → x ≠ a + 8 + f → M4 x = s.mem x := by
    intro x h1 h2
    rw [← hM4, write_other _ _ _ _ h2, write_other _ _ _ _ h1]
  have hpos : ∀ y ∈ fl, (y ∈ heads s.base pre ∧ y + 32 ≤ a) ∨ y = a ∨
      (y ∈ heads (a + 16 + f) post ∧ a + 16 + f ≤ y) := by
    intro y hy
    have := Rep_far hR y hy
    rw [heads_append, ha] at this
    simp only [heads, List.mem_append, List.mem_cons] at this
    rcases this with h | h | h
    · have := heads_bounds hspre h
      exact Or.inl ⟨h, by omega⟩
    · exact Or.inr (Or.inl h)
    · have := heads_bounds hspost h
      exact Or.inr (Or.inr ⟨h, by omega⟩)
  have hMid4 : Mid { s with mem := M4 } (pre ++ ⟨f, true⟩ :: post) fl := by
    refine ⟨Geo_mem hg M4, ?_, ?_, ?_, ?_, hM.head, hM.far⟩
    · rw [Shape_append, Shape_cons]
      exact ⟨hspre, hsb, hspost⟩
    · show Tags M4 s.base _
      rw [Tags_append]
      simp only [Tags, Blk.tag, if_true, ha]
      refine ⟨Tags_frame_range hspre ?_ htpre, ?_, ?_, ?_⟩
      · intro x _ hx
        exact hM4x x (by omega) (by omega)
      · rw [← hM4, write_other _ _ _ _ (by omega), write_same]
      · rw [← hM4, write_same]
      · apply Tags_frame_range hspost _ htpost
        intro x hx _
        exact hM4x x (by omega) (by omega)
    · show s.base + _ = s.end_ + 8
      simp only [span_append, span_cons]
      omega
    · apply Links_frame _ hM.links
      intro y hy
      rcases hpos y hy with h | h | h
      · exact ⟨hM4x _ (by omega) (by omega), hM4x _ (by omega) (by omega)⟩
      · exact ⟨hM4x _ (by omega) (by omega), hM4x _ (by omega) (by omega)⟩
      · exact ⟨hM4x _ (by omega) (by omega), hM4x _ (by omega) (by omega)⟩
  have hhd : ∀ y, y ∈ heads s.base (pre ++ ⟨f, true⟩ :: post) ↔
      y ∈ heads s.base pre ∨ y = a ∨ y ∈ heads (a + 16 + f) post := by
    intro y
    rw [heads_append, ha]
    simp only [heads, List.mem_append, List.mem_cons]
  have hain : a ∈ fl := by
    rw [hR.mem_iff, freeHeads_append, ha]
    simp [freeHeads]
  obtain ⟨fl1, hMid5, hmem5, hfr5⟩ := Mid_delete (h := a) hMid4 hain (by
    intro y hy hne
    show y ∈ heads s.base _
    rw [hhd]
    rcases hpos y hy with h | h | h
    · exact Or.inl h.1
    · exact absurd h hne
    · exact Or.inr (Or.inr h.1))
  refine ⟨fl1, ⟨hMid5, by simp, ?_, ?_⟩, ?_⟩
  · intro y
    rw [delete_node_base]
    show y ∈ _ ↔ y ∈ freeHeads s.base _
    rw [freeHeads_append, ha]
    simp only [freeHeads, if_true, List.mem_append, hmem5, hR.mem_iff, freeHeads_append, ha,
      Bool.false_eq_true, if_false, List.mem_cons]
    constructor
    · rintro ⟨h | h | h, hne⟩
      · exact Or.inl h
      · exact absurd h hne
      · exact Or.inr h
    · rintro (h | h)
      · refine ⟨Or.inl h, ?_⟩
        have := heads_bounds hspre (freeHeads_sub h); omega
      · refine ⟨Or.inr (Or.inr h), ?_⟩
        have := heads_bounds hspost (freeHeads_sub h); omega
  · have hn := hR.noadj
    rw [NoAdj_split] at hn
    rw [NoAdj_split]
    exact ⟨NoAdj_snoc_used rfl (NoAdj_left hn.1), NoAdj_used_cons rfl (NoAdj_right (l := [_]) hn.2)⟩
  · intro x hx hc
    rw [hfr5 x, ← hM4]
    · show (s.mem.write a (f + 1)).write (a + 8 + f) (f + 1) x = s.mem x
      rw [write_other _ _ _ _ (by omega), write_other _ _ _ _ (by omega)]
    · intro hc'
      exact hc (Cells_mono (fun y hy => ((hmem5 y).1 hy).1) hc')


theorem prevFree_none {pre : List Blk} (h : prevFree pre = none) :
    pre = [] ∨ ∃ pre' c, pre = pre' ++ [c] ∧ c.used = true := by
  rcases List.eq_nil_or_concat pre with rfl | ⟨pre', c, rfl⟩
  · exact Or.inl rfl
  · right
    refine ⟨pre', c, by simp, ?_⟩
    simp [prevFree] at h
    cases hc : c.used
    · simp [hc] at h
    · rfl

theorem prevFree_some {pre : List Blk} {p : Nat} (h : prevFree pre = some p) :
    ∃ pre', pre = pre' ++ [⟨p, false⟩] := by
  rcases List.eq_nil_or_concat pre with rfl | ⟨pre', c, rfl⟩
  · simp [prevFree] at h
  · refine ⟨pre', ?_⟩
    simp [prevFree] at h
    cases c with
    | mk size used =>
      cases used
      · simp at h; simp [h]
      · simp at h

theorem nextFree_none {post : List Blk} (h : nextFree post = none) :
    post = [] ∨ ∃ d post', post = d :: post' ∧ d.used = true := by
  cases post with
  | nil => exact Or.inl rfl
  | cons d t =>
    right
    refine ⟨d, t, rfl, ?_⟩
    cases hd : d.used
    · simp [nextFree, hd] at h
    · rfl

theorem nextFree_some {post : List Blk} {n : Nat} (h : nextFree post = some n) :
    ∃ post', post = ⟨n, false⟩ :: post' := by
  cases post with
  | nil => simp [nextFree] at h
  | cons d t =>
    refine ⟨t, ?_⟩
    cases d with
    | mk size used =>
      cases used
      · simp [nextFree] at h; simp [h]
      · simp [nextFree] at h

theorem prevFree_snoc_free (pre : List Blk) (p : Nat) : prevFree (pre ++ [⟨p, false⟩]) = some p := by
  simp [prevFree]

theorem prevFree_snoc_used (pre : List Blk) (p : Nat) : prevFree (pre ++ [⟨p, true⟩]) = none := by
  simp [prevFree]

/-- The facts a `PreMerge` state gives on the block to merge. -/
theorem PreMerge.merge_facts {s : State} {pre post : List Blk} {sz : Nat} {fl : List Nat}
    (hP : PreMerge s pre sz post fl) :
    Shape pre ∧ (sz % 8 = 0 ∧ 16 ≤ sz) ∧ Shape post ∧
    Tags s.mem s.base pre ∧ s.mem (s.base + span pre) = sz ∧
    s.mem (s.base + span pre + 8 + sz) = sz ∧ Tags s.mem (s.base + span pre + 16 + sz) post ∧
    s.base + (span pre + (sz + 16 + span post)) = s.end_ + 8 := by
  have hM := hP.mid
  have h1 := hM.shape
  rw [Shape_append, Shape_cons] at h1
  have h2 : Tags s.mem s.base pre ∧ s.mem (s.base + span pre) = sz ∧
      s.mem (s.base + span pre + 8 + sz) = sz ∧ Tags s.mem (s.base + span pre + 16 + sz) post :=
    Tags_append.1 hM.tags
  have h3 : s.base + (span pre + (sz + 16 + span post)) = s.end_ + 8 := by
    have := hM.span_eq
    simpa only [span_append, span_cons] using this
  exact ⟨h1.1, h1.2.1, h1.2.2, h2.1, h2.2.1, h2.2.2.1, h2.2.2.2, h3⟩

theorem prev_alloc_used {s : State} {pre post : List Blk} {sz : Nat} {fl : List Nat}
    (hP : PreMerge s pre sz post fl) (hp : prevFree pre = none) :
    (if payload_to_head (s.base + span pre + 8) ≠ s.base then
      read_alloc s.mem (payload_to_head (prev_block s.mem (s.base + span pre + 8))) else 1)
      = 1 := by
  obtain ⟨hspre, hsz, hspost, htpre, hth, htf, htpost, hsp⟩ := hP.merge_facts
  have hb := hP.mid.geo.bound
  rcases prevFree_none hp with rfl | ⟨pre', c, rfl, hc⟩
  · simp [payload_to_head, HFSIZE]
  · rw [Shape_append, Shape_cons] at hspre
    obtain ⟨-, hc1, hc2, -⟩ : Tags s.mem s.base pre' ∧ s.mem (s.base + span pre') = c.tag ∧
      s.mem (s.base + span pre' + 8 + c.size) = c.tag ∧ True := Tags_append.1 htpre
    simp only [span_append, span_cons, span_nil] at hsp ⊢
    have hcb : c.size < WORD := by omega
    have e1 : s.base + (span pre' + (c.size + 16 + 0)) + 8 - 2 * 8 = s.base + span pre' + 8 + c.size := by
      omega
    have r1 := read_size_tag hc2 hspre.2.1.1 hcb
    have e2 : s.base + span pre' + 8 + c.size - c.size - 8 = s.base + span pre' := by omega
    have r2 := read_alloc_tag hc1 hspre.2.1.1
    simp only [payload_to_head, prev_block, HFSIZE, e1, r1, e2, r2, hc, if_true]
    simp

theorem next_alloc_used {s : State} {pre post : List Blk} {sz : Nat} {fl : List Nat}
    (hP : PreMerge s pre sz post fl) (hn : nextFree post = none) :
    (if payload_to_foot s.mem (s.base + span pre + 8) ≠ s.end_ then
      read_alloc s.mem (payload_to_head (next_block s.mem (s.base + span pre + 8))) else 1)
      = 1 := by
  obtain ⟨hspre, hsz, hspost, htpre, hth, htf, htpost, hsp⟩ := hP.merge_facts
  have hb := hP.mid.geo.bound
  have hszb : sz < WORD := by omega
  have r0 : read_size s.mem (s.base + span pre) = sz := by
    rw [read_size_eq, hth]; unfold WORD at hszb; omega
  rcases nextFree_none hn with rfl | ⟨d, post', rfl, hd⟩
  · simp only [span_nil] at hsp
    have : s.base + span pre + 8 + sz = s.end_ := by omega
    simp [payload_to_foot, payload_to_head, HFSIZE, r0, this]
  · rw [Shape_cons] at hspost
    have hd1 : s.mem (s.base + span pre + 16 + sz) = d.tag := htpost.1
    have r2 := read_alloc_tag hd1 hspost.1.1
    have e1 : s.base + span pre + 8 + sz + 2 * 8 - 8 = s.base + span pre + 16 + sz := by omega
    simp only [payload_to_foot, payload_to_head, next_block, HFSIZE, Nat.add_sub_cancel, r0, e1,
      r2, hd, if_true]
    simp

theorem merge_none {s : State} {pre post : List Blk} {sz : Nat} {fl : List Nat}
    (hP : PreMerge s pre sz post fl) (hp : prevFree pre = none) (hn : nextFree post = none) :
    Rep (merge_free_block s (s.base + span pre + 8)) (pre ++ ⟨sz, false⟩ :: post)
        ((s.base + span pre) :: fl) ∧
      (∀ x, ¬ Cells ((s.base + span pre) :: fl) x →
        (merge_free_block s (s.base + span pre + 8)).mem x = s.mem x) := by
  have e : merge_free_block s (s.base + span pre + 8) = insert_node s (s.base + span pre) := by
    unfold merge_free_block
    simp only [prev_alloc_used hP hp, next_alloc_used hP hn]
    simp [payload_to_head, HFSIZE]
  rw [e]
  obtain ⟨hspre, hsz, hspost, htpre, hth, htf, htpost, hsp⟩ := hP.merge_facts
  have hsub : ∀ y ∈ fl, y ∈ heads s.base (pre ++ ⟨sz, false⟩ :: post) := by
    intro y hy
    rw [heads_append]
    simp only [heads, List.mem_append, List.mem_cons]
    rcases (hP.mem_iff y).1 hy with h | h
    · exact Or.inl (freeHeads_sub h)
    · exact Or.inr (Or.inr (freeHeads_sub h))
  have hnin : s.base + span pre ∉ fl := by
    intro hin
    rcases (hP.mem_iff _).1 hin with h | h
    · have := heads_bounds hspre (freeHeads_sub h); omega
    · have := heads_bounds hspost (freeHeads_sub h); omega
  obtain ⟨hMid, hfr⟩ := Mid_insert (h := s.base + span pre) hP.mid
    (by rw [heads_append]; simp [heads]) hsub hnin
  refine ⟨⟨hMid, by simp, ?_, ?_⟩, hfr⟩
  · intro y
    rw [insert_node_base, freeHeads_append]
    simp only [freeHeads, Bool.false_eq_true, if_false, List.mem_append, List.mem_cons,
      hP.mem_iff]
    tauto
  · rw [NoAdj_split]
    constructor
    · rcases prevFree_none hp with rfl | ⟨pre', c, rfl, hc⟩
      · simp [NoAdj]
      · rw [NoAdj_snoc_snoc]
        exact ⟨hP.noadj_pre, Or.inl hc⟩
    · rcases nextFree_none hn with rfl | ⟨d, post', rfl, hd⟩
      · simp [NoAdj]
      · rw [NoAdj_cons_cons]
        exact ⟨Or.inr hd, hP.noadj_post⟩

theorem prev_alloc_free {s : State} {pre' post : List Blk} {p sz : Nat} {fl : List Nat}
    (hP : PreMerge s (pre' ++ [⟨p, false⟩]) sz post fl) :
    (if payload_to_head (s.base + span (pre' ++ [⟨p, false⟩]) + 8) ≠ s.base then
      read_alloc s.mem (payload_to_head
        (prev_block s.mem (s.base + span (pre' ++ [⟨p, false⟩]) + 8))) else 1) = 0 ∧
    prev_block s.mem (s.base + span (pre' ++ [⟨p, false⟩]) + 8) = s.base + span pre' + 8 ∧
    read_size s.mem (s.base + span pre') = p := by
  obtain ⟨hspre, hsz, hspost, htpre, hth, htf, htpost, hsp⟩ := hP.merge_facts
  have hb := hP.mid.geo.bound
  rw [Shape_append, Shape_cons] at hspre
  obtain ⟨-, hc1, hc2, -⟩ : Tags s.mem s.base pre' ∧ s.mem (s.base + span pre') = p ∧
    s.mem (s.base + span pre' + 8 + p) = p ∧ True := Tags_append.1 htpre
  have hs8 : p % 8 = 0 := hspre.2.1.1
  simp only [span_append, span_cons, span_nil] at hsp ⊢
  have hcb : p < WORD := by omega
  have e1 : s.base + (span pre' + (p + 16 + 0)) + 8 - 2 * 8 = s.base + span pre' + 8 + p := by
    omega
  have r1 : read_size s.mem (s.base + span pre' + 8 + p) = p := by
    rw [read_size_eq, hc2]; unfold WORD at hcb; omega
  have r3 : read_size s.mem (s.base + span pre') = p := by
    rw [read_size_eq, hc1]; unfold WORD at hcb; omega
  have e2 : s.base + span pre' + 8 + p - p - 8 = s.base + span pre' := by omega
  have e3 : s.base + span pre' + 8 + p - p = s.base + span pre' + 8 := by omega
  have r2 : read_alloc s.mem (s.base + span pre') = 0 := by
    rw [read_alloc_eq, hc1]; omega
  refine ⟨?_, ?_, r3⟩
  · simp only [payload_to_head, prev_block, HFSIZE, e1, r1, e2, r2]
    simp
  · simp only [prev_block, HFSIZE, e1, r1, e3]

theorem next_alloc_free {s : State} {pre post' : List Blk} {n sz : Nat} {fl : List Nat}
    (hP : PreMerge s pre sz (⟨n, false⟩ :: post') fl) :
    (if payload_to_foot s.mem (s.base + span pre + 8) ≠ s.end_ then
      read_alloc s.mem (payload_to_head (next_block s.mem (s.base + span pre + 8))) else 1)
      = 0 ∧
    next_block s.mem (s.base + span pre + 8) = s.base + span pre + 16 + sz + 8 ∧
    read_size s.mem (s.base + span pre + 16 + sz) = n ∧
    read_size s.mem (s.base + span pre) = sz := by
  obtain ⟨hspre, hsz, hspost, htpre, hth, htf, htpost, hsp⟩ := hP.merge_facts
  have hb := hP.mid.geo.bound
  have hszb : sz < WORD := by omega
  have r0 : read_size s.mem (s.base + span pre) = sz := by
    rw [read_size_eq, hth]; unfold WORD at hszb; omega
  rw [Shape_cons] at hspost
  have hn8 : n % 8 = 0 := hspost.1.1
  have hn16 : 16 ≤ n := hspost.1.2
  have hd1 : s.mem (s.base + span pre + 16 + sz) = n := htpost.1
  simp only [span_cons] at hsp
  have hnb : n < WORD := by omega
  have r2 : read_alloc s.mem (s.base + span pre + 16 + sz) = 0 := by
    rw [read_alloc_eq, hd1]; omega
  have r3 : read_size s.mem (s.base + span pre + 16 + sz) = n := by
    rw [read_size_eq, hd1]; unfold WORD at hnb; omega
  have e1 : s.base + span pre + 8 + sz + 2 * 8 - 8 = s.base + span pre + 16 + sz := by omega
  have e2 : s.base + span pre + 8 + sz + 2 * 8 = s.base + span pre + 16 + sz + 8 := by omega
  have e3 : s.base + span pre + 8 + sz ≠ s.end_ := by omega
  refine ⟨?_, ?_, r3, r0⟩
  · simp only [payload_to_foot, payload_to_head, next_block, HFSIZE, Nat.add_sub_cancel, r0, e1,
      r2]
    simp [e3]
  · simp only [payload_to_foot, payload_to_head, next_block, HFSIZE, Nat.add_sub_cancel, r0, e2]

theorem read_size_self {s : State} {pre post : List Blk} {sz : Nat} {fl : List Nat}
    (hP : PreMerge s pre sz post fl) : read_size s.mem (s.base + span pre) = sz := by
  obtain ⟨hspre, hsz, hspost, htpre, hth, htf, htpost, hsp⟩ := hP.merge_facts
  have hb := hP.mid.geo.bound
  have hszb : sz < WORD := by omega
  rw [read_size_eq, hth]; unfold WORD at hszb; omega

theorem merge_next {s : State} {pre post' : List Blk} {sz n : Nat} {fl : List Nat}
    (hP : PreMerge s pre sz (⟨n, false⟩ :: post') fl) (hp : prevFree pre = none) :
    ∃ fl', Rep (merge_free_block s (s.base + span pre + 8))
        (pre ++ ⟨sz + (n + 16), false⟩ :: post') ((s.base + span pre) :: fl') ∧
      (∀ x, x ∈ fl' ↔ x ∈ fl ∧ x ≠ s.base + span pre + 16 + sz) ∧
      (∀ x, x ≠ s.base + span pre → x ≠ s.base + span pre + 16 + sz + 8 + n →
        ¬ Cells ((s.base + span pre) :: fl) x →
        (merge_free_block s (s.base + span pre + 8)).mem x = s.mem x) := by
  obtain ⟨hspre, hsz, hspost, htpre, hth, htf, htpost, hsp⟩ := hP.merge_facts
  have hg := hP.mid.geo
  have hb := hg.bound
  obtain ⟨hna, hnb, hrn, hrs⟩ := next_alloc_free hP
  rw [Shape_cons] at hspost
  obtain ⟨⟨hn8, hn16⟩, hspost'⟩ : (n % 8 = 0 ∧ 16 ≤ n) ∧ Shape post' := hspost
  obtain ⟨htn, htnf, htpost'⟩ : s.mem (s.base + span pre + 16 + sz) = n ∧
    s.mem (s.base + span pre + 16 + sz + 8 + n) = n ∧
    Tags s.mem (s.base + span pre + 16 + sz + 16 + n) post' := htpost
  simp only [span_cons] at hsp
  have e : merge_free_block s (s.base + span pre + 8) =
      insert_node (delete_node { s with mem :=
        ((s.mem.write (s.base + span pre) (sz + (n + 16))).write
          (s.base + span pre + 16 + sz + 8 + n) (sz + (n + 16))) }
        (s.base + span pre + 16 + sz)) (s.base + span pre) := by
    unfold merge_free_block
    simp only [prev_alloc_used hP hp, hna]
    simp only [hnb]
    have a1 : add64 n 16 = n + 16 := add64_eq (by omega)
    have a2 : add64 sz (n + 16) = sz + (n + 16) := add64_eq (by omega)
    have r1 : read_size (s.mem.write (s.base + span pre) (sz + (n + 16))) (s.base + span pre)
        = sz + (n + 16) := read_size_write_free _ _ _ (by omega) (by omega)
    have e5 : s.base + span pre + 8 + (sz + (n + 16)) = s.base + span pre + 16 + sz + 8 + n := by
      omega
    simp [payload_to_head, payload_to_foot, HFSIZE, hrs, hrn, a1, a2, write_size_free, r1, e5]
  rw [e]
  generalize ha : s.base + span pre = a at *
  generalize hM2 : (s.mem.write a (sz + (n + 16))).write (a + 16 + sz + 8 + n) (sz + (n + 16))
    = M2
  have hM2x : ∀ x, x ≠ a → x ≠ a + 16 + sz + 8 + n → M2 x = s.mem x := by
    intro x h1 h2
    rw [← hM2, write_other _ _ _ _ h2, write_other _ _ _ _ h1]
  have hpos : ∀ y ∈ fl, (y ∈ freeHeads s.base pre ∧ y + 32 ≤ a) ∨ y = a + 16 + sz ∨
      (y ∈ freeHeads (a + 16 + sz + 16 + n) post' ∧ a + 16 + sz + 16 + n ≤ y) := by
    intro y hy
    have := (hP.mem_iff y).1 hy
    simp only [freeHeads, Bool.false_eq_true, if_false, List.mem_cons, ha] at this
    rcases this with h | h | h
    · have := heads_bounds hspre (freeHeads_sub h)
      exact Or.inl ⟨h, by omega⟩
    · exact Or.inr (Or.inl h)
    · have := heads_bounds hspost' (freeHeads_sub h)
      exact Or.inr (Or.inr ⟨h, by omega⟩)
  have e1 : a + 16 + (sz + (n + 16)) = a + 16 + sz + 16 + n := by omega
  have e2 : a + 8 + (sz + (n + 16)) = a + 16 + sz + 8 + n := by omega
  have hMid2 : Mid { s with mem := M2 } (pre ++ ⟨sz + (n + 16), false⟩ :: post') fl := by
    refine ⟨Geo_mem hg M2, ?_, ?_, ?_, ?_, hP.mid.head, hP.mid.far⟩
    · rw [Shape_append, Shape_cons]
      exact ⟨hspre, ⟨by dsimp only; omega, by dsimp only; omega⟩, hspost'⟩
    · show Tags M2 s.base _
      rw [Tags_append]
      simp only [Tags, Blk.tag, Bool.false_eq_true, if_false, Nat.add_zero, ha, e1, e2]
      refine ⟨Tags_frame_range hspre ?_ htpre, ?_, ?_, ?_⟩
      · intro x _ hx
        exact hM2x x (by omega) (by omega)
      · rw [← hM2, write_other _ _ _ _ (by omega), write_same]
      · rw [← hM2, write_same]
      · apply Tags_frame_range hspost' _ htpost'
        intro x hx _
        exact hM2x x (by omega) (by omega)
    · show s.base + _ = s.end_ + 8
      simp only [span_append, span_cons]
      omega
    · apply Links_frame _ hP.mid.links
      intro y hy
      rcases hpos y hy with h | h | h
      · exact ⟨hM2x _ (by omega) (by omega), hM2x _ (by omega) (by omega)⟩
      · exact ⟨hM2x _ (by omega) (by omega), hM2x _ (by omega) (by omega)⟩
      · exact ⟨hM2x _ (by omega) (by omega), hM2x _ (by omega) (by omega)⟩
  have hhd : ∀ y, y ∈ heads s.base (pre ++ ⟨sz + (n + 16), false⟩ :: post') ↔
      y ∈ heads s.base pre ∨ y = a ∨ y ∈ heads (a + 16 + sz + 16 + n) post' := by
    intro y
    rw [heads_append, ha]
    simp only [heads, List.mem_append, List.mem_cons, e1]
  have hain : a + 16 + sz ∈ fl := by
    rw [hP.mem_iff]
    simp [freeHeads, ha]
  obtain ⟨fl1, hMid3, hmem3, hfr3⟩ := Mid_delete (h := a + 16 + sz) hMid2 hain (by
    intro y hy hne
    show y ∈ heads s.base _
    rw [hhd]
    rcases hpos y hy with h | h | h
    · exact Or.inl (freeHeads_sub h.1)
    · exact absurd h hne
    · exact Or.inr (Or.inr (freeHeads_sub h.1)))
  have hsub3 : ∀ y ∈ fl1, y ∈ heads s.base (pre ++ ⟨sz + (n + 16), false⟩ :: post') := by
    intro y hy
    have := (hmem3 y).1 hy
    rw [hhd]
    rcases hpos y this.1 with h | h | h
    · exact Or.inl (freeHeads_sub h.1)
    · exact absurd h this.2
    · exact Or.inr (Or.inr (freeHeads_sub h.1))
  have hnin : a ∉ fl1 := by
    intro hin
    have := (hmem3 _).1 hin
    rcases hpos _ this.1 with h | h | h <;> omega
  obtain ⟨hMid4, hfr4⟩ := Mid_insert (h := a) hMid3
    (by rw [delete_node_base]; show _ ∈ heads s.base _; rw [hhd]; exact Or.inr (Or.inl rfl))
    (by simpa only [delete_node_base] using hsub3) hnin
  refine ⟨fl1, ⟨hMid4, by simp, ?_, ?_⟩, hmem3, ?_⟩
  · intro y
    rw [insert_node_base, delete_node_base]
    show y ∈ _ ↔ y ∈ freeHeads s.base _
    rw [freeHeads_append, ha]
    simp only [freeHeads, Bool.false_eq_true, if_false, List.mem_append, List.mem_cons,
      e1, hmem3, hP.mem_iff, ha]
    constructor
    · rintro (h | ⟨h | h | h, hne⟩)
      · exact Or.inr (Or.inl h)
      · exact Or.inl h
      · exact absurd h hne
      · exact Or.inr (Or.inr h)
    · rintro (h | h | h)
      · refine Or.inr ⟨Or.inl h, ?_⟩
        have := heads_bounds hspre (freeHeads_sub h); omega
      · exact Or.inl h
      · refine Or.inr ⟨Or.inr (Or.inr h), ?_⟩
        have := heads_bounds hspost' (freeHeads_sub h); omega
  · rw [NoAdj_split]
    constructor
    · rcases prevFree_none hp with rfl | ⟨pre', c, rfl, hc⟩
      · simp [NoAdj]
      · rw [NoAdj_snoc_snoc]
        exact ⟨hP.noadj_pre, Or.inl hc⟩
    · exact NoAdj_congr (by simp) hP.noadj_post
  · intro x hx1 hx2 hc
    rw [hfr4 x, hfr3 x, ← hM2]
    · show (s.mem.write a (sz + (n + 16))).write (a + 16 + sz + 8 + n) (sz + (n + 16)) x = s.mem x
      rw [write_other _ _ _ _ hx2, write_other _ _ _ _ hx1]
    · intro hc'
      apply hc
      obtain ⟨y, hy, hxy⟩ := hc'
      exact ⟨y, List.mem_cons_of_mem _ ((hmem3 y).1 hy).1, hxy⟩
    · rintro ⟨y, hy, hxy⟩
      apply hc
      rcases List.mem_cons.1 hy with rfl | hy
      · exact ⟨y, List.mem_cons_self _ _, hxy⟩
      · exact ⟨y, List.mem_cons_of_mem _ ((hmem3 y).1 hy).1, hxy⟩



theorem merge_prev {s : State} {pre' post : List Blk} {sz p : Nat} {fl : List Nat}
    (hP : PreMerge s (pre' ++ [⟨p, false⟩]) sz post fl) (hn : nextFree post = none) :
    ∃ fl', Rep (merge_free_block s (s.base + span (pre' ++ [⟨p, false⟩]) + 8))
        (pre' ++ ⟨sz + (p + 16), false⟩ :: post) ((s.base + span pre') :: fl') ∧
      (∀ x, x ∈ fl' ↔ x ∈ fl ∧ x ≠ s.base + span pre') ∧
      (∀ x, x ≠ s.base + span pre' → x ≠ s.base + span pre' + 8 + (sz + (p + 16)) →
        ¬ Cells fl x →
        (merge_free_block s (s.base + span (pre' ++ [⟨p, false⟩]) + 8)).mem x = s.mem x) := by
  obtain ⟨hspre, hsz, hspost, htpre, hth, htf, htpost, hsp⟩ := hP.merge_facts
  have hg := hP.mid.geo
  have hb := hg.bound
  obtain ⟨hpa, hpb, hrp⟩ := prev_alloc_free hP
  have hrs := read_size_self hP
  have hmi := hP.mem_iff
  rw [Shape_append, Shape_cons] at hspre
  obtain ⟨hspre', ⟨hp8, hp16⟩, -⟩ : Shape pre' ∧ (p % 8 = 0 ∧ 16 ≤ p) ∧ Shape [] := hspre
  obtain ⟨htpre', htp, htpf, -⟩ : Tags s.mem s.base pre' ∧ s.mem (s.base + span pre') = p ∧
    s.mem (s.base + span pre' + 8 + p) = p ∧ True := Tags_append.1 htpre
  have hspan : s.base + span (pre' ++ [⟨p, false⟩]) = s.base + span pre' + p + 16 := by
    simp only [span_append, span_cons, span_nil]; omega
  rw [hspan] at hth htf htpost hpb hrs hmi
  simp only [span_append, span_cons, span_nil] at hsp
  have e : merge_free_block s (s.base + span (pre' ++ [⟨p, false⟩]) + 8) =
      insert_node (delete_node { s with mem :=
        ((s.mem.write (s.base + span pre' + p + 16 + 8 + sz) (sz + (p + 16))).write
          (s.base + span pre') (sz + (p + 16))) }
        (s.base + span pre')) (s.base + span pre') := by
    unfold merge_free_block
    simp only [hpa, next_alloc_used hP hn]
    rw [hspan]
    simp only [hpb]
    have a1 : add64 p 16 = p + 16 := add64_eq (by omega)
    have a2 : add64 sz (p + 16) = sz + (p + 16) := add64_eq (by omega)
    simp [payload_to_head, payload_to_foot, HFSIZE, hrs, hrp, a1, a2, write_size_free]
  rw [e]
  clear e hpa hpb
  generalize ha : s.base + span pre' = a at *
  generalize hM2 : (s.mem.write (a + p + 16 + 8 + sz) (sz + (p + 16))).write a (sz + (p + 16))
    = M2
  have hM2x : ∀ x, x ≠ a → x ≠ a + p + 16 + 8 + sz → M2 x = s.mem x := by
    intro x h1 h2
    rw [← hM2, write_other _ _ _ _ h1, write_other _ _ _ _ h2]
  have hpos : ∀ y ∈ fl, (y ∈ freeHeads s.base pre' ∧ y + 32 ≤ a) ∨ y = a ∨
      (y ∈ freeHeads (a + p + 16 + 16 + sz) post ∧ a + p + 16 + 16 + sz ≤ y) := by
    intro y hy
    have := (hmi y).1 hy
    rw [freeHeads_append] at this
    simp only [freeHeads, Bool.false_eq_true, if_false, List.mem_cons, List.mem_append, ha,
      List.not_mem_nil, or_false] at this
    rcases this with (h | h) | h
    · have := heads_bounds hspre' (freeHeads_sub h)
      exact Or.inl ⟨h, by omega⟩
    · exact Or.inr (Or.inl h)
    · have := heads_bounds hspost (freeHeads_sub h)
      exact Or.inr (Or.inr ⟨h, by omega⟩)
  have e1 : a + 16 + (sz + (p + 16)) = a + p + 16 + 16 + sz := by omega
  have e2 : a + 8 + (sz + (p + 16)) = a + p + 16 + 8 + sz := by omega
  have hMid2 : Mid { s with mem := M2 } (pre' ++ ⟨sz + (p + 16), false⟩ :: post) fl := by
    refine ⟨Geo_mem hg M2, ?_, ?_, ?_, ?_, hP.mid.head, hP.mid.far⟩
    · rw [Shape_append, Shape_cons]
      exact ⟨hspre', ⟨by dsimp only; omega, by dsimp only; omega⟩, hspost⟩
    · show Tags M2 s.base _
      rw [Tags_append]
      simp only [Tags, Blk.tag, Bool.false_eq_true, if_false, Nat.add_zero, ha, e1, e2]
      refine ⟨Tags_frame_range hspre' ?_ htpre', ?_, ?_, ?_⟩
      · intro x _ hx
        exact hM2x x (by omega) (by omega)
      · rw [← hM2, write_same]
      · rw [← hM2, write_other _ _ _ _ (by omega), write_same]
      · apply Tags_frame_range hspost _ htpost
        intro x hx _
        exact hM2x x (by omega) (by omega)
    · show s.base + _ = s.end_ + 8
      simp only [span_append, span_cons]
      omega
    · apply Links_frame _ hP.mid.links
      intro y hy
      rcases hpos y hy with h | h | h
      · exact ⟨hM2x _ (by omega) (by omega), hM2x _ (by omega) (by omega)⟩
      · exact ⟨hM2x _ (by omega) (by omega), hM2x _ (by omega) (by omega)⟩
      · exact ⟨hM2x _ (by omega) (by omega), hM2x _ (by omega) (by omega)⟩
  have hhd : ∀ y, y ∈ heads s.base (pre' ++ ⟨sz + (p + 16), false⟩ :: post) ↔
      y ∈ heads s.base pre' ∨ y = a ∨ y ∈ heads (a + p + 16 + 16 + sz) post := by
    intro y
    rw [heads_append, ha]
    simp only [heads, List.mem_append, List.mem_cons, e1]
  have hain : a ∈ fl := by
    rw [hmi, freeHeads_append]
    simp [freeHeads, ha]
  obtain ⟨fl1, hMid3, hmem3, hfr3⟩ := Mid_delete (h := a) hMid2 hain (by
    intro y hy hne
    show y ∈ heads s.base _
    rw [hhd]
    rcases hpos y hy with h | h | h
    · exact Or.inl (freeHeads_sub h.1)
    · exact absurd h hne
    · exact Or.inr (Or.inr (freeHeads_sub h.1)))
  have hsub3 : ∀ y ∈ fl1, y ∈ heads s.base (pre' ++ ⟨sz + (p + 16), false⟩ :: post) := by
    intro y hy
    have := (hmem3 y).1 hy
    rw [hhd]
    rcases hpos y this.1 with h | h | h
    · exact Or.inl (freeHeads_sub h.1)
    · exact absurd h this.2
    · exact Or.inr (Or.inr (freeHeads_sub h.1))
  have hnin : a ∉ fl1 := fun hin => ((hmem3 _).1 hin).2 rfl
  obtain ⟨hMid4, hfr4⟩ := Mid_insert (h := a) hMid3
    (by rw [delete_node_base]; show _ ∈ heads s.base _; rw [hhd]; exact Or.inr (Or.inl rfl))
    (by simpa only [delete_node_base] using hsub3) hnin
  refine ⟨fl1, ⟨hMid4, by simp, ?_, ?_⟩, hmem3, ?_⟩
  · intro y
    rw [insert_node_base, delete_node_base]
    show y ∈ _ ↔ y ∈ freeHeads s.base _
    rw [freeHeads_append, ha]
    simp only [freeHeads, Bool.false_eq_true, if_false, List.mem_append, List.mem_cons,
      e1, hmem3, hmi, ha, freeHeads_append, List.not_mem_nil, or_false]
    constructor
    · rintro (h | ⟨(h | h) | h, hne⟩)
      · exact Or.inr (Or.inl h)
      · exact Or.inl h
      · exact absurd h hne
      · exact Or.inr (Or.inr h)
    · rintro (h | h | h)
      · refine Or.inr ⟨Or.inl (Or.inl h), ?_⟩
        have := heads_bounds hspre' (freeHeads_sub h); omega
      · exact Or.inl h
      · refine Or.inr ⟨Or.inr h, ?_⟩
        have := heads_bounds hspost (freeHeads_sub h); omega
  · rw [NoAdj_split]
    constructor
    · exact NoAdj_congr (by simp) hP.noadj_pre
    · rcases nextFree_none hn with rfl | ⟨d, post', rfl, hd⟩
      · simp [NoAdj]
      · rw [NoAdj_cons_cons]
        exact ⟨Or.inr hd, hP.noadj_post⟩
  · intro x hx1 hx2 hc
    rw [hfr4 x, hfr3 x, ← hM2]
    · show (s.mem.write (a + p + 16 + 8 + sz) (sz + (p + 16))).write a (sz + (p + 16)) x = s.mem x
      rw [write_other _ _ _ _ hx1, write_other _ _ _ _ (by omega)]
    · intro hc'
      apply hc
      obtain ⟨y, hy, hxy⟩ := hc'
      exact ⟨y, ((hmem3 y).1 hy).1, hxy⟩
    · rintro ⟨y, hy, hxy⟩
      apply hc
      rcases List.mem_cons.1 hy with rfl | hy
      · exact ⟨y, hain, hxy⟩
      · exact ⟨y, ((hmem3 y).1 hy).1, hxy⟩



theorem merge_both {s : State} {pre' post' : List Blk} {sz p n : Nat} {fl : List Nat}
    (hP : PreMerge s (pre' ++ [⟨p, false⟩]) sz (⟨n, false⟩ :: post') fl) :
    ∃ fl', Rep (merge_free_block s (s.base + span (pre' ++ [⟨p, false⟩]) + 8))
        (pre' ++ ⟨sz + (p + n + 32), false⟩ :: post') ((s.base + span pre') :: fl') ∧
      (∀ x, x ∈ fl' ↔ x ∈ fl ∧ x ≠ s.base + span pre' ∧
        x ≠ s.base + span pre' + p + 16 + 16 + sz) ∧
      (∀ x, x ≠ s.base + span pre' → x ≠ s.base + span pre' + 8 + (sz + (p + n + 32)) →
        ¬ Cells fl x →
        (merge_free_block s (s.base + span (pre' ++ [⟨p, false⟩]) + 8)).mem x = s.mem x) := by
  obtain ⟨hspre, hsz, hspost, htpre, hth, htf, htpost, hsp⟩ := hP.merge_facts
  have hg := hP.mid.geo
  have hb := hg.bound
  obtain ⟨hpa, hpb, hrp⟩ := prev_alloc_free hP
  obtain ⟨hna, hnb, hrn, hrs⟩ := next_alloc_free hP
  have hmi := hP.mem_iff
  rw [Shape_append, Shape_cons] at hspre
  obtain ⟨hspre', ⟨hp8, hp16⟩, -⟩ : Shape pre' ∧ (p % 8 = 0 ∧ 16 ≤ p) ∧ Shape [] := hspre
  obtain ⟨htpre', htp, htpf, -⟩ : Tags s.mem s.base pre' ∧ s.mem (s.base + span pre') = p ∧
    s.mem (s.base + span pre' + 8 + p) = p ∧ True := Tags_append.1 htpre
  rw [Shape_cons] at hspost
  obtain ⟨⟨hn8, hn16⟩, hspost'⟩ : (n % 8 = 0 ∧ 16 ≤ n) ∧ Shape post' := hspost
  have hspan : s.base + span (pre' ++ [⟨p, false⟩]) = s.base + span pre' + p + 16 := by
    simp only [span_append, span_cons, span_nil]; omega
  rw [hspan] at hth htf htpost hpb hrs hmi hnb hrn
  obtain ⟨htn, htnf, htpost'⟩ : s.mem (s.base + span pre' + p + 16 + 16 + sz) = n ∧
    s.mem (s.base + span pre' + p + 16 + 16 + sz + 8 + n) = n ∧
    Tags s.mem (s.base + span pre' + p + 16 + 16 + sz + 16 + n) post' := htpost
  simp only [span_append, span_cons, span_nil] at hsp
  have e : merge_free_block s (s.base + span (pre' ++ [⟨p, false⟩]) + 8) =
      insert_node (delete_node (delete_node { s with mem :=
        ((s.mem.write (s.base + span pre') (sz + (p + n + 32))).write
          (s.base + span pre' + p + 16 + 16 + sz + 8 + n) (sz + (p + n + 32))) }
        (s.base + span pre' + p + 16 + 16 + sz)) (s.base + span pre')) (s.base + span pre') := by
    unfold merge_free_block
    simp only [hpa, hna]
    rw [hspan]
    simp only [hpb, hnb]
    have a0 : add64 p n = p + n := add64_eq (by omega)
    have a1 : add64 (p + n) 32 = p + n + 32 := add64_eq (by omega)
    have a2 : add64 sz (p + n + 32) = sz + (p + n + 32) := add64_eq (by omega)
    have r1 : read_size (s.mem.write (s.base + span pre') (sz + (p + n + 32)))
        (s.base + span pre' + p + 16 + 16 + sz) = n := by
      rw [read_size_write_ne _ _ _ _ (by omega)]; exact hrn
    simp [payload_to_head, payload_to_foot, HFSIZE, hrs, hrp, hrn, a0, a1, a2, write_size_free,
      r1]
  rw [e]
  clear e hpa hpb hna hnb
  generalize ha : s.base + span pre' = a at *
  generalize hM2 : (s.mem.write a (sz + (p + n + 32))).write
    (a + p + 16 + 16 + sz + 8 + n) (sz + (p + n + 32)) = M2
  have hM2x : ∀ x, x ≠ a → x ≠ a + p + 16 + 16 + sz + 8 + n → M2 x = s.mem x := by
    intro x h1 h2
    rw [← hM2, write_other _ _ _ _ h2, write_other _ _ _ _ h1]
  have hpos : ∀ y ∈ fl, (y ∈ freeHeads s.base pre' ∧ y + 32 ≤ a) ∨ y = a ∨
      y = a + p + 16 + 16 + sz ∨
      (y ∈ freeHeads (a + p + 16 + 16 + sz + 16 + n) post' ∧
        a + p + 16 + 16 + sz + 16 + n ≤ y) := by
    intro y hy
    have := (hmi y).1 hy
    rw [freeHeads_append] at this
    simp only [freeHeads, Bool.false_eq_true, if_false, List.mem_cons, List.mem_append, ha,
      List.not_mem_nil, or_false] at this
    rcases this with (h | h) | h | h
    · have := heads_bounds hspre' (freeHeads_sub h)
      exact Or.inl ⟨h, by omega⟩
    · exact Or.inr (Or.inl h)
    · exact Or.inr (Or.inr (Or.inl h))
    · have := heads_bounds hspost' (freeHeads_sub h)
      exact Or.inr (Or.inr (Or.inr ⟨h, by omega⟩))
  have e1 : a + 16 + (sz + (p + n + 32)) = a + p + 16 + 16 + sz + 16 + n := by omega
  have e2 : a + 8 + (sz + (p + n + 32)) = a + p + 16 + 16 + sz + 8 + n := by omega
  have hMid2 : Mid { s with mem := M2 } (pre' ++ ⟨sz + (p + n + 32), false⟩ :: post') fl := by
    refine ⟨Geo_mem hg M2, ?_, ?_, ?_, ?_, hP.mid.head, hP.mid.far⟩
    · rw [Shape_append, Shape_cons]
      exact ⟨hspre', ⟨by dsimp only; omega, by dsimp only; omega⟩, hspost'⟩
    · show Tags M2 s.base _
      rw [Tags_append]
      simp only [Tags, Blk.tag, Bool.false_eq_true, if_false, Nat.add_zero, ha, e1, e2]
      refine ⟨Tags_frame_range hspre' ?_ htpre', ?_, ?_, ?_⟩
      · intro x _ hx
        exact hM2x x (by omega) (by omega)
      · rw [← hM2, write_other _ _ _ _ (by omega), write_same]
      · rw [← hM2, write_same]
      · apply Tags_frame_range hspost' _ htpost'
        intro x hx _
        exact hM2x x (by omega) (by omega)
    · show s.base + _ = s.end_ + 8
      simp only [span_append, span_cons]
      omega
    · apply Links_frame _ hP.mid.links
      intro y hy
      rcases hpos y hy with h | h | h | h
      · exact ⟨hM2x _ (by omega) (by omega), hM2x _ (by omega) (by omega)⟩
      · exact ⟨hM2x _ (by omega) (by omega), hM2x _ (by omega) (by omega)⟩
      · exact ⟨hM2x _ (by omega) (by omega), hM2x _ (by omega) (by omega)⟩
      · exact ⟨hM2x _ (by omega) (by omega), hM2x _ (by omega) (by omega)⟩
  have hhd : ∀ y, y ∈ heads s.base (pre' ++ ⟨sz + (p + n + 32), false⟩ :: post') ↔
      y ∈ heads s.base pre' ∨ y = a ∨ y ∈ heads (a + p + 16 + 16 + sz + 16 + n) post' := by
    intro y
    rw [heads_append, ha]
    simp only [heads, List.mem_append, List.mem_cons, e1]
  have hanin : a + p + 16 + 16 + sz ∈ fl := by
    rw [hmi, freeHeads_append]
    simp [freeHeads, ha]
  have hain : a ∈ fl := by
    rw [hmi, freeHeads_append]
    simp [freeHeads, ha]
  obtain ⟨fl1, hMid3, hmem3, hfr3⟩ := Mid_delete (h := a + p + 16 + 16 + sz) hMid2 hanin (by
    intro y hy hne
    show y ∈ heads s.base _
    rw [hhd]
    rcases hpos y hy with h | h | h | h
    · exact Or.inl (freeHeads_sub h.1)
    · exact Or.inr (Or.inl h)
    · exact absurd h hne
    · exact Or.inr (Or.inr (freeHeads_sub h.1)))
  have hsub3 : ∀ y ∈ fl1, y ∈ heads s.base (pre' ++ ⟨sz + (p + n + 32), false⟩ :: post') := by
    intro y hy
    have := (hmem3 y).1 hy
    rw [hhd]
    rcases hpos y this.1 with h | h | h | h
    · exact Or.inl (freeHeads_sub h.1)
    · exact Or.inr (Or.inl h)
    · exact absurd h this.2
    · exact Or.inr (Or.inr (freeHeads_sub h.1))
  obtain ⟨fl2, hMid4, hmem4, hfr4⟩ := Mid_delete (h := a) hMid3
    ((hmem3 a).2 ⟨hain, by omega⟩)
    (by intro y hy _; rw [delete_node_base]; exact hsub3 y hy)
  have hsub4 : ∀ y ∈ fl2, y ∈ heads s.base (pre' ++ ⟨sz + (p + n + 32), false⟩ :: post') :=
    fun y hy => hsub3 y ((hmem4 y).1 hy).1
  have hnin : a ∉ fl2 := fun hin => ((hmem4 _).1 hin).2 rfl
  obtain ⟨hMid5, hfr5⟩ := Mid_insert (h := a) hMid4
    (by simp only [delete_node_base]; show _ ∈ heads s.base _; rw [hhd]; exact Or.inr (Or.inl rfl))
    (by simpa only [delete_node_base] using hsub4) hnin
  have hmem : ∀ x, x ∈ fl2 ↔ x ∈ fl ∧ x ≠ a ∧ x ≠ a + p + 16 + 16 + sz := by
    intro x
    rw [hmem4, hmem3]
    tauto
  refine ⟨fl2, ⟨hMid5, by simp, ?_, ?_⟩, hmem, ?_⟩
  · intro y
    simp only [insert_node_base, delete_node_base]
    show y ∈ _ ↔ y ∈ freeHeads s.base _
    rw [freeHeads_append, ha]
    simp only [freeHeads, Bool.false_eq_true, if_false, List.mem_append, List.mem_cons,
      e1, hmem, hmi, ha, freeHeads_append, List.not_mem_nil, or_false]
    constructor
    · rintro (h | ⟨(h | h) | h | h, hne1, hne2⟩)
      · exact Or.inr (Or.inl h)
      · exact Or.inl h
      · exact absurd h hne1
      · exact absurd h hne2
      · exact Or.inr (Or.inr h)
    · rintro (h | h | h)
      · refine Or.inr ⟨Or.inl (Or.inl h), ?_, ?_⟩ <;>
          have := heads_bounds hspre' (freeHeads_sub h) <;> omega
      · exact Or.inl h
      · refine Or.inr ⟨Or.inr (Or.inr h), ?_, ?_⟩ <;>
          have := heads_bounds hspost' (freeHeads_sub h) <;> omega
  · rw [NoAdj_split]
    constructor
    · exact NoAdj_congr (by simp) hP.noadj_pre
    · exact NoAdj_congr (by simp) hP.noadj_post
  · intro x hx1 hx2 hc
    rw [hfr5 x, hfr4 x, hfr3 x, ← hM2]
    · show (s.mem.write a (sz + (p + n + 32))).write
        (a + p + 16 + 16 + sz + 8 + n) (sz + (p + n + 32)) x = s.mem x
      rw [write_other _ _ _ _ (by omega), write_other _ _ _ _ hx1]
    · rintro ⟨y, hy, hxy⟩
      exact hc ⟨y, ((hmem3 y).1 hy).1, hxy⟩
    · rintro ⟨y, hy, hxy⟩
      exact hc ⟨y, ((hmem y).1 hy).1, hxy⟩
    · rintro ⟨y, hy, hxy⟩
      apply hc
      rcases List.mem_cons.1 hy with rfl | hy
      · exact ⟨y, hain, hxy⟩
      · exact ⟨y, ((hmem y).1 hy).1, hxy⟩



theorem InFree_append (a : Nat) (xs ys : List Blk) (x : Nat) :
    InFree a (xs ++ ys) x ↔ InFree a xs x ∨ InFree (a + span xs) ys x := by
  induction xs generalizing a with
  | nil => simp [InFree]
  | cons b t ih =>
    have e : a + 16 + b.size + span t = a + (b.size + 16 + span t) := by omega
    simp [InFree, ih, e, or_assoc]

theorem InFree_bounds {a : Nat} {bs : List Blk} {x : Nat} (h : InFree a bs x) :
    a ≤ x ∧ x < a + span bs := by
  induction bs generalizing a with
  | nil => exact absurd h (by simp [InFree])
  | cons b t ih =>
    simp only [InFree] at h
    rcases h with h | h
    · simp only [span_cons]; omega
    · have := ih h
      simp only [span_cons]; omega

theorem InUsed_not_InFree {a : Nat} {bs : List Blk} {x : Nat} (h : InUsed a bs x) :
    ¬ InFree a bs x := by
  induction bs generalizing a with
  | nil => exact absurd h (by simp [InUsed])
  | cons b t ih =>
    simp only [InUsed, InFree] at h ⊢
    rintro (hf | hf)
    · rcases h with h | h
      · rw [h.1] at hf; exact absurd hf.1 (by simp)
      · have := InUsed_bounds h; omega
    · rcases h with h | h
      · have := InFree_bounds hf; omega
      · exact ih h hf

theorem cells_InFree {a : Nat} {bs : List Blk} (hs : Shape bs) {x : Nat}
    (h : Cells (freeHeads a bs) x) : InFree a bs x := by
  induction bs generalizing a with
  | nil =>
    obtain ⟨y, hy, -⟩ := h
    simp [freeHeads] at hy
  | cons b t ih =>
    rw [Shape_cons] at hs
    obtain ⟨y, hy, hxy⟩ := h
    simp only [InFree]
    cases hu : b.used
    · simp only [freeHeads, hu, Bool.false_eq_true, if_false, List.mem_cons] at hy
      rcases hy with rfl | hy
      · left; exact ⟨rfl, by omega, by omega⟩
      · right; exact ih hs.2 ⟨y, hy, hxy⟩
    · simp only [freeHeads, hu, if_true] at hy
      right; exact ih hs.2 ⟨y, hy, hxy⟩

theorem PreMerge.cells_free {s : State} {pre post : List Blk} {sz : Nat} {fl : List Nat}
    (hP : PreMerge s pre sz post fl) {x : Nat} (h : Cells ((s.base + span pre) :: fl) x) :
    InFree s.base (pre ++ ⟨sz, false⟩ :: post) x := by
  apply cells_InFree hP.mid.shape
  apply Cells_mono _ h
  intro y hy
  rw [freeHeads_append]
  simp only [freeHeads, Bool.false_eq_true, if_false, List.mem_append, List.mem_cons]
  rcases List.mem_cons.1 hy with rfl | hy
  · exact Or.inr (Or.inl rfl)
  · rcases (hP.mem_iff y).1 hy with h | h
    · exact Or.inl h
    · exact Or.inr (Or.inr h)

theorem coalesceHead_none {a : Nat} {pre : List Blk} (h : prevFree pre = none) :
    coalesceHead a pre = a + span pre := by
  simp [coalesceHead, h]

theorem coalesceHead_some (a : Nat) (pre' : List Blk) (p : Nat) :
    coalesceHead a (pre' ++ [⟨p, false⟩]) = a + span pre' := by
  simp only [coalesceHead, prevFree_snoc_free, span_append, span_cons, span_nil]
  omega

/-- What `merge_free_block` does to a state that is ready for it. -/
theorem merge_spec {s : State} {pre post : List Blk} {sz : Nat} {fl : List Nat}
    (hP : PreMerge s pre sz post fl) :
    ∃ fl', Rep (merge_free_block s (s.base + span pre + 8)) (coalesce pre sz post)
        (coalesceHead s.base pre :: fl') ∧
      (∀ x ∈ fl', x ∈ fl) ∧
      (∀ x, ¬ InFree s.base (pre ++ ⟨sz, false⟩ :: post) x →
        (merge_free_block s (s.base + span pre + 8)).mem x = s.mem x) := by
  have hcf := fun x => hP.cells_free (x := x)
  cases hp : prevFree pre with
  | none =>
    rw [coalesceHead_none hp]
    cases hn : nextFree post with
    | none =>
      obtain ⟨h1, h2⟩ := merge_none hP hp hn
      refine ⟨fl, by simpa [coalesce, hp, hn] using h1, fun x hx => hx, ?_⟩
      intro x hx
      exact h2 x (fun hc => hx (hcf x hc))
    | some n =>
      obtain ⟨post', rfl⟩ := nextFree_some hn
      obtain ⟨fl', h1, h2, h3⟩ := merge_next hP hp
      refine ⟨fl', by simpa [coalesce, hp, hn] using h1, fun x hx => ((h2 x).1 hx).1, ?_⟩
      intro x hx
      obtain ⟨-, hsz, hspost, -⟩ := hP.merge_facts
      rw [Shape_cons] at hspost
      have hn16 : 16 ≤ n := hspost.1.2
      apply h3 x _ _ (fun hc => hx (hcf x hc))
      · rintro rfl
        apply hx
        rw [InFree_append]
        simp only [InFree]
        right; left
        exact ⟨trivial, by omega, by omega⟩
      · rintro rfl
        apply hx
        rw [InFree_append]
        simp only [InFree]
        right; right; left
        exact ⟨trivial, by omega, by omega⟩
  | some p =>
    obtain ⟨pre', rfl⟩ := prevFree_some hp
    rw [coalesceHead_some]
    obtain ⟨hspre, hsz, hspost, -⟩ := hP.merge_facts
    rw [Shape_append, Shape_cons] at hspre
    have hp16 : 16 ≤ p := hspre.2.1.2
    have hcf' : ∀ x, Cells fl x → InFree s.base ((pre' ++ [⟨p, false⟩]) ++ ⟨sz, false⟩ :: post) x :=
      fun x hc => hcf x (Cells_mono (fun y hy => List.mem_cons_of_mem _ hy) hc)
    cases hn : nextFree post with
    | none =>
      obtain ⟨fl', h1, h2, h3⟩ := merge_prev hP hn
      refine ⟨fl', by simpa [coalesce, hp, hn] using h1, fun x hx => ((h2 x).1 hx).1, ?_⟩
      intro x hx
      apply h3 x _ _ (fun hc => hx (hcf' x hc))
      · rintro rfl
        apply hx
        rw [InFree_append, InFree_append]
        simp only [InFree]
        left; right; left
        exact ⟨trivial, by omega, by omega⟩
      · rintro rfl
        apply hx
        rw [InFree_append]
        simp only [InFree, span_append, span_cons, span_nil]
        right; left
        exact ⟨trivial, by omega, by omega⟩
    | some n =>
      obtain ⟨post', rfl⟩ := nextFree_some hn
      obtain ⟨fl', h1, h2, h3⟩ := merge_both hP
      rw [Shape_cons] at hspost
      have hn16 : 16 ≤ n := hspost.1.2
      refine ⟨fl', by simpa [coalesce, hp, hn] using h1, fun x hx => ((h2 x).1 hx).1, ?_⟩
      intro x hx
      apply h3 x _ _ (fun hc => hx (hcf' x hc))
      · rintro rfl
        apply hx
        rw [InFree_append, InFree_append]
        simp only [InFree]
        left; right; left
        exact ⟨trivial, by omega, by omega⟩
      · rintro rfl
        apply hx
        rw [InFree_append]
        simp only [InFree, span_append, span_cons, span_nil]
        right; right; left
        exact ⟨trivial, by omega, by omega⟩



theorem allocate_spec {s : State} {pre post : List Blk} {f size : Nat} {fl : List Nat}
    (hR : Rep s (pre ++ ⟨f, false⟩ :: post) fl) (h8 : size % 8 = 0) (h16 : 16 ≤ size)
    (hle : size ≤ f) :
    ∃ fl', Rep (allocate s (s.base + span pre + 8) size) (pre ++ carve f size ++ post) fl' ∧
      (∀ x, ¬ InFree s.base (pre ++ ⟨f, false⟩ :: post) x →
        (allocate s (s.base + span pre + 8) size).mem x = s.mem x) := by
  have hcell : ∀ x, Cells fl x → InFree s.base (pre ++ ⟨f, false⟩ :: post) x := by
    intro x hc
    apply cells_InFree hR.mid.shape
    exact Cells_mono (fun y hy => (hR.mem_iff y).1 hy) hc
  have hreg : ∀ x, (s.base + span pre ≤ x ∧ x < s.base + span pre + 16 + f) →
      InFree s.base (pre ++ ⟨f, false⟩ :: post) x := by
    intro x hx
    rw [InFree_append]
    simp only [InFree]
    right; left
    exact ⟨trivial, hx.1, hx.2⟩
  by_cases hc : size + 32 ≤ f
  · obtain ⟨fl', h1, h2⟩ := allocate_split_spec hR h8 h16 hc
    refine ⟨fl', by simpa [carve, hc] using h1, ?_⟩
    intro x hx
    exact h2 x (fun h => hx (hreg x h)) (fun h => hx (hcell x h))
  · obtain ⟨fl', h1, h2⟩ := allocate_whole_spec hR hle (by omega)
    refine ⟨fl', by simpa [carve, hc] using h1, ?_⟩
    intro x hx
    exact h2 x (fun h => hx (hreg x h)) (fun h => hx (hcell x h))

/-! ### First fit -/

theorem find_free_block_from_spec (m : Mem) (size : Nat) :
    ∀ (l : List Nat) (p fuel : Nat), Links m p l 0 → l.length < fuel →
      find_free_block_from m size fuel (firstD l 0) =
        some (match l.find? (fun h => decide (size ≤ read_size m h)) with
              | some h => h + 8
              | none => 0) := by
  intro l
  induction l with
  | nil =>
    intro p fuel _ hf
    cases fuel with
    | zero => simp at hf
    | succ k => simp [find_free_block_from]
  | cons x t ih =>
    intro p fuel hl hf
    cases fuel with
    | zero => simp at hf
    | succ k =>
      obtain ⟨h0, -, h2, h3⟩ := hl
      simp only [firstD_cons, find_free_block_from, h0, if_false]
      by_cases hc : size ≤ read_size m x
      · simp [hc, List.find?, head_to_payload, HFSIZE]
      · have hk : t.length < k := by simp at hf; omega
        have := ih x k h3 hk
        simp only [head_to_next, head_to_payload, HFSIZE, PTRSIZE]
        have e : x + 8 + 8 = x + 16 := by omega
        rw [e, h2, this]
        simp [hc, List.find?]

/-- A head of the run splits the run at its block. -/
theorem heads_decomp {a : Nat} {bs : List Blk} {h : Nat} (hh : h ∈ heads a bs) :
    ∃ pre b post, bs = pre ++ b :: post ∧ h = a + span pre := by
  induction bs generalizing a with
  | nil => simp [heads] at hh
  | cons b t ih =>
    simp only [heads, List.mem_cons] at hh
    rcases hh with rfl | hh
    · exact ⟨[], b, t, rfl, by simp⟩
    · obtain ⟨pre, c, post, rfl, rfl⟩ := ih hh
      exact ⟨b :: pre, c, post, rfl, by simp only [span_cons]; omega⟩

theorem freeHeads_decomp {a : Nat} {bs : List Blk} {h : Nat} (hh : h ∈ freeHeads a bs) :
    ∃ pre f post, bs = pre ++ ⟨f, false⟩ :: post ∧ h = a + span pre := by
  induction bs generalizing a with
  | nil => simp [freeHeads] at hh
  | cons b t ih =>
    cases hu : b.used
    · simp only [freeHeads, hu, Bool.false_eq_true, if_false, List.mem_cons] at hh
      rcases hh with rfl | hh
      · refine ⟨[], b.size, t, ?_, by simp⟩
        cases b; simp_all
      · obtain ⟨pre, c, post, rfl, rfl⟩ := ih hh
        exact ⟨b :: pre, c, post, rfl, by simp only [span_cons]; omega⟩
    · simp only [freeHeads, hu, if_true] at hh
      obtain ⟨pre, c, post, rfl, rfl⟩ := ih hh
      exact ⟨b :: pre, c, post, rfl, by simp only [span_cons]; omega⟩

/-- Reading the tags of a block of a represented state. -/
theorem Mid.read {s : State} {u v : List Blk} {b : Blk} {fl : List Nat}
    (hM : Mid s (u ++ b :: v) fl) :
    read_size s.mem (s.base + span u) = b.size ∧
    read_alloc s.mem (s.base + span u) = (if b.used then 1 else 0) ∧
    read_size s.mem (s.base + span u + 8 + b.size) = b.size ∧
    read_alloc s.mem (s.base + span u + 8 + b.size) = (if b.used then 1 else 0) := by
  have h1 := hM.shape
  rw [Shape_append, Shape_cons] at h1
  obtain ⟨-, h2, h3, -⟩ := Tags_append.1 hM.tags
  have h4 := hM.span_eq
  simp only [span_append, span_cons] at h4
  have hb := hM.geo.bound
  have hsz : b.size < WORD := by omega
  exact ⟨read_size_tag h2 h1.2.1.1 hsz, read_alloc_tag h2 h1.2.1.1,
    read_size_tag h3 h1.2.1.1 hsz, read_alloc_tag h3 h1.2.1.1⟩

theorem find_free_block_spec {s : State} {bs : List Blk} {fl : List Nat} (hR : Rep s bs fl)
    (size fuel : Nat) (hf : fl.length < fuel) :
    (find_free_block fuel s size = some 0 ∧
      ∀ b ∈ bs, b.used = false → b.size < size) ∨
    (∃ pre f post, bs = pre ++ ⟨f, false⟩ :: post ∧ size ≤ f ∧
      find_free_block fuel s size = some (s.base + span pre + 8)) := by
  unfold find_free_block
  rw [hR.mid.head, find_free_block_from_spec s.mem size fl 0 fuel hR.mid.links hf]
  cases hfind : fl.find? (fun h => decide (size ≤ read_size s.mem h)) with
  | none =>
    left
    refine ⟨rfl, ?_⟩
    intro b hb hu
    obtain ⟨pre, post, rfl⟩ := List.append_of_mem hb
    have hin : s.base + span pre ∈ fl := by
      rw [hR.mem_iff, freeHeads_append]
      simp [freeHeads, hu]
    have := List.find?_eq_none.1 hfind _ hin
    rw [hR.mid.read.1] at this
    simpa using this
  | some h =>
    right
    have hin := List.mem_of_find?_eq_some hfind
    have hsz := List.find?_some hfind
    obtain ⟨pre, f, post, rfl, rfl⟩ := freeHeads_decomp ((hR.mem_iff h).1 hin)
    rw [hR.mid.read.1] at hsz
    exact ⟨pre, f, post, rfl, by simpa using hsz, rfl⟩



/-! ### Rounding -/

theorem pow64 : (2:Nat) ^ 64 = 18446744073709551616 := by norm_num

theorem roundup_pow2 (sz k : Nat) (hk : k < 64) (hsz : sz + 2 ^ k ≤ WORD) :
    roundup sz (2 ^ k) = (sz + 2 ^ k - 1) / 2 ^ k * 2 ^ k := by
  have hpos : 0 < 2 ^ k := Nat.two_pow_pos k
  have hlt : 2 ^ k < 2 ^ 64 := Nat.pow_lt_pow_right (by norm_num) hk
  have hm := and_mask (sz + 2 ^ k - 1) k (by omega)
  have hd : (sz + 2 ^ k - 1) / 2 ^ k < 2 ^ (64 - k) := by
    rw [Nat.div_lt_iff_lt_mul hpos, ← pow_add]
    have : 64 - k + k = 64 := by omega
    rw [this, pow64]
    unfold WORD at hsz
    omega
  rw [Nat.mod_eq_of_lt hd] at hm
  rw [← hm]
  rw [pow64] at hlt ⊢
  unfold WORD at hsz
  generalize (2:Nat) ^ k = X at *
  unfold roundup sub64 add64 not64 WORD
  have e1 : ((sz + X) % 18446744073709551616 +
      (18446744073709551616 - 1 % 18446744073709551616)) % 18446744073709551616
      = sz + X - 1 := by omega
  have e2 : 18446744073709551616 - 1 -
      ((X + (18446744073709551616 - 1 % 18446744073709551616)) % 18446744073709551616)
        % 18446744073709551616 = 18446744073709551616 - X := by omega
  rw [e1, e2]

theorem roundup_8 (sz : Nat) (hsz : sz + 8 ≤ WORD) : roundup sz 8 = (sz + 7) / 8 * 8 := by
  have := roundup_pow2 sz 3 (by norm_num) (by simpa using hsz)
  simpa using this

theorem adjust_size_facts (n : Nat) (h1 : 1 ≤ n) (h2 : n ≤ INT_MAX) :
    adjust_size n % 8 = 0 ∧ 16 ≤ adjust_size n ∧ n ≤ adjust_size n ∧
    adjust_size n ≤ INT_MAX + 1 := by
  unfold adjust_size PTRSIZE ALIGNMENT
  unfold INT_MAX at *
  by_cases h : n ≤ 2 * 8
  · rw [if_pos h]
    refine ⟨by omega, by omega, by omega, by omega⟩
  · rw [if_neg h, roundup_8 n (by unfold WORD; omega)]
    refine ⟨by omega, by omega, by omega, by omega⟩

/-- The number of pages asked from the provider covers the need. -/
theorem num_pages_facts {P : Nat} (hP : PageOK P) (need : Nat) (h1 : 1 ≤ need)
    (h2 : need + P ≤ WORD) :
    need ≤ P * (roundup need P / P) ∧ P * (roundup need P / P) < need + P ∧
    1 ≤ roundup need P / P := by
  obtain ⟨k, hk5, hk64, rfl⟩ := hP
  have hpos : 0 < 2 ^ k := Nat.two_pow_pos k
  rw [roundup_pow2 need k hk64 h2, Nat.mul_div_cancel _ hpos]
  have h3 := Nat.div_add_mod (need + 2 ^ k - 1) (2 ^ k)
  have h4 := Nat.mod_lt (need + 2 ^ k - 1) hpos
  have h5 : 1 ≤ (need + 2 ^ k - 1) / 2 ^ k := by
    apply Nat.div_pos _ hpos
    omega
  generalize (need + 2 ^ k - 1) / 2 ^ k = q at *
  generalize (need + 2 ^ k - 1) % 2 ^ k = r at *
  generalize (2:Nat) ^ k = X at *
  refine ⟨?_, ?_, h5⟩
  · rw [Nat.mul_comm] at h3; rw [Nat.mul_comm]; omega
  · rw [Nat.mul_comm] at h3; rw [Nat.mul_comm]; omega

theorem PageOK.page_facts {P : Nat} (hP : PageOK P) :
    32 ≤ P ∧ P % 8 = 0 ∧ P ≤ 9223372036854775808 := by
  obtain ⟨k, hk5, hk64, rfl⟩ := hP
  have h1 : (2:Nat) ^ 5 ≤ 2 ^ k := Nat.pow_le_pow_right (by norm_num) hk5
  have h2 : (2:Nat) ^ k ≤ 2 ^ 63 := Nat.pow_le_pow_right (by norm_num) (by omega)
  have h3 : (2:Nat) ^ k = 2 ^ 3 * 2 ^ (k - 3) := by
    rw [← pow_add]; congr 1; omega
  refine ⟨by simpa using h1, ?_, by simpa using h2⟩
  rw [h3]
  simp



@[simp] theorem merge_free_block_base (s : State) (p : Nat) :
    (merge_free_block s p).base = s.base := by
  unfold merge_free_block; dsimp only; split_ifs <;> simp

@[simp] theorem merge_free_block_seg (s : State) (p : Nat) :
    (merge_free_block s p).seg = s.seg := by
  unfold merge_free_block; dsimp only; split_ifs <;> simp

@[simp] theorem merge_free_block_end (s : State) (p : Nat) :
    (merge_free_block s p).end_ = s.end_ := by
  unfold merge_free_block; dsimp only; split_ifs <;> simp

@[simp] theorem allocate_base (s : State) (p n : Nat) : (allocate s p n).base = s.base := by
  unfold allocate; dsimp only; split_ifs <;> simp

@[simp] theorem allocate_seg (s : State) (p n : Nat) : (allocate s p n).seg = s.seg := by
  unfold allocate; dsimp only; split_ifs <;> simp

@[simp] theorem allocate_end (s : State) (p n : Nat) : (allocate s p n).end_ = s.end_ := by
  unfold allocate; dsimp only; split_ifs <;> simp

theorem mymalloc_reject (P fuel : Nat) (grant : Bool) (s : State) (n : Nat)
    (h : n = 0 ∨ n > INT_MAX) : mymalloc P fuel grant s n = some (0, s) := by
  unfold mymalloc
  rw [if_pos h]

theorem mymalloc_fit {P fuel : Nat} {grant : Bool} {s : State} {n : Nat} {pre post : List Blk}
    {f : Nat} {fl : List Nat} (hR : Rep s (pre ++ ⟨f, false⟩ :: post) fl)
    (h1 : 1 ≤ n) (h2 : n ≤ INT_MAX)
    (hfind : find_free_block fuel s (adjust_size n) = some (s.base + span pre + 8))
    (hle : adjust_size n ≤ f) :
    mymalloc P fuel grant s n =
      some (s.base + span pre + 8, allocate s (s.base + span pre + 8) (adjust_size n)) ∧
    ∃ fl', Rep (allocate s (s.base + span pre + 8) (adjust_size n))
        (pre ++ carve f (adjust_size n) ++ post) fl' ∧
      (∀ x, ¬ InFree s.base (pre ++ ⟨f, false⟩ :: post) x →
        (allocate s (s.base + span pre + 8) (adjust_size n)).mem x = s.mem x) := by
  obtain ⟨a8, a16, -, -⟩ := adjust_size_facts n h1 h2
  constructor
  · unfold mymalloc
    have : ¬ (n = 0 ∨ n > INT_MAX) := by omega
    rw [if_neg this]
    simp only [hfind]
    rw [if_pos (by omega)]
  · exact allocate_spec hR a8 a16 hle

theorem mymalloc_refused {P fuel : Nat} {grant : Bool} {s : State} {n : Nat}
    (h1 : 1 ≤ n) (h2 : n ≤ INT_MAX)
    (hfind : find_free_block fuel s (adjust_size n) = some 0)
    (hno : (extend_heap_segment P grant s.seg
      (roundup (add64 (sub64 (adjust_size n)
        (if read_alloc s.mem s.end_ = 0 then read_size s.mem s.end_ else 0)) (2 * HFSIZE)) P / P)).1
      = 0) :
    mymalloc P fuel grant s n = some (0, s) := by
  unfold mymalloc
  have : ¬ (n = 0 ∨ n > INT_MAX) := by omega
  rw [if_neg this]
  simp only [hfind]
  simp [hno]

/-! ### The tail of the heap -/

theorem Rep.snoc {s : State} {bs : List Blk} {fl : List Nat} (hR : Rep s bs fl) :
    ∃ bs0 t, bs = bs0 ++ [t] := by
  rcases List.eq_nil_or_concat bs with h | ⟨bs0, t, h⟩
  · exact absurd h hR.ne
  · exact ⟨bs0, t, by simpa using h⟩

theorem tailFree_snoc (bs0 : List Blk) (t : Blk) :
    tailFree (bs0 ++ [t]) = if t.used then 0 else t.size := by
  cases t with
  | mk sz u => cases u <;> simp [tailFree, prevFree]

theorem coalesceHead_snoc (a : Nat) (bs0 : List Blk) (t : Blk) :
    coalesceHead a (bs0 ++ [t]) =
      if t.used then a + span bs0 + t.size + 16 else a + span bs0 := by
  cases t with
  | mk sz u =>
    cases u
    · simp only [coalesceHead, prevFree_snoc_free, span_append, span_cons, span_nil]
      simp; omega
    · simp only [coalesceHead, prevFree_snoc_used, span_append, span_cons, span_nil]
      simp; omega

theorem Rep.tail_read {s : State} {bs : List Blk} {fl : List Nat} (hR : Rep s bs fl) :
    (if read_alloc s.mem s.end_ = 0 then read_size s.mem s.end_ else 0) = tailFree bs ∧
    (if read_alloc s.mem s.end_ = 0 then
        s.end_ - (if read_alloc s.mem s.end_ = 0 then read_size s.mem s.end_ else 0)
      else s.end_ + 2 * HFSIZE) = coalesceHead s.base bs + 8 := by
  obtain ⟨bs0, t, rfl⟩ := hR.snoc
  have hr := hR.mid.read (u := bs0) (b := t) (v := [])
  have hsp := hR.mid.span_eq
  simp only [span_append, span_cons, span_nil] at hsp
  have he : s.end_ = s.base + span bs0 + 8 + t.size := by omega
  rw [tailFree_snoc, coalesceHead_snoc, he, hr.2.2.2, hr.2.2.1]
  cases t.used <;> simp [HFSIZE] <;> omega



theorem coalesce_nil (bs : List Blk) (bytes : Nat) :
    coalesce bs (bytes - 16) [] = growKeep bs ++ [⟨growFree bs bytes, false⟩] := by
  cases hp : prevFree bs <;> simp [coalesce, growKeep, growFree, hp, nextFree]

theorem coalesceHead_growKeep (a : Nat) (bs : List Blk) :
    coalesceHead a bs = a + span (growKeep bs) := by
  cases hp : prevFree bs with
  | none => simp [coalesceHead, growKeep, hp]
  | some e =>
    obtain ⟨pre', rfl⟩ := prevFree_some hp
    rw [coalesceHead_some]
    simp [growKeep, hp]

theorem tailFree_lt {bs : List Blk} {size : Nat}
    (hfit : ∀ b ∈ bs, b.used = false → b.size < size) (h16 : 16 ≤ size) :
    tailFree bs < size := by
  cases hp : prevFree bs with
  | none => simp [tailFree, hp]; omega
  | some e =>
    obtain ⟨pre', rfl⟩ := prevFree_some hp
    have := hfit ⟨e, false⟩ (by simp) rfl
    simpa [tailFree, hp] using this

theorem InFree_grow {a : Nat} {bs : List Blk} {bytes x : Nat}
    (h : InFree a (growKeep bs ++ [⟨growFree bs bytes, false⟩]) x) :
    InFree a bs x ∨ a + span bs ≤ x := by
  cases hp : prevFree bs with
  | none =>
    simp only [growKeep, growFree, hp, InFree_append, InFree] at h
    rcases h with h | h | h
    · exact Or.inl h
    · exact Or.inr h.2.1
    · exact absurd h (by simp)
  | some e =>
    obtain ⟨pre', rfl⟩ := prevFree_some hp
    simp only [growKeep, growFree, hp, InFree_append, InFree, List.dropLast_concat] at h
    rw [InFree_append]
    simp only [InFree, span_append, span_cons, span_nil]
    rcases h with h | h | h
    · exact Or.inl (Or.inl h)
    · by_cases hx : x < a + span pre' + 16 + e
      · exact Or.inl (Or.inr (Or.inl ⟨trivial, h.2.1, hx⟩))
      · right; omega
    · exact absurd h (by simp)

theorem mymalloc_grow {P fuel : Nat} {grant : Bool} {s : State} {n : Nat} {bs : List Blk}
    {fl : List Nat} (hP : PageOK P) (hR : Rep s bs fl) (h1 : 1 ≤ n) (h2 : n ≤ INT_MAX)
    (hfind : find_free_block fuel s (adjust_size n) = some 0)
    (hfit : ∀ b ∈ bs, b.used = false → b.size < adjust_size n)
    (hgr : (extend_heap_segment P grant s.seg (growPages P bs (adjust_size n))).1 ≠ 0) :
    ∃ s' fl', mymalloc P fuel grant s n = some (coalesceHead s.base bs + 8, s') ∧
      Rep s' (growKeep bs ++ carve (growFree bs (P * growPages P bs (adjust_size n)))
        (adjust_size n)) fl' ∧
      adjust_size n ≤ growFree bs (P * growPages P bs (adjust_size n)) ∧
      s'.base = s.base ∧ s'.end_ = s.end_ + P * growPages P bs (adjust_size n) ∧
      s'.seg.size = s.seg.size + P * growPages P bs (adjust_size n) ∧
      (∀ x, ¬ InFree s.base bs x → x < s.end_ + 8 → s'.mem x = s.mem x) := by
  obtain ⟨a8, a16, ale, aub⟩ := adjust_size_facts n h1 h2
  obtain ⟨hP32, hP8, hPub⟩ := hP.page_facts
  have hg := hR.mid.geo
  have hb := hg.bound
  have htl := tailFree_lt hfit a16
  obtain ⟨htr1, htr2⟩ := hR.tail_read
  generalize hsize : adjust_size n = size at *
  generalize he : tailFree bs = e at *
  unfold INT_MAX at aub
  have hneed : add64 (sub64 size e) (2 * HFSIZE) = size - e + 16 := by
    have : sub64 size e = size - e := sub64_eq (by omega) (by unfold WORD; omega)
    rw [this]
    have h16 : 2 * HFSIZE = 16 := rfl
    rw [h16]
    exact add64_eq (by unfold WORD; omega)
  have hkdef : growPages P bs size = roundup (size - e + 16) P / P := by
    unfold growPages; rw [he, hneed]
  obtain ⟨hk1, hk2, hk3⟩ := num_pages_facts hP (size - e + 16) (by omega)
    (by unfold WORD; omega)
  rw [← hkdef] at hk1 hk2 hk3
  generalize hk : growPages P bs size = k at *
  -- the provider's answer
  have hext : grant = true ∧ s.seg.start + s.seg.size + k * P < WORD := by
    by_contra hc
    apply hgr
    unfold extend_heap_segment
    rw [if_neg hc]
  have hext1 : (extend_heap_segment P grant s.seg k).1 = s.end_ + 8 := by
    unfold extend_heap_segment
    rw [if_pos hext]
    show s.seg.start + s.seg.size = _
    rw [hg.seg_start, hg.seg_size]
  have hext2 : (extend_heap_segment P grant s.seg k).2 = ⟨s.seg.start, s.seg.size + k * P⟩ := by
    unfold extend_heap_segment
    rw [if_pos hext]
  have hkP : k * P = P * k := Nat.mul_comm _ _
  generalize hbytes : P * k = bytes at *
  have hbb : s.end_ + 8 + bytes < WORD := by
    have := hext.2
    rw [hg.seg_start, hg.seg_size, hkP] at this
    exact this
  have hmul : mul64 P k = bytes := by
    unfold mul64; rw [hbytes]; exact Nat.mod_eq_of_lt (by omega)
  have hb8 : bytes % 8 = 0 := by
    rw [← hbytes]
    exact Nat.mod_eq_zero_of_dvd ((Nat.dvd_of_mod_eq_zero hP8).mul_right k)
  have hb32 : 32 ≤ bytes := by
    rw [← hbytes]
    calc 32 ≤ P := hP32
      _ = P * 1 := (Nat.mul_one P).symm
      _ ≤ P * k := Nat.mul_le_mul_left _ hk3
  have hsub : sub64 bytes (2 * HFSIZE) = bytes - 16 := sub64_eq (by unfold HFSIZE; omega) (by omega)
  -- the state handed to merge_free_block
  have hsp := hR.mid.span_eq
  generalize hs1 : ({ s with
      mem := (s.mem.write (s.end_ + 8) (bytes - 16)).write (s.end_ + 8 + bytes - 8) (bytes - 16),
      end_ := s.end_ + 8 + bytes - 8,
      seg := ⟨s.seg.start, s.seg.size + k * P⟩ } : State) = s1
  have hs1b : s1.base = s.base := by rw [← hs1]
  have hs1e : s1.end_ = s.end_ + 8 + bytes - 8 := by rw [← hs1]
  have hs1m : ∀ x, x < s.end_ + 8 → s1.mem x = s.mem x := by
    intro x hx
    rw [← hs1]
    show ((s.mem.write (s.end_ + 8) (bytes - 16)).write (s.end_ + 8 + bytes - 8) (bytes - 16)) x
      = s.mem x
    rw [write_other _ _ _ _ (by omega), write_other _ _ _ _ (by omega)]
  have hmal : mymalloc P fuel grant s n =
      some (coalesceHead s.base bs + 8,
        allocate (merge_free_block s1 (s.base + span bs + 8)) (coalesceHead s.base bs + 8) size)
      := by
    unfold mymalloc
    have : ¬ (n = 0 ∨ n > INT_MAX) := by omega
    rw [if_neg this]
    simp only [hsize, hfind]
    simp only [htr2]
    simp only [htr1, hneed, ne_eq, not_true_eq_false, if_false]
    have hkk : roundup (size - e + 16) P / P = k := by rw [← hkdef]
    simp only [hkk, hext1, hext2, hmul, hsub, write_size_free, head_to_payload]
    have hz : ¬ (s.end_ + 8 = 0) := by omega
    simp only [hz, if_false]
    have e1 : s.end_ + 8 + HFSIZE = s.base + span bs + 8 := by unfold HFSIZE; omega
    have e2 : s.end_ + 8 + bytes - HFSIZE = s.end_ + 8 + bytes - 8 := rfl
    rw [e1, e2, ← hs1]
  have hPM : PreMerge s1 bs (bytes - 16) [] fl := by
    have hshape : Shape (bs ++ [⟨bytes - 16, false⟩]) := by
      rw [Shape_append, Shape_cons]
      exact ⟨hR.mid.shape, ⟨by dsimp only; omega, by dsimp only; omega⟩, Shape_nil⟩
    refine ⟨⟨?_, hshape, ?_, ?_, ?_, ?_, hR.mid.far⟩, ?_, hR.noadj, by simp [NoAdj]⟩
    · rw [← hs1]
      refine ⟨hg.base_pos, hg.base_al, hg.seg_start, ?_, ?_⟩
      · show s.base + (s.seg.size + k * P) = s.end_ + 8 + bytes - 8 + 8
        have := hg.seg_size
        omega
      · show s.end_ + 8 + bytes - 8 + 8 < WORD
        omega
    · rw [hs1b, Tags_append]
      refine ⟨Tags_frame_range hR.mid.shape ?_ hR.mid.tags, ?_, ?_, trivial⟩
      · intro x _ hx
        exact hs1m x (by omega)
      · rw [← hs1]
        show ((s.mem.write (s.end_ + 8) (bytes - 16)).write (s.end_ + 8 + bytes - 8) (bytes - 16))
          (s.base + span bs) = bytes - 16 + 0
        rw [write_other _ _ _ _ (by omega), hsp, write_same, Nat.add_zero]
      · rw [← hs1]
        show ((s.mem.write (s.end_ + 8) (bytes - 16)).write (s.end_ + 8 + bytes - 8) (bytes - 16))
          (s.base + span bs + 8 + (bytes - 16)) = bytes - 16 + 0
        have : s.base + span bs + 8 + (bytes - 16) = s.end_ + 8 + bytes - 8 := by omega
        rw [this, write_same, Nat.add_zero]
    · rw [hs1b, hs1e]
      simp only [span_append, span_cons, span_nil]
      omega
    · apply Links_frame _ hR.mid.links
      intro y hy
      have := heads_bounds hR.mid.shape (Rep_far hR y hy)
      exact ⟨hs1m _ (by omega), hs1m _ (by omega)⟩
    · rw [← hs1]; exact hR.mid.head
    · intro y
      rw [hs1b, hR.mem_iff]
      simp [freeHeads]
  obtain ⟨fl3, hR3, -, hfr3⟩ := merge_spec hPM
  rw [hs1b] at hfr3
  rw [hs1b, coalesce_nil, coalesceHead_growKeep] at hR3
  have hFle : size ≤ growFree bs bytes := by
    unfold growFree
    cases hp : prevFree bs with
    | none =>
      have : e = 0 := by rw [← he]; simp [tailFree, hp]
      simp only; omega
    | some e' =>
      have : e = e' := by rw [← he]; simp [tailFree, hp]
      simp only; omega
  generalize hs3 : merge_free_block s1 (s.base + span bs + 8) = s3 at *
  have hs3b : s3.base = s.base := by rw [← hs3, merge_free_block_base, hs1b]
  have hal := @allocate_spec s3 (growKeep bs) [] (growFree bs bytes) size _ hR3 a8 a16 hFle
  rw [hs3b] at hal
  obtain ⟨fl', hR', hfr'⟩ := hal
  rw [coalesceHead_growKeep] at hmal
  refine ⟨_, fl', by rw [coalesceHead_growKeep]; exact hmal, by simpa using hR', hFle,
    ?_, ?_, ?_, ?_⟩
  · rw [allocate_base, hs3b]
  · rw [allocate_end, ← hs3, merge_free_block_end, hs1e]; omega
  · rw [allocate_seg, ← hs3, merge_free_block_seg, ← hs1]
    show s.seg.size + k * P = _
    rw [hkP]
  · intro x hx1 hx2
    rw [hfr' x, hfr3 x, hs1m x hx2]
    · rw [InFree_append]
      simp only [InFree]
      rintro (h | h | h)
      · exact hx1 h
      · omega
      · exact h
    · intro h
      rcases InFree_grow h with h | h
      · exact hx1 h
      · omega



/-! ### Blocks met by the heap walk -/

theorem IsBlock_of_decomp {s : State} {bs : List Blk} {fl : List Nat} (hM : Mid s bs fl) :
    ∀ (pre : List Blk) (b : Blk) (post : List Blk), bs = pre ++ b :: post →
      IsBlock s (s.base + span pre) := by
  intro pre
  induction pre using List.reverseRecOn with
  | nil => intro b post _; simpa using IsBlock.first
  | append_singleton pre' c ih =>
    intro b post hbs
    have hbs' : bs = pre' ++ c :: (b :: post) := by simpa using hbs
    have h1 := ih c (b :: post) hbs'
    subst hbs'
    have hr := hM.read (u := pre') (b := c) (v := b :: post)
    have hsp := hM.span_eq
    simp only [span_append, span_cons] at hsp
    have h2 := IsBlock.next h1 (by
      simp only [payload_to_foot, head_to_payload, payload_to_head, HFSIZE, Nat.add_sub_cancel,
        hr.1]
      omega)
    simp only [payload_to_foot, head_to_payload, payload_to_head, HFSIZE, Nat.add_sub_cancel,
      hr.1, next_block] at h2
    have e : s.base + span pre' + 8 + c.size + 2 * 8 - 8 = s.base + span (pre' ++ [c]) := by
      simp only [span_append, span_cons, span_nil]; omega
    rw [e] at h2
    exact h2

theorem IsBlock_heads {s : State} {bs : List Blk} {fl : List Nat} (hM : Mid s bs fl)
    (hne : bs ≠ []) {h : Nat} : IsBlock s h ↔ h ∈ heads s.base bs := by
  constructor
  · intro hb
    induction hb with
    | first =>
      cases bs with
      | nil => exact absurd rfl hne
      | cons b t => simp [heads]
    | @next h _ hfoot ih =>
      obtain ⟨pre, b, post, rfl, rfl⟩ := heads_decomp ih
      have hr := hM.read (u := pre) (b := b) (v := post)
      have hsp := hM.span_eq
      simp only [span_append, span_cons] at hsp
      simp only [payload_to_foot, head_to_payload, payload_to_head, HFSIZE, Nat.add_sub_cancel,
        hr.1, next_block] at hfoot ⊢
      cases post with
      | nil => simp only [span_nil] at hsp; exact absurd (by omega) hfoot
      | cons c post' =>
        rw [heads_append]
        simp only [heads, List.mem_append, List.mem_cons]
        right; right; left
        omega
  · intro hh
    obtain ⟨pre, b, post, rfl, rfl⟩ := heads_decomp hh
    exact IsBlock_of_decomp hM pre b post rfl

/-- Two splits of the same run at the same address are the same split. -/
theorem decomp_unique {bs : List Blk} (hs : Shape bs) :
    ∀ (pre pre' : List Blk) (b b' : Blk) (post post' : List Blk),
      bs = pre ++ b :: post → bs = pre' ++ b' :: post' → span pre = span pre' →
      pre = pre' ∧ b = b' ∧ post = post' := by
  intro pre
  induction pre generalizing bs with
  | nil =>
    intro pre' b b' post post' h1 h2 h3
    cases pre' with
    | nil =>
      subst h1
      simp only [List.nil_append, List.cons.injEq] at h2
      exact ⟨rfl, h2.1, h2.2⟩
    | cons c t => simp only [span_nil, span_cons] at h3; omega
  | cons c t ih =>
    intro pre' b b' post post' h1 h2 h3
    cases pre' with
    | nil => simp only [span_nil, span_cons] at h3; omega
    | cons c' t' =>
      subst h1
      simp only [List.cons_append, List.cons.injEq] at h2
      obtain ⟨rfl, h2⟩ := h2
      simp only [span_cons] at h3
      have hs' := (Shape_cons (b := c) (t := t ++ b :: post)).1 hs
      obtain ⟨r1, r2, r3⟩ := ih hs'.2 t' b b' post post' rfl h2 (by omega)
      exact ⟨by rw [r1], r2, r3⟩

theorem Allocated_iff {s : State} {bs : List Blk} {fl : List Nat} (hR : Rep s bs fl) (p : Nat) :
    Allocated s p ↔ ∃ pre sz post, bs = pre ++ ⟨sz, true⟩ :: post ∧ p = s.base + span pre + 8 := by
  constructor
  · rintro ⟨h, hb, rfl, ha⟩
    obtain ⟨pre, b, post, rfl, rfl⟩ := heads_decomp ((IsBlock_heads hR.mid hR.ne).1 hb)
    have hr := hR.mid.read (u := pre) (b := b) (v := post)
    rw [hr.2.1] at ha
    cases b with
    | mk sz u =>
      cases u
      · simp at ha
      · exact ⟨pre, sz, post, rfl, rfl⟩
  · rintro ⟨pre, sz, post, rfl, rfl⟩
    refine ⟨s.base + span pre, IsBlock_of_decomp hR.mid pre _ post rfl, rfl, ?_⟩
    rw [(hR.mid.read (u := pre) (v := post)).2.1]
    rfl

/-! ### Writes into an allocated payload -/

theorem Rep_payload {s : State} {pre post : List Blk} {c : Nat} {fl : List Nat}
    (hR : Rep s (pre ++ ⟨c, true⟩ :: post) fl) (m' : Mem)
    (hm : ∀ x, ¬ (s.base + span pre + 8 ≤ x ∧ x < s.base + span pre + 8 + c) →
      m' x = s.mem x) :
    Rep { s with mem := m' } (pre ++ ⟨c, true⟩ :: post) fl := by
  have hM := hR.mid
  have hsh0 := hM.shape
  rw [Shape_append, Shape_cons] at hsh0
  have hsh : Shape pre ∧ (c % 8 = 0 ∧ 16 ≤ c) ∧ Shape post := hsh0
  obtain ⟨htpre, hth, htf, htpost⟩ : Tags s.mem s.base pre ∧ s.mem (s.base + span pre) = c + 1 ∧
      s.mem (s.base + span pre + 8 + c) = c + 1 ∧ Tags s.mem (s.base + span pre + 16 + c) post :=
    Tags_append.1 hM.tags
  refine ⟨⟨Geo_mem hM.geo m', hM.shape, ?_, hM.span_eq, ?_, hM.head, hM.far⟩, hR.ne, hR.mem_iff,
    hR.noadj⟩
  · show Tags m' s.base _
    rw [Tags_append]
    show Tags m' s.base pre ∧ m' (s.base + span pre) = c + 1 ∧
      m' (s.base + span pre + 8 + c) = c + 1 ∧ Tags m' (s.base + span pre + 16 + c) post
    refine ⟨Tags_frame_range hsh.1 ?_ htpre, ?_, ?_, Tags_frame_range hsh.2.2 ?_ htpost⟩
    · intro x _ hx; exact hm x (by omega)
    · rw [hm _ (by omega)]; exact hth
    · rw [hm _ (by omega)]; exact htf
    · intro x hx _; exact hm x (by omega)
  · apply Links_frame _ hM.links
    intro y hy
    have := (hR.mem_iff y).1 hy
    rw [freeHeads_append] at this
    simp only [freeHeads, if_true, List.mem_append] at this
    rcases this with h | h
    · have := heads_bounds hsh.1 (freeHeads_sub h)
      exact ⟨hm _ (by omega), hm _ (by omega)⟩
    · have := heads_bounds hsh.2.2 (freeHeads_sub h)
      exact ⟨hm _ (by omega), hm _ (by omega)⟩

/-! ### `myfree` -/

theorem myfree_spec {s : State} {pre post : List Blk} {sz : Nat} {fl : List Nat}
    (hR : Rep s (pre ++ ⟨sz, true⟩ :: post) fl) :
    ∃ fl', Rep (myfree s (s.base + span pre + 8)) (coalesce pre sz post)
        (coalesceHead s.base pre :: fl') ∧
      (∀ x ∈ fl', x ∈ fl) ∧
      (∀ x, ¬ InFree s.base (pre ++ ⟨sz, false⟩ :: post) x →
        (myfree s (s.base + span pre + 8)).mem x = s.mem x) := by
  have hM := hR.mid
  have hg := hM.geo
  have hsh := hM.shape
  rw [Shape_append, Shape_cons] at hsh
  obtain ⟨hspre, ⟨hs8, hs16⟩, hspost⟩ : Shape pre ∧ (sz % 8 = 0 ∧ 16 ≤ sz) ∧ Shape post := hsh
  obtain ⟨htpre, hth, htf, htpost⟩ : Tags s.mem s.base pre ∧ s.mem (s.base + span pre) = sz + 1 ∧
      s.mem (s.base + span pre + 8 + sz) = sz + 1 ∧ Tags s.mem (s.base + span pre + 16 + sz) post :=
    Tags_append.1 hM.tags
  have hsp : s.base + (span pre + (sz + 16 + span post)) = s.end_ + 8 := by
    have := hM.span_eq
    simpa only [span_append, span_cons] using this
  have hb := hg.bound
  have hszb : sz < WORD := by omega
  have hrs := (hM.read (u := pre) (v := post)).1
  have e : myfree s (s.base + span pre + 8) =
      merge_free_block { s with mem :=
        ((s.mem.write (s.base + span pre) sz).write (s.base + span pre + 8 + sz) sz) }
        (s.base + span pre + 8) := by
    unfold myfree
    rw [if_neg (by omega)]
    simp only [payload_to_head, payload_to_foot, HFSIZE, Nat.add_sub_cancel, write_size_free]
    rw [hrs]
    dsimp only
    rw [read_size_write_free _ _ _ hs8 hszb]
  rw [e]
  generalize hM2 : (s.mem.write (s.base + span pre) sz).write (s.base + span pre + 8 + sz) sz = M2
  have hM2x : ∀ x, x ≠ s.base + span pre → x ≠ s.base + span pre + 8 + sz → M2 x = s.mem x := by
    intro x h1 h2
    rw [← hM2, write_other _ _ _ _ h2, write_other _ _ _ _ h1]
  have hmi : ∀ h, h ∈ fl ↔
      h ∈ freeHeads s.base pre ∨ h ∈ freeHeads (s.base + span pre + 16 + sz) post := by
    intro h
    rw [hR.mem_iff, freeHeads_append]
    simp [freeHeads]
  have hPM : PreMerge { s with mem := M2 } pre sz post fl := by
    refine ⟨⟨Geo_mem hg M2, ?_, ?_, ?_, ?_, hM.head, hM.far⟩, hmi, ?_, ?_⟩
    · rw [Shape_append, Shape_cons]
      exact ⟨hspre, ⟨hs8, hs16⟩, hspost⟩
    · show Tags M2 s.base _
      rw [Tags_append]
      simp only [Tags, Blk.tag, Bool.false_eq_true, if_false, Nat.add_zero]
      refine ⟨Tags_frame_range hspre ?_ htpre, ?_, ?_, Tags_frame_range hspost ?_ htpost⟩
      · intro x _ hx; exact hM2x x (by omega) (by omega)
      · rw [← hM2, write_other _ _ _ _ (by omega), write_same]
      · rw [← hM2, write_same]
      · intro x hx _; exact hM2x x (by omega) (by omega)
    · show s.base + _ = s.end_ + 8
      simp only [span_append, span_cons]
      omega
    · apply Links_frame _ hM.links
      intro y hy
      rcases (hmi y).1 hy with h | h
      · have := heads_bounds hspre (freeHeads_sub h)
        exact ⟨hM2x _ (by omega) (by omega), hM2x _ (by omega) (by omega)⟩
      · have := heads_bounds hspost (freeHeads_sub h)
        exact ⟨hM2x _ (by omega) (by omega), hM2x _ (by omega) (by omega)⟩
    · exact NoAdj_left hR.noadj
    · exact NoAdj_right (l := pre ++ [_]) (by simpa using hR.noadj)
  obtain ⟨fl', h1, h2, h3⟩ := merge_spec hPM
  refine ⟨fl', h1, h2, ?_⟩
  intro x hx
  rw [h3 x hx]
  apply hM2x
  · rintro rfl
    apply hx
    rw [InFree_append]; simp only [InFree]
    right; left; exact ⟨trivial, by omega, by omega⟩
  · rintro rfl
    apply hx
    rw [InFree_append]; simp only [InFree]
    right; left; exact ⟨trivial, by omega, by omega⟩



/-! ### `myinit` -/

theorem myinit_spec {P start : Nat} {s0 : State} (hP : PageOK P)
    (h : (myinit P start s0).1 = true) :
    Rep (myinit P start s0).2 [⟨P - 16, false⟩] [start] ∧
    (myinit P start s0).2.base = start ∧ (myinit P start s0).2.end_ = start + P - 8 ∧
    (myinit P start s0).2.seg = ⟨start, P⟩ := by
  obtain ⟨hP32, hP8, hPub⟩ := hP.page_facts
  have hc : start % 8 = 0 ∧ 0 < start ∧ start + 1 * P < WORD := by
    by_contra hc
    unfold myinit init_heap_segment at h
    rw [if_neg hc] at h
    simp at h
  have hi : init_heap_segment P start 1 = (start, ⟨start, P⟩) := by
    unfold init_heap_segment
    rw [if_pos hc, Nat.one_mul]
  obtain ⟨hc1, hc2, hc3⟩ := hc
  rw [Nat.one_mul] at hc3
  have hsub : sub64 P (2 * HFSIZE) = P - 16 :=
    sub64_eq (by unfold HFSIZE; omega) (by unfold WORD at *; omega)
  have e : (myinit P start s0).2 =
      { mem := (((s0.mem.write start (P - 16)).write (start + P - 8) (P - 16)).write
          (start + 8) 0).write (start + 16) 0,
        base := start, end_ := start + P - 8, free_list_head := start, seg := ⟨start, P⟩ } := by
    unfold myinit
    simp only [hi]
    rw [if_neg (by omega)]
    simp only [hsub, write_size_free, head_to_prev, head_to_next, head_to_payload, PTRSIZE]
    have e8 : start + HFSIZE + 8 = start + 16 := by unfold HFSIZE; omega
    have e9 : start + P - HFSIZE = start + P - 8 := rfl
    have e10 : start + HFSIZE = start + 8 := rfl
    rw [e8, e9, e10]
  rw [e]
  refine ⟨⟨⟨⟨hc2, hc1, rfl, ?_, ?_⟩, ?_, ?_, ?_, ?_, rfl, by simp⟩, by simp, ?_, by simp [NoAdj]⟩,
    rfl, rfl, rfl⟩
  · show start + P = start + P - 8 + 8
    omega
  · show start + P - 8 + 8 < WORD
    omega
  · rw [Shape_cons]
    exact ⟨⟨by dsimp only; omega, by dsimp only; omega⟩, Shape_nil⟩
  · refine ⟨?_, ?_, trivial⟩
    · show _ = P - 16 + 0
      dsimp only
      rw [write_other _ _ _ _ (by omega), write_other _ _ _ _ (by omega),
        write_other _ _ _ _ (by omega), write_same, Nat.add_zero]
    · show _ = P - 16 + 0
      dsimp only
      have : start + 8 + (P - 16) = start + P - 8 := by omega
      rw [this, write_other _ _ _ _ (by omega), write_other _ _ _ _ (by omega), write_same,
        Nat.add_zero]
  · show start + span [⟨P - 16, false⟩] = start + P - 8 + 8
    simp only [span_cons, span_nil]
    omega
  · refine ⟨by omega, ?_, ?_, trivial⟩
    · dsimp only
      rw [write_other _ _ _ _ (by omega), write_same]
    · dsimp only
      rw [write_same]; rfl
  · intro y
    simp [freeHeads]

/-! ### Stores of the client -/

theorem InAllocatedPayload_decomp {s : State} {bs : List Blk} {fl : List Nat} (hR : Rep s bs fl)
    {a : Nat} (ha : InAllocatedPayload s a) :
    ∃ pre c post, bs = pre ++ ⟨c, true⟩ :: post ∧ s.base + span pre + 8 ≤ a ∧
      a < s.base + span pre + 8 + c := by
  obtain ⟨h, hb, hal, -, h1, h2⟩ := ha
  obtain ⟨pre, b, post, rfl, rfl⟩ := heads_decomp ((IsBlock_heads hR.mid hR.ne).1 hb)
  have hr := hR.mid.read (u := pre) (b := b) (v := post)
  rw [hr.2.1] at hal
  simp only [payload_to_foot, head_to_payload, payload_to_head, HFSIZE, Nat.add_sub_cancel,
    hr.1] at h1 h2
  cases b with
  | mk sz u =>
    cases u
    · simp at hal
    · exact ⟨pre, sz, post, rfl, h1, h2⟩

theorem store_spec {s : State} {bs : List Blk} {fl : List Nat} (hR : Rep s bs fl)
    {a : Nat} (ha : InAllocatedPayload s a) (v : Nat) :
    Rep { s with mem := s.mem.write a v } bs fl := by
  obtain ⟨pre, c, post, rfl, h1, h2⟩ := InAllocatedPayload_decomp hR ha
  apply Rep_payload hR
  intro x hx
  exact write_other _ _ _ _ (by omega)

/-! ### Fuel -/

theorem find_free_block_from_mono (m : Mem) (size : Nat) :
    ∀ (fuel cur r k : Nat), find_free_block_from m size fuel cur = some r →
      find_free_block_from m size (fuel + k) cur = some r := by
  intro fuel
  induction fuel with
  | zero => intro cur r k h; simp [find_free_block_from] at h
  | succ f ih =>
    intro cur r k h
    have e : f + 1 + k = (f + k) + 1 := by omega
    rw [e]
    simp only [find_free_block_from] at h ⊢
    split_ifs at h ⊢ with h1 h2
    · exact h
    · exact h
    · exact ih _ _ _ h

theorem mymalloc_mono {P fuel : Nat} {grant : Bool} {s : State} {n : Nat} {r : Nat × State}
    (h : mymalloc P fuel grant s n = some r) (k : Nat) :
    mymalloc P (fuel + k) grant s n = some r := by
  unfold mymalloc at h ⊢
  split_ifs at h ⊢ with h1
  · exact h
  · cases hf : find_free_block fuel s (adjust_size n) with
    | none => simp [hf] at h
    | some ptr =>
      have hf' : find_free_block (fuel + k) s (adjust_size n) = some ptr :=
        find_free_block_from_mono _ _ _ _ _ k hf
      simp only [hf] at h
      simp only [hf']
      exact h

theorem carve_head {f size : Nat} (hle : size ≤ f) :
    ∃ c rest, carve f size = ⟨c, true⟩ :: rest ∧ size ≤ c := by
  unfold carve
  split_ifs
  · exact ⟨size, _, rfl, le_refl _⟩
  · exact ⟨f, _, rfl, hle⟩



/-! ### `mymalloc`: the four outcomes -/

/-- What a call of `mymalloc` does, with enough fuel, in a represented state. -/
theorem mymalloc_cases {P fuel : Nat} {s : State} {bs : List Blk} {fl : List Nat}
    (hP : PageOK P) (hR : Rep s bs fl) (hf : fl.length < fuel) (grant : Bool) (n : Nat) :
    ((n = 0 ∨ n > INT_MAX) ∧ mymalloc P fuel grant s n = some (0, s)) ∨
    (1 ≤ n ∧ n ≤ INT_MAX ∧ ∃ pre f post fl', bs = pre ++ ⟨f, false⟩ :: post ∧
      adjust_size n ≤ f ∧
      mymalloc P fuel grant s n =
        some (s.base + span pre + 8, allocate s (s.base + span pre + 8) (adjust_size n)) ∧
      Rep (allocate s (s.base + span pre + 8) (adjust_size n))
        (pre ++ carve f (adjust_size n) ++ post) fl' ∧
      (∀ x, ¬ InFree s.base bs x →
        (allocate s (s.base + span pre + 8) (adjust_size n)).mem x = s.mem x)) ∨
    (1 ≤ n ∧ n ≤ INT_MAX ∧ (∀ b ∈ bs, b.used = false → b.size < adjust_size n) ∧
      (extend_heap_segment P grant s.seg (growPages P bs (adjust_size n))).1 = 0 ∧
      mymalloc P fuel grant s n = some (0, s)) ∨
    (1 ≤ n ∧ n ≤ INT_MAX ∧ (∀ b ∈ bs, b.used = false → b.size < adjust_size n) ∧
      (extend_heap_segment P grant s.seg (growPages P bs (adjust_size n))).1 ≠ 0 ∧
      ∃ s' fl', mymalloc P fuel grant s n = some (coalesceHead s.base bs + 8, s') ∧
        Rep s' (growKeep bs ++ carve (growFree bs (P * growPages P bs (adjust_size n)))
          (adjust_size n)) fl' ∧
        adjust_size n ≤ growFree bs (P * growPages P bs (adjust_size n)) ∧
        s'.base = s.base ∧ s'.end_ = s.end_ + P * growPages P bs (adjust_size n) ∧
        s'.seg.size = s.seg.size + P * growPages P bs (adjust_size n) ∧
        (∀ x, ¬ InFree s.base bs x → x < s.end_ + 8 → s'.mem x = s.mem x)) := by
  by_cases hn : n = 0 ∨ n > INT_MAX
  · exact Or.inl ⟨hn, mymalloc_reject P fuel grant s n hn⟩
  · have h1 : 1 ≤ n := by omega
    have h2 : n ≤ INT_MAX := by omega
    right
    rcases find_free_block_spec hR (adjust_size n) fuel hf with ⟨hfind, hfit⟩ |
      ⟨pre, f, post, rfl, hle, hfind⟩
    · right
      by_cases hg : (extend_heap_segment P grant s.seg (growPages P bs (adjust_size n))).1 = 0
      · left
        refine ⟨h1, h2, hfit, hg, ?_⟩
        apply mymalloc_refused h1 h2 hfind
        rw [hR.tail_read.1]
        exact hg
      · right
        exact ⟨h1, h2, hfit, hg, mymalloc_grow hP hR h1 h2 hfind hfit hg⟩
    · left
      obtain ⟨e, fl', hR', hfr⟩ := @mymalloc_fit P _ grant _ _ _ _ _ _ hR h1 h2 hfind hle
      exact ⟨h1, h2, pre, f, post, fl', rfl, hle, e, hR', hfr⟩

theorem growKeep_used {bs : List Blk} {x : Nat} {a : Nat} (h : InUsed a bs x) :
    InUsed a (growKeep bs) x := by
  cases hp : prevFree bs with
  | none => simpa [growKeep, hp] using h
  | some e =>
    obtain ⟨pre', rfl⟩ := prevFree_some hp
    rw [InUsed_append] at h
    simp only [growKeep, hp, List.dropLast_concat]
    rcases h with h | h
    · exact h
    · simp [InUsed] at h

/-- Summary of `mymalloc`: it returns, keeps the state represented, and a non-null result
is the payload of an allocated block that is large enough. -/
theorem mymalloc_ok {P fuel : Nat} {s : State} {bs : List Blk} {fl : List Nat}
    (hP : PageOK P) (hR : Rep s bs fl) (hf : fl.length < fuel) (grant : Bool) (n : Nat) :
    ∃ q s', mymalloc P fuel grant s n = some (q, s') ∧ (q = 0 → s' = s) ∧
      ∃ bs' fl', Rep s' bs' fl' ∧ s'.base = s.base ∧
        (q ≠ 0 → 1 ≤ n ∧ n ≤ INT_MAX ∧ ∃ pre c post, bs' = pre ++ ⟨c, true⟩ :: post ∧
          q = s.base + span pre + 8 ∧ adjust_size n ≤ c) ∧
        (∀ x, InUsed s.base bs x → s'.mem x = s.mem x ∧ InUsed s.base bs' x) := by
  rcases mymalloc_cases hP hR hf grant n with ⟨-, e⟩ |
    ⟨h1, h2, pre, f, post, fl', rfl, hle, e, hR', hfr⟩ | ⟨-, -, -, -, e⟩ |
    ⟨h1, h2, hfit, hg, s', fl', e, hR', hle, hb, -, -, hfr⟩
  · exact ⟨0, s, e, fun _ => rfl, bs, fl, hR, rfl, fun h => absurd rfl h, fun x hx => ⟨rfl, hx⟩⟩
  · obtain ⟨c, rest, hc, hcle⟩ := carve_head hle
    refine ⟨_, _, e, fun h => by omega, _, fl', hR', allocate_base _ _ _, ?_, ?_⟩
    · intro _
      exact ⟨h1, h2, pre, c, rest ++ post, by rw [hc]; simp, rfl, hcle⟩
    · intro x hx
      refine ⟨hfr x (InUsed_not_InFree hx), ?_⟩
      rw [InUsed_append] at hx
      simp only [InUsed, Bool.false_eq_true, false_and, false_or] at hx
      rw [List.append_assoc, InUsed_append, InUsed_append]
      rcases hx with hx | hx
      · exact Or.inl hx
      · right; right
        have hsp : span (carve f (adjust_size n)) = f + 16 := by
          unfold carve; split_ifs <;> simp only [span_cons, span_nil] <;> omega
        rw [hsp]
        have e1 : s.base + span pre + (f + 16) = s.base + span pre + 16 + f := by omega
        rw [e1]; exact hx
  · exact ⟨0, s, e, fun _ => rfl, bs, fl, hR, rfl, fun h => absurd rfl h, fun x hx => ⟨rfl, hx⟩⟩
  · obtain ⟨c, rest, hc, hcle⟩ := carve_head hle
    have hne : coalesceHead s.base bs + 8 ≠ 0 := by omega
    refine ⟨_, s', e, fun h => absurd h hne, _, fl', hR', hb, ?_, ?_⟩
    · intro _
      refine ⟨h1, h2, growKeep bs, c, rest, by rw [hc], ?_, hcle⟩
      rw [coalesceHead_growKeep]
    · intro x hx
      have hxb := InUsed_bounds hx
      have hsp := hR.mid.span_eq
      refine ⟨hfr x (InUsed_not_InFree hx) (by omega), ?_⟩
      rw [InUsed_append]
      exact Or.inl (growKeep_used hx)



/-! ### `myrealloc` -/

theorem realloc_split_eq (P fuel : Nat) (grant : Bool) (s : State) (a oldsz n : Nat)
    (hm : s.mem a = oldsz + 1) (ho8 : oldsz % 8 = 0) (hob : oldsz < WORD) (hn0 : n ≠ 0)
    (h8 : adjust_size n % 8 = 0) (hle : adjust_size n + 32 ≤ oldsz) :
    myrealloc P fuel grant s (a + 8) n =
      some (a + 8, merge_free_block { s with mem :=
        ((((s.mem.write a (adjust_size n + 1)).write (a + 8 + adjust_size n)
          (adjust_size n + 1)).write
          (a + 16 + adjust_size n) (oldsz - adjust_size n - 16)).write (a + 8 + oldsz)
          (oldsz - adjust_size n - 16)) }
        (a + 16 + adjust_size n + 8)) := by
  generalize hsize : adjust_size n = size at *
  have hrs : read_size s.mem a = oldsz := by
    rw [read_size_eq, hm]; unfold WORD at hob; omega
  have hsb : size < WORD := by omega
  have e1 : sub64 oldsz size = oldsz - size := sub64_eq (by omega) hob
  have e2 : sub64 (oldsz - size) 16 = oldsz - size - 16 := sub64_eq (by omega) (by omega)
  unfold myrealloc
  rw [if_neg (by omega), if_neg hn0]
  simp only [payload_to_head, payload_to_foot, next_block, HFSIZE, PTRSIZE, Nat.add_sub_cancel,
    hrs, hsize, e1, e2]
  rw [if_pos (by omega), if_pos (by omega)]
  simp only [write_size_used _ _ _ h8, write_size_free, read_size_write_used _ _ _ h8 hsb]
  have r2 : read_size ((s.mem.write a (size + 1)).write (a + 8 + size) (size + 1)) a = size := by
    rw [read_size_write_ne _ _ _ _ (by omega), read_size_write_used _ _ _ h8 hsb]
  simp only [r2]
  have e3 : a + 8 + size + 2 * 8 - 8 = a + 16 + size := by omega
  simp only [e3]
  have r3 : read_size ((((s.mem.write a (size + 1)).write (a + 8 + size) (size + 1)).write
          (a + 16 + size) (oldsz - size - 16))) (a + 16 + size) = oldsz - size - 16 :=
    read_size_write_free _ _ _ (by omega) (by omega)
  simp only [r3]
  have e4 : a + 8 + size + 2 * 8 + (oldsz - size - 16) = a + 8 + oldsz := by omega
  have e5 : a + 8 + size + 2 * 8 = a + 16 + size + 8 := by omega
  have e6 : a + 16 + size + 8 + (oldsz - size - 16) = a + 8 + oldsz := by omega
  simp only [e5, e6]

theorem realloc_split_spec {P fuel : Nat} {grant : Bool} {s : State} {pre post : List Blk}
    {oldsz n : Nat} {fl : List Nat} (hR : Rep s (pre ++ ⟨oldsz, true⟩ :: post) fl)
    (h1 : 1 ≤ n) (h2 : n ≤ INT_MAX) (hle : adjust_size n + 32 ≤ oldsz) :
    ∃ s' fl', myrealloc P fuel grant s (s.base + span pre + 8) n =
        some (s.base + span pre + 8, s') ∧
      Rep s' (coalesce (pre ++ [⟨adjust_size n, true⟩]) (oldsz - adjust_size n - 16) post) fl' ∧
      s'.base = s.base ∧ s'.end_ = s.end_ ∧ s'.seg = s.seg ∧
      (∀ x, ¬ InFree s.base
          (pre ++ ⟨adjust_size n, true⟩ :: ⟨oldsz - adjust_size n - 16, false⟩ :: post) x →
        x ≠ s.base + span pre → x ≠ s.base + span pre + 8 + adjust_size n →
        s'.mem x = s.mem x) := by
  obtain ⟨a8, a16, -, -⟩ := adjust_size_facts n h1 h2
  have hM := hR.mid
  have hg := hM.geo
  have hsh := hM.shape
  rw [Shape_append, Shape_cons] at hsh
  obtain ⟨hspre, ⟨hs8, hs16⟩, hspost⟩ :
    Shape pre ∧ (oldsz % 8 = 0 ∧ 16 ≤ oldsz) ∧ Shape post := hsh
  obtain ⟨htpre, hth, htf, htpost⟩ : Tags s.mem s.base pre ∧
      s.mem (s.base + span pre) = oldsz + 1 ∧
      s.mem (s.base + span pre + 8 + oldsz) = oldsz + 1 ∧
      Tags s.mem (s.base + span pre + 16 + oldsz) post :=
    Tags_append.1 hM.tags
  have hsp : s.base + (span pre + (oldsz + 16 + span post)) = s.end_ + 8 := by
    have := hM.span_eq
    simpa only [span_append, span_cons] using this
  have hb := hg.bound
  have hob : oldsz < WORD := by omega
  have e := realloc_split_eq P fuel grant s (s.base + span pre) oldsz n hth hs8 hob (by omega)
    a8 hle
  generalize adjust_size n = size at *
  generalize hM4 : (((s.mem.write (s.base + span pre) (size + 1)).write
    (s.base + span pre + 8 + size) (size + 1)).write (s.base + span pre + 16 + size)
    (oldsz - size - 16)).write (s.base + span pre + 8 + oldsz) (oldsz - size - 16) = M4 at e
  have hM4x : ∀ x, x ≠ s.base + span pre → x ≠ s.base + span pre + 8 + size →
      x ≠ s.base + span pre + 16 + size → x ≠ s.base + span pre + 8 + oldsz →
      M4 x = s.mem x := by
    intro x h1 h2 h3 h4
    rw [← hM4, write_other _ _ _ _ h4, write_other _ _ _ _ h3, write_other _ _ _ _ h2,
      write_other _ _ _ _ h1]
  have hmi : ∀ h, h ∈ fl ↔ h ∈ freeHeads s.base (pre ++ [⟨size, true⟩]) ∨
      h ∈ freeHeads (s.base + span (pre ++ [⟨size, true⟩]) + 16 + (oldsz - size - 16)) post := by
    intro h
    rw [hR.mem_iff, freeHeads_append, freeHeads_append]
    simp only [freeHeads, if_true, List.mem_append, List.not_mem_nil, or_false, span_append,
      span_cons, span_nil]
    have e1 : s.base + (span pre + (size + 16 + 0)) + 16 + (oldsz - size - 16)
        = s.base + span pre + 16 + oldsz := by omega
    rw [e1]
  have e1 : s.base + span pre + 16 + size + 16 + (oldsz - size - 16)
      = s.base + span pre + 16 + oldsz := by omega
  have e2 : s.base + span pre + 16 + size + 8 + (oldsz - size - 16)
      = s.base + span pre + 8 + oldsz := by omega
  have hPM : PreMerge { s with mem := M4 } (pre ++ [⟨size, true⟩]) (oldsz - size - 16) post
      fl := by
    refine ⟨⟨Geo_mem hg M4, ?_, ?_, ?_, ?_, hM.head, hM.far⟩, hmi, ?_, ?_⟩
    · rw [Shape_append, Shape_append, Shape_cons, Shape_cons]
      exact ⟨⟨hspre, ⟨a8, a16⟩, Shape_nil⟩, ⟨by dsimp only; omega, by dsimp only; omega⟩, hspost⟩
    · show Tags M4 s.base _
      rw [List.append_assoc, Tags_append]
      simp only [List.singleton_append, Tags, Blk.tag, if_true, Bool.false_eq_true, if_false,
        Nat.add_zero, e1, e2]
      refine ⟨Tags_frame_range hspre ?_ htpre, ?_, ?_, ?_, ?_, ?_⟩
      · intro x _ hx
        exact hM4x x (by omega) (by omega) (by omega) (by omega)
      · rw [← hM4, write_other _ _ _ _ (by omega), write_other _ _ _ _ (by omega),
          write_other _ _ _ _ (by omega), write_same]
      · rw [← hM4, write_other _ _ _ _ (by omega), write_other _ _ _ _ (by omega), write_same]
      · rw [← hM4, write_other _ _ _ _ (by omega), write_same]
      · rw [← hM4, write_same]
      · apply Tags_frame_range hspost _ htpost
        intro x hx _
        exact hM4x x (by omega) (by omega) (by omega) (by omega)
    · show s.base + _ = s.end_ + 8
      simp only [span_append, span_cons, span_nil]
      omega
    · apply Links_frame _ hM.links
      intro y hy
      have := (hR.mem_iff y).1 hy
      rw [freeHeads_append] at this
      simp only [freeHeads, if_true, List.mem_append] at this
      rcases this with h | h
      · have := heads_bounds hspre (freeHeads_sub h)
        exact ⟨hM4x _ (by omega) (by omega) (by omega) (by omega),
          hM4x _ (by omega) (by omega) (by omega) (by omega)⟩
      · have := heads_bounds hspost (freeHeads_sub h)
        exact ⟨hM4x _ (by omega) (by omega) (by omega) (by omega),
          hM4x _ (by omega) (by omega) (by omega) (by omega)⟩
    · exact NoAdj_snoc_used rfl (NoAdj_left hR.noadj)
    · exact NoAdj_right (l := pre ++ [_]) (by simpa using hR.noadj)
  obtain ⟨fl', hR', -, hfr⟩ := merge_spec hPM
  have e3 : s.base + span (pre ++ [⟨size, true⟩]) + 8 = s.base + span pre + 16 + size + 8 := by
    simp only [span_append, span_cons, span_nil]; omega
  have hfr' : ∀ x, ¬ InFree s.base (pre ++ [⟨size, true⟩] ++ ⟨oldsz - size - 16, false⟩ :: post) x →
      (merge_free_block { s with mem := M4 } (s.base + span (pre ++ [⟨size, true⟩]) + 8)).mem x
        = M4 x := hfr
  rw [e3] at hR' hfr'
  refine ⟨_, _, e, hR', by simp, by simp, by simp, ?_⟩
  intro x hx hx1 hx2
  rw [hfr' x (by simpa using hx)]
  apply hM4x x hx1 hx2
  · rintro rfl
    apply hx
    rw [InFree_append]; simp only [InFree]
    right; right; left
    exact ⟨trivial, by omega, by omega⟩
  · rintro rfl
    apply hx
    rw [InFree_append]; simp only [InFree]
    right; right; left
    exact ⟨trivial, by omega, by omega⟩



@[simp] theorem myfree_base (s : State) (p : Nat) : (myfree s p).base = s.base := by
  unfold myfree; split_ifs <;> simp

theorem myfree_null (s : State) : myfree s 0 = s := by
  unfold myfree; rw [if_pos rfl]

theorem adjust_size_idem (n : Nat) (h1 : 1 ≤ n) (h2 : n ≤ INT_MAX)
    (h3 : adjust_size n ≤ INT_MAX) : adjust_size (adjust_size n) = adjust_size n := by
  obtain ⟨a8, a16, -, -⟩ := adjust_size_facts n h1 h2
  generalize adjust_size n = m at *
  unfold adjust_size PTRSIZE ALIGNMENT
  unfold INT_MAX at *
  by_cases h : m ≤ 2 * 8
  · rw [if_pos h]; omega
  · rw [if_neg h, roundup_8 m (by unfold WORD; omega)]
    omega

theorem realloc_same {P fuel : Nat} {grant : Bool} {s : State} {pre post : List Blk}
    {oldsz n : Nat} {fl : List Nat} (hR : Rep s (pre ++ ⟨oldsz, true⟩ :: post) fl)
    (h1 : 1 ≤ n) (hle : adjust_size n ≤ oldsz) (hlt : oldsz < adjust_size n + 32) :
    myrealloc P fuel grant s (s.base + span pre + 8) n = some (s.base + span pre + 8, s) := by
  have hrs := (hR.mid.read (u := pre) (v := post)).1
  have hsp := hR.mid.span_eq
  simp only [span_append, span_cons] at hsp
  have hb := hR.mid.geo.bound
  have e1 : sub64 oldsz (adjust_size n) = oldsz - adjust_size n :=
    sub64_eq hle (by omega)
  unfold myrealloc
  rw [if_neg (by omega), if_neg (by omega)]
  simp only [payload_to_head, HFSIZE, PTRSIZE, Nat.add_sub_cancel, hrs, e1]
  rw [if_pos hle, if_neg (by omega)]

theorem realloc_move_eq {P fuel : Nat} {grant : Bool} {s : State} {pre post : List Blk}
    {oldsz n : Nat} {fl : List Nat} (hR : Rep s (pre ++ ⟨oldsz, true⟩ :: post) fl)
    (h1 : 1 ≤ n) (hlt : oldsz < adjust_size n) :
    myrealloc P fuel grant s (s.base + span pre + 8) n =
      match mymalloc P fuel grant (myfree s (s.base + span pre + 8)) (adjust_size n) with
      | none => none
      | some (new_ptr, s2) =>
        if new_ptr = 0 then none
        else some (new_ptr, { s2 with mem := (memcpy_in s2.mem new_ptr
          (memcpy_out s.mem (s.base + span pre + 8)) oldsz) }) := by
  have hrs := (hR.mid.read (u := pre) (v := post)).1
  unfold myrealloc
  rw [if_neg (by omega), if_neg (by omega)]
  simp only [payload_to_head, HFSIZE, Nat.add_sub_cancel, hrs]
  rw [if_neg (by omega)]

/-- Summary of `myrealloc` on an allocated block with a non-zero size. -/
theorem myrealloc_ok {P fuel : Nat} {grant : Bool} {s : State} {pre post : List Blk}
    {oldsz n : Nat} {fl : List Nat} (hP : PageOK P)
    (hR : Rep s (pre ++ ⟨oldsz, true⟩ :: post) fl)
    (h1 : 1 ≤ n) (h2 : n ≤ INT_MAX) {q : Nat} {s' : State}
    (h : myrealloc P fuel grant s (s.base + span pre + 8) n = some (q, s')) :
    q ≠ 0 ∧ s'.base = s.base ∧
    (∃ bs' fl' pre' c post', Rep s' bs' fl' ∧ bs' = pre' ++ ⟨c, true⟩ :: post' ∧
      q = s.base + span pre' + 8 ∧ adjust_size n ≤ c) ∧
    (∀ i, i < oldsz → i < adjust_size n →
      s'.mem (q + i) = s.mem (s.base + span pre + 8 + i)) := by
  obtain ⟨a8, a16, ale, aub⟩ := adjust_size_facts n h1 h2
  by_cases hle : adjust_size n ≤ oldsz
  · by_cases hsp : adjust_size n + 32 ≤ oldsz
    · obtain ⟨s1, fl1, e, hR1, hb, -, -, hfr⟩ :=
        @realloc_split_spec P fuel grant _ _ _ _ _ _ hR h1 h2 hsp
      rw [e] at h
      simp only [Option.some.injEq, Prod.mk.injEq] at h
      obtain ⟨rfl, rfl⟩ := h
      refine ⟨by omega, hb, ?_, ?_⟩
      · have hc : ∃ rest, coalesce (pre ++ [⟨adjust_size n, true⟩])
            (oldsz - adjust_size n - 16) post = pre ++ ⟨adjust_size n, true⟩ :: rest := by
          unfold coalesce
          rw [prevFree_snoc_used]
          cases nextFree post <;> simp
        obtain ⟨rest, hc⟩ := hc
        exact ⟨_, fl1, pre, adjust_size n, rest, hR1, hc, rfl, le_refl _⟩
      · intro i hi1 hi2
        apply hfr
        · apply InUsed_not_InFree
          rw [InUsed_append]
          simp only [InUsed]
          right; left
          exact ⟨trivial, by omega, by omega⟩
        · omega
        · omega
    · rw [realloc_same hR h1 hle (by omega)] at h
      simp only [Option.some.injEq, Prod.mk.injEq] at h
      obtain ⟨rfl, rfl⟩ := h
      exact ⟨by omega, rfl, ⟨_, fl, pre, oldsz, post, hR, rfl, rfl, hle⟩, fun i _ _ => rfl⟩
  · rw [realloc_move_eq hR h1 (by omega)] at h
    obtain ⟨flf, hRf, -, -⟩ := myfree_spec hR
    generalize hs1 : myfree s (s.base + span pre + 8) = s1 at *
    have hs1b : s1.base = s.base := by rw [← hs1, myfree_base]
    cases hm : mymalloc P fuel grant s1 (adjust_size n) with
    | none => simp [hm] at h
    | some r =>
      obtain ⟨q2, s2⟩ := r
      simp only [hm] at h
      by_cases hq : q2 = 0
      · simp [hq] at h
      · rw [if_neg hq] at h
        simp only [Option.some.injEq, Prod.mk.injEq] at h
        obtain ⟨rfl, rfl⟩ := h
        have hm' := mymalloc_mono hm (flf.length + 2)
        obtain ⟨q3, s3, e3, -, bs', fl', hR', hb', hq3, -⟩ :=
          @mymalloc_ok _ (fuel + (flf.length + 2)) _ _ _ hP hRf (by simp; omega) grant
            (adjust_size n)
        rw [e3] at hm'
        simp only [Option.some.injEq, Prod.mk.injEq] at hm'
        obtain ⟨rfl, rfl⟩ := hm'
        obtain ⟨hn1, hn2, pre', c, post', rfl, rfl, hc⟩ := hq3 hq
        rw [adjust_size_idem n h1 h2 hn2] at hc
        rw [hs1b] at hb'
        refine ⟨hq, hb', ⟨_, fl', pre', c, post', ?_, rfl, by rw [hs1b], hc⟩, ?_⟩
        · apply Rep_payload hR'
          intro x hx
          rw [hb'] at hx
          unfold memcpy_in
          rw [hs1b, if_neg]
          intro hx'
          apply hx
          omega
        · intro i hi1 hi2
          show memcpy_in s3.mem _ _ _ _ = _
          unfold memcpy_in memcpy_out
          rw [if_pos (by omega)]
          congr 1
          omega



/-! ### The invariant holds in every reachable state -/

theorem mymalloc_inv {P fuel : Nat} {grant : Bool} {s : State} {n q : Nat} {s' : State}
    (hP : PageOK P) (hI : Inv s) (h : mymalloc P fuel grant s n = some (q, s')) : Inv s' := by
  obtain ⟨bs, fl, hR⟩ := hI
  have h' := mymalloc_mono h (fl.length + 1)
  obtain ⟨q2, s2, e, -, bs', fl', hR', -⟩ :=
    @mymalloc_ok _ (fuel + (fl.length + 1)) _ _ _ hP hR (by omega) grant n
  rw [e] at h'
  simp only [Option.some.injEq, Prod.mk.injEq] at h'
  obtain ⟨-, rfl⟩ := h'
  exact ⟨bs', fl', hR'⟩

theorem myfree_inv {s : State} {p : Nat} (hI : Inv s) (hp : p = 0 ∨ Allocated s p) :
    Inv (myfree s p) := by
  obtain ⟨bs, fl, hR⟩ := hI
  rcases hp with rfl | hp
  · rw [myfree_null]; exact ⟨bs, fl, hR⟩
  · obtain ⟨pre, sz, post, rfl, rfl⟩ := (Allocated_iff hR p).1 hp
    obtain ⟨fl', hR', -⟩ := myfree_spec hR
    exact ⟨_, _, hR'⟩

theorem myrealloc_inv {P fuel : Nat} {grant : Bool} {s : State} {p n q : Nat} {s' : State}
    (hP : PageOK P) (hI : Inv s) (hp : p = 0 ∨ Allocated s p) (hn : n ≤ INT_MAX)
    (h : myrealloc P fuel grant s p n = some (q, s')) : Inv s' := by
  by_cases hp0 : p = 0
  · subst hp0
    have : myrealloc P fuel grant s 0 n = mymalloc P fuel grant s n := by
      unfold myrealloc; rw [if_pos rfl]
    rw [this] at h
    exact mymalloc_inv hP hI h
  · have hp' : Allocated s p := hp.resolve_left hp0
    by_cases hn0 : n = 0
    · subst hn0
      have : myrealloc P fuel grant s p 0 = some (0, myfree s p) := by
        unfold myrealloc; rw [if_neg hp0, if_pos rfl]
      rw [this] at h
      simp only [Option.some.injEq, Prod.mk.injEq] at h
      rw [← h.2]
      exact myfree_inv hI (Or.inr hp')
    · obtain ⟨bs, fl, hR⟩ := hI
      obtain ⟨pre, sz, post, rfl, rfl⟩ := (Allocated_iff hR p).1 hp'
      obtain ⟨-, -, ⟨bs', fl', -, -, -, hR', -⟩, -⟩ := myrealloc_ok hP hR (by omega) hn h
      exact ⟨bs', fl', hR'⟩

theorem reachable_inv {P : Nat} (hP : PageOK P) {s : State} (h : Reachable P s) : Inv s := by
  induction h with
  | init s0 start h => exact ⟨_, _, (myinit_spec hP h).1⟩
  | malloc fuel grant n _ h ih => exact mymalloc_inv hP ih h
  | free p _ hp ih => exact myfree_inv ih hp
  | realloc fuel grant p n _ hp hn h ih => exact myrealloc_inv hP ih hp hn h
  | store a v _ ha _ ih =>
    obtain ⟨bs, fl, hR⟩ := ih
    exact ⟨bs, fl, store_spec hR ha v⟩



/-! ## The claims -/

theorem Tiled_of_tags (m : Mem) (e : Nat) (he : e + 8 < WORD) :
    ∀ (bs : List Blk) (a : Nat), bs ≠ [] → Shape bs → Tags m a bs → a + span bs = e + 8 →
      Tiled m e a := by
  intro bs
  induction bs with
  | nil => intro a h; exact absurd rfl h
  | cons b t ih =>
    intro a _ hs ht hsp
    rw [Shape_cons] at hs
    obtain ⟨h1, h2, h3⟩ := ht
    simp only [span_cons] at hsp
    have hb : b.size < WORD := by omega
    have r1 := read_size_tag h1 hs.1.1 hb
    have r2 := read_size_tag h2 hs.1.1 hb
    have r3 := read_alloc_tag h1 hs.1.1
    have r4 := read_alloc_tag h2 hs.1.1
    have hfoot : payload_to_foot m (head_to_payload a) = a + 8 + b.size := by
      simp only [payload_to_foot, head_to_payload, payload_to_head, HFSIZE, Nat.add_sub_cancel,
        r1]
    have hag : TagsAgree m a := by
      unfold TagsAgree
      rw [hfoot, r1, r2, r3, r4]
      exact ⟨rfl, rfl⟩
    cases t with
    | nil =>
      apply Tiled.last hag
      rw [hfoot]
      simp only [span_nil] at hsp
      omega
    | cons c t' =>
      have hc := (Shape_cons.1 hs.2).1
      simp only [span_cons] at hsp
      apply Tiled.cons hag
      · rw [hfoot]; omega
      · rw [hfoot]
        have e1 : a + 8 + b.size + HFSIZE = a + 16 + b.size := by unfold HFSIZE; omega
        rw [e1]
        exact ih _ (by simp) hs.2 h3 (by simp only [span_cons]; omega)

theorem NextChain_of_links (m : Mem) :
    ∀ (l : List Nat) (p : Nat), Links m p l 0 → NextChain m (firstD l 0) l := by
  intro l
  induction l with
  | nil => intro p _; rfl
  | cons x t ih =>
    intro p h
    obtain ⟨h0, -, h2, h3⟩ := h
    refine ⟨rfl, h0, ?_⟩
    have := ih x h3
    simp only [head_to_next, head_to_payload, HFSIZE, PTRSIZE]
    have e : x + 8 + 8 = x + 16 := by omega
    rw [e, h2]
    exact this

theorem free_iff_block {s : State} {bs : List Blk} {fl : List Nat} (hR : Rep s bs fl) (h : Nat) :
    h ∈ freeHeads s.base bs ↔ IsBlock s h ∧ read_alloc s.mem h = 0 := by
  constructor
  · intro hh
    obtain ⟨pre, f, post, rfl, rfl⟩ := freeHeads_decomp hh
    refine ⟨IsBlock_of_decomp hR.mid pre _ post rfl, ?_⟩
    rw [(hR.mid.read (u := pre) (v := post)).2.1]
    rfl
  · rintro ⟨hb, ha⟩
    obtain ⟨pre, b, post, rfl, rfl⟩ := heads_decomp ((IsBlock_heads hR.mid hR.ne).1 hb)
    rw [(hR.mid.read (u := pre) (v := post)).2.1] at ha
    rw [freeHeads_append]
    cases hu : b.used
    · simp [freeHeads, hu]
    · simp [hu] at ha

theorem pageOK_4096 : PageOK 4096 := ⟨12, by decide, by decide, by norm_num⟩

theorem demo_init_reachable : Reachable 4096 demo_init :=
  Reachable.init blank 4096 (by decide)

theorem demo_a_reachable : Reachable 4096 demo_a.2 :=
  Reachable.malloc 4 true 24 demo_init_reachable (q := demo_a.1) rfl

theorem demo_b_reachable : Reachable 4096 demo_b.2 :=
  Reachable.malloc 4 true 24 demo_a_reachable (q := demo_b.1) rfl

theorem demo_hole_reachable : Reachable 4096 demo_hole :=
  Reachable.free demo_a.1 demo_b_reachable
    (Or.inr ⟨4096, IsBlock.first, by decide, by decide⟩)

/-- Claim C1. Tiling invariant: in every reachable state, walking from `base` every block has
the same size and alloc flag in its head and in its foot at `head + word + size`, the next
head starts right after that foot, and the walk ends with a foot exactly at `end`. -/
theorem tiling_invariant (PAGE_SIZE : Nat) (s : State) (hP : PageOK PAGE_SIZE)
    (h : Reachable PAGE_SIZE s) : Tiled s.mem s.end_ s.base := by
  obtain ⟨bs, fl, hR⟩ := reachable_inv hP h
  exact Tiled_of_tags s.mem s.end_ hR.mid.geo.bound bs s.base hR.ne hR.mid.shape hR.mid.tags
    hR.mid.span_eq

/-- Witness of `tiling_invariant`: the heap with a hole is tiled. -/
theorem tiling_invariant_witness : Tiled demo_hole.mem demo_hole.end_ demo_hole.base :=
  tiling_invariant 4096 demo_hole pageOK_4096 demo_hole_reachable

/-- Claim C2. Free-list invariant: in every reachable state, the `next` links from
`free_list_head` run through a finite duplicate-free sequence of nodes and end at null, the
first node has a null `prev` link, and the nodes are exactly the blocks of the heap whose
alloc flag is 0. -/
theorem free_list_invariant (PAGE_SIZE : Nat) (s : State) (hP : PageOK PAGE_SIZE)
    (h : Reachable PAGE_SIZE s) :
    ∃ fl : List Nat, NextChain s.mem s.free_list_head fl ∧ fl.Nodup ∧
      (s.free_list_head ≠ 0 → s.mem (head_to_prev s.free_list_head) = 0) ∧
      ∀ h, h ∈ fl ↔ (IsBlock s h ∧ read_alloc s.mem h = 0) := by
  obtain ⟨bs, fl, hR⟩ := reachable_inv hP h
  refine ⟨fl, ?_, ?_, ?_, ?_⟩
  · rw [hR.mid.head]
    exact NextChain_of_links s.mem fl 0 hR.mid.links
  · exact hR.mid.far.imp (fun h => Far_ne h)
  · intro hne
    have hl := hR.mid.links
    have hh := hR.mid.head
    cases fl with
    | nil => exact absurd hh hne
    | cons x t =>
      rw [hh]
      exact hl.2.1
  · intro y
    rw [hR.mem_iff]
    exact free_iff_block hR y

/-- Witness of `free_list_invariant`, in the heap with a hole. -/
theorem free_list_invariant_witness :
    ∃ fl : List Nat, NextChain demo_hole.mem demo_hole.free_list_head fl ∧ fl.Nodup ∧
      (demo_hole.free_list_head ≠ 0 →
        demo_hole.mem (head_to_prev demo_hole.free_list_head) = 0) ∧
      ∀ h, h ∈ fl ↔ (IsBlock demo_hole h ∧ read_alloc demo_hole.mem h = 0) :=
  free_list_invariant 4096 demo_hole pageOK_4096 demo_hole_reachable

/-- Claim C3. Complete coalescing: in every reachable state a block `b` of the heap and the
block that physically follows it are never both free. -/
theorem coalescing_invariant (PAGE_SIZE : Nat) (s : State) (b : Nat) (hP : PageOK PAGE_SIZE)
    (h : Reachable PAGE_SIZE s) (hb : IsBlock s b)
    (hfoot : payload_to_foot s.mem (head_to_payload b) ≠ s.end_) :
    ¬ (read_alloc s.mem b = 0 ∧
      read_alloc s.mem (payload_to_head (next_block s.mem (head_to_payload b))) = 0) := by
  obtain ⟨bs, fl, hR⟩ := reachable_inv hP h
  obtain ⟨pre, c, post, rfl, rfl⟩ := heads_decomp ((IsBlock_heads hR.mid hR.ne).1 hb)
  have hr := hR.mid.read (u := pre) (b := c) (v := post)
  have hsp := hR.mid.span_eq
  simp only [span_append, span_cons] at hsp
  simp only [payload_to_foot, head_to_payload, payload_to_head, HFSIZE, Nat.add_sub_cancel,
    hr.1, next_block] at hfoot ⊢
  cases post with
  | nil => simp only [span_nil] at hsp; exact absurd (by omega) hfoot
  | cons d post' =>
    have hM2 : Mid s (pre ++ [c] ++ d :: post') fl := by simpa using hR.mid
    have hr2 := hM2.read
    have e : s.base + span pre + 8 + c.size + 2 * 8 - 8 = s.base + span (pre ++ [c]) := by
      simp only [span_append, span_cons, span_nil]; omega
    rw [e, hr.2.1, hr2.2.1]
    have hn := hR.noadj
    rw [NoAdj_split, NoAdj_cons_cons] at hn
    rcases hn.2.1 with hu | hu <;> simp [hu]

/-- Witness of `coalescing_invariant`: the hole at the bottom of the heap is followed by an
allocated block. -/
theorem coalescing_invariant_witness :
    ¬ (read_alloc demo_hole.mem 4096 = 0 ∧
      read_alloc demo_hole.mem (payload_to_head (next_block demo_hole.mem (head_to_payload 4096)))
        = 0) :=
  coalescing_invariant 4096 demo_hole 4096 pageOK_4096 demo_hole_reachable IsBlock.first
    (by decide)


theorem span_mod8 {bs : List Blk} (hs : Shape bs) : span bs % 8 = 0 := by
  induction bs with
  | nil => rfl
  | cons b t ih =>
    rw [Shape_cons] at hs
    have := ih hs.2
    simp only [span_cons]
    omega

theorem byte_at_eq {m m' : Mem} {a b i w : Nat} (ha : a % 8 = 0) (hb : b % 8 = 0)
    (h : ∀ j, j < w → m' (a + j) = m (b + j)) (hw : w % 8 = 0) (hi : i < w) :
    byte_at m' (a + i) = byte_at m (b + i) := by
  unfold byte_at
  have e1 : (a + i) % 8 = i % 8 := by omega
  have e2 : (b + i) % 8 = i % 8 := by omega
  have e3 : a + i - i % 8 = a + (i - i % 8) := by omega
  have e4 : b + i - i % 8 = b + (i - i % 8) := by omega
  rw [e1, e2, e3, e4, h (i - i % 8) (by omega)]

/-- Claim C5. In a reachable state, when `myrealloc(p, m)` on an allocated payload `p` with
`1 ≤ m ≤ INT_MAX` returns a non-null `q`, the first `min(old_size, m)` bytes at `q` after the
call are the bytes that were at `p` before the call, whether the block stays in place or is
moved. -/
theorem realloc_preserves (PAGE_SIZE : Nat) (s : State) (p m fuel : Nat) (grant : Bool)
    (q : Nat) (s' : State) (i : Nat) (hP : PageOK PAGE_SIZE) (hs : Reachable PAGE_SIZE s)
    (hp : Allocated s p) (h1 : 1 ≤ m) (h2 : m ≤ INT_MAX)
    (hcall : myrealloc PAGE_SIZE fuel grant s p m = some (q, s')) (hq : q ≠ 0)
    (hi : i < min (read_size s.mem (payload_to_head p)) m) :
    byte_at s'.mem (q + i) = byte_at s.mem (p + i) := by
  obtain ⟨bs, fl, hR⟩ := reachable_inv hP hs
  obtain ⟨pre, sz, post, rfl, rfl⟩ := (Allocated_iff hR p).1 hp
  obtain ⟨-, hb, ⟨bs', fl', pre', c, post', hR', rfl, rfl, hc⟩, hbytes⟩ :=
    myrealloc_ok hP hR h1 h2 hcall
  obtain ⟨a8, a16, ale, -⟩ := adjust_size_facts m h1 h2
  have hr1 : read_size s.mem (s.base + span pre) = sz :=
    (hR.mid.read (u := pre) (v := post)).1
  simp only [payload_to_head, HFSIZE, Nat.add_sub_cancel, hr1] at hi
  have hsh := hR.mid.shape
  rw [Shape_append, Shape_cons] at hsh
  have hsz8 : sz % 8 = 0 := hsh.2.1.1
  have hsh' := hR'.mid.shape
  rw [Shape_append] at hsh'
  have m1 := span_mod8 hsh.1
  have m2 := span_mod8 hsh'.1
  have m3 := hR.mid.geo.base_al
  have hmin : i < sz ∧ i < m := by
    rw [Nat.lt_min] at hi; exact hi
  apply byte_at_eq (w := min sz (adjust_size m)) (by omega) (by omega)
  · intro j hj
    rw [Nat.lt_min] at hj
    exact hbytes j hj.1 hj.2
  · rcases Nat.le_total sz (adjust_size m) with h | h
    · rw [Nat.min_eq_left h]; exact hsz8
    · rw [Nat.min_eq_right h]; exact a8
  · rw [Nat.lt_min]; omega


/-- Witness of `realloc_preserves`: byte 3 of a pattern survives `myrealloc(a, 64)`, which
moves the block onto itself. -/
theorem realloc_preserves_witness :
    byte_at demo_re.2.mem (demo_re.1 + 3) = byte_at demo_pat.mem (demo_a.1 + 3) :=
  realloc_preserves 4096 demo_pat demo_a.1 64 4 true demo_re.1 demo_re.2 3 pageOK_4096
    (Reachable.store 4104 578437695752307201 demo_a_reachable
      ⟨4096, IsBlock.first, by decide, by decide, by decide, by decide⟩ (by decide))
    ⟨4096, IsBlock.first, by decide, by decide⟩ (by decide) (by decide) rfl (by decide)
    (by decide)


theorem refused_iff {P : Nat} {s : State} {bs : List Blk} {fl : List Nat} (hR : Rep s bs fl)
    (size : Nat) : requested_pages P s size = growPages P bs size := by
  unfold requested_pages growPages
  rw [hR.tail_read.1]

/-- Claim C6. In a reachable state `mymalloc(n)` returns (given enough fuel for the scan of the
free list), and it returns null exactly when `n = 0`, or `n > INT_MAX`, or no free block
fits the adjusted size and the provider refuses the extension; whenever it returns null the
whole state is the state before the call. -/
theorem alloc_null_iff (PAGE_SIZE : Nat) (s : State) (n : Nat) (grant : Bool)
    (hP : PageOK PAGE_SIZE) (hs : Reachable PAGE_SIZE s) :
    ∃ N, ∀ fuel, N ≤ fuel → ∃ q s', mymalloc PAGE_SIZE fuel grant s n = some (q, s') ∧
      (q = 0 ↔ (n = 0 ∨ n > INT_MAX ∨
        ((∀ h, IsBlock s h → read_alloc s.mem h = 0 → read_size s.mem h < adjust_size n) ∧
          (extend_heap_segment PAGE_SIZE grant s.seg
            (requested_pages PAGE_SIZE s (adjust_size n))).1 = 0))) ∧
      (q = 0 → s' = s) := by
  obtain ⟨bs, fl, hR⟩ := reachable_inv hP hs
  refine ⟨fl.length + 1, fun fuel hf => ?_⟩
  rw [refused_iff hR]
  have hfree : ∀ pre f post, bs = pre ++ ⟨f, false⟩ :: post →
      IsBlock s (s.base + span pre) ∧ read_alloc s.mem (s.base + span pre) = 0 ∧
      read_size s.mem (s.base + span pre) = f := by
    rintro pre f post rfl
    have hr := hR.mid.read (u := pre) (v := post)
    exact ⟨IsBlock_of_decomp hR.mid pre _ post rfl, hr.2.1, hr.1⟩
  rcases @mymalloc_cases _ fuel _ _ _ hP hR (by omega) grant n with ⟨hn, e⟩ |
    ⟨h1, h2, pre, f, post, fl', hbs, hle, e, -, -⟩ | ⟨h1, h2, hfit, hg, e⟩ |
    ⟨h1, h2, hfit, hg, s', fl', e, -, -, -, -, -, -⟩
  · refine ⟨0, s, e, ?_, fun _ => rfl⟩
    constructor
    · intro _
      rcases hn with hn | hn
      · exact Or.inl hn
      · exact Or.inr (Or.inl hn)
    · intro _; rfl
  · refine ⟨_, _, e, ?_, fun h => by omega⟩
    constructor
    · intro h; omega
    · rintro (h | h | ⟨h, -⟩)
      · omega
      · omega
      · obtain ⟨hb, ha, hsz⟩ := hfree pre f post hbs
        have := h _ hb ha
        omega
  · refine ⟨0, s, e, ?_, fun _ => rfl⟩
    constructor
    · intro _
      right; right
      refine ⟨?_, hg⟩
      intro h hb ha
      obtain ⟨pre, b, post, rfl, rfl⟩ := heads_decomp ((IsBlock_heads hR.mid hR.ne).1 hb)
      have hr := hR.mid.read (u := pre) (b := b) (v := post)
      rw [hr.2.1] at ha
      rw [hr.1]
      apply hfit b (by simp)
      cases hu : b.used
      · rfl
      · simp [hu] at ha
    · intro _; rfl
  · have hne : coalesceHead s.base bs + 8 ≠ 0 := by omega
    refine ⟨_, s', e, ?_, fun h => absurd h hne⟩
    constructor
    · intro h; exact absurd h hne
    · rintro (h | h | ⟨-, h⟩)
      · omega
      · omega
      · exact absurd h hg

/-- Witness of `alloc_null_iff`: `mymalloc(8000)` right after `myinit`, the provider
refusing every extension. -/
theorem alloc_null_iff_witness :
    ∃ N, ∀ fuel, N ≤ fuel → ∃ q s', mymalloc 4096 fuel false demo_init 8000 = some (q, s') ∧
      (q = 0 ↔ (8000 = 0 ∨ 8000 > INT_MAX ∨
        ((∀ h, IsBlock demo_init h → read_alloc demo_init.mem h = 0 →
            read_size demo_init.mem h < adjust_size 8000) ∧
          (extend_heap_segment 4096 false demo_init.seg
            (requested_pages 4096 demo_init (adjust_size 8000))).1 = 0))) ∧
      (q = 0 → s' = demo_init) :=
  alloc_null_iff 4096 demo_init 8000 false pageOK_4096 demo_init_reachable



/-- Claim C7. At the failing input (`a = mymalloc(24)` after `myinit`, then `myrealloc(a, 8000)`
while the provider refuses to extend the segment) the call does not return: the block at
`a`, allocated before the call, has been freed by `myfree`, `mymalloc` then returns null,
and `memcpy` is handed that null pointer.  The same happens for a size above `INT_MAX`,
which `mymalloc` rejects, even when the provider would grant pages. -/
theorem realloc_refused_demo :
    (myrealloc 4096 4 false demo_a.2 demo_a.1 8000).isNone = true ∧
    (mymalloc 4096 4 false (myfree demo_a.2 demo_a.1) (adjust_size 8000)).map Prod.fst
      = some 0 ∧
    read_alloc demo_a.2.mem (payload_to_head demo_a.1) = 1 ∧
    read_alloc (myfree demo_a.2 demo_a.1).mem (payload_to_head demo_a.1) = 0 ∧
    (myrealloc 4096 4 true demo_a.2 demo_a.1 2147483648).isNone = true ∧
    (mymalloc 4096 4 true (myfree demo_a.2 demo_a.1) (adjust_size 2147483648)).map Prod.fst
      = some 0 := by
  decide

theorem FreeBlock_iff {s : State} {bs : List Blk} {fl : List Nat} (hR : Rep s bs fl)
    (h sz : Nat) :
    FreeBlock s h sz ↔ ∃ u v, bs = u ++ ⟨sz, false⟩ :: v ∧ h = s.base + span u := by
  constructor
  · rintro ⟨hb, ha, hsz⟩
    obtain ⟨u, b, v, rfl, rfl⟩ := heads_decomp ((IsBlock_heads hR.mid hR.ne).1 hb)
    have hr := hR.mid.read
    rw [hr.2.1] at ha
    rw [hr.1] at hsz
    cases b with
    | mk size used =>
      cases used
      · exact ⟨u, v, by rw [← hsz], rfl⟩
      · simp at ha
  · rintro ⟨u, v, rfl, rfl⟩
    have hr := hR.mid.read
    exact ⟨IsBlock_of_decomp hR.mid u _ v rfl, hr.2.1, hr.1⟩

theorem free_neighbours {u v : List Blk} {f : Nat} (h : NoAdj (u ++ ⟨f, false⟩ :: v)) :
    prevFree u = none ∧ nextFree v = none := by
  rw [NoAdj_split] at h
  constructor
  · rcases List.eq_nil_or_concat u with rfl | ⟨u', c, rfl⟩
    · rfl
    · rw [List.concat_eq_append, NoAdj_snoc_snoc] at h
      have hc : c.used = true := by simpa using h.1.2
      cases c with
      | mk sz used =>
        subst hc
        rw [List.concat_eq_append]
        exact prevFree_snoc_used _ _
  · cases v with
    | nil => rfl
    | cons d t =>
      rw [NoAdj_cons_cons] at h
      have hd : d.used = true := by simpa using h.2.1
      simp [nextFree, hd]

/-- Counterexample to claim C8 as stated: `mymalloc(8000)` right after `myinit` grows the heap
by a page, and after `myfree` the free block at the bottom of the heap is not the free block
of 4080 bytes that was there before the call. -/
theorem alloc_free_roundtrip_counterexample :
    ¬ (∀ q s1, mymalloc 4096 4 true demo_init 8000 = some (q, s1) → q ≠ 0 →
      ∀ h sz, FreeBlock (myfree s1 q) h sz ↔ FreeBlock demo_init h sz) := by
  intro H
  have h1 := H demo_big.1 demo_big.2 rfl (by decide) 4096 4080
  have h2 : FreeBlock demo_init 4096 4080 := ⟨IsBlock.first, by decide, by decide⟩
  have h3 := (h1.2 h2).2.2
  revert h3
  decide

/-- Claim C8, amended. Alloc/free round trip: in a reachable state, when `mymalloc(n)` is
served by an existing free block (some free block is at least the adjusted size, so the
heap does not grow) and returns a non-null `q`, then after `myfree(q)` the free blocks,
taken as the address ranges they cover, are the free blocks of the state before the
`mymalloc`. -/
theorem alloc_free_roundtrip (PAGE_SIZE : Nat) (s : State) (n fuel : Nat) (grant : Bool)
    (q : Nat) (s1 : State) (h sz : Nat) (hP : PageOK PAGE_SIZE) (hs : Reachable PAGE_SIZE s)
    (hfit : ∃ b, IsBlock s b ∧ read_alloc s.mem b = 0 ∧ adjust_size n ≤ read_size s.mem b)
    (hcall : mymalloc PAGE_SIZE fuel grant s n = some (q, s1)) (hq : q ≠ 0) :
    FreeBlock (myfree s1 q) h sz ↔ FreeBlock s h sz := by
  obtain ⟨bs, fl, hR⟩ := reachable_inv hP hs
  have hnofit : ¬ (∀ b ∈ bs, b.used = false → b.size < adjust_size n) := by
    intro hall
    obtain ⟨b, hb, ha, hsz⟩ := hfit
    obtain ⟨u, v, rfl, rfl⟩ := (FreeBlock_iff hR b _).1 ⟨hb, ha, rfl⟩
    have := hall ⟨read_size s.mem (s.base + span u), false⟩ (by simp) rfl
    exact absurd hsz (by simpa using this)
  have hcall' := mymalloc_mono hcall (fl.length + 1)
  rcases @mymalloc_cases _ (fuel + (fl.length + 1)) _ _ _ hP hR (by omega) grant n with
    ⟨-, e⟩ | ⟨h1, h2, u, f, v, fl', rfl, hle, e, hR1, -⟩ | ⟨-, -, hno, -, -⟩ |
    ⟨-, -, hno, -, -⟩
  · rw [e] at hcall'
    simp only [Option.some.injEq, Prod.mk.injEq] at hcall'
    exact absurd hcall'.1.symm hq
  · rw [e] at hcall'
    simp only [Option.some.injEq, Prod.mk.injEq] at hcall'
    obtain ⟨rfl, rfl⟩ := hcall'
    obtain ⟨hp, hn⟩ := free_neighbours hR.noadj
    obtain ⟨a8, a16, -, -⟩ := adjust_size_facts n h1 h2
    have hb1 : (allocate s (s.base + span u + 8) (adjust_size n)).base = s.base :=
      allocate_base _ _ _
    have key : ∃ fl2, Rep (myfree (allocate s (s.base + span u + 8) (adjust_size n))
        (s.base + span u + 8)) (u ++ ⟨f, false⟩ :: v) fl2 := by
      by_cases hc : adjust_size n + 32 ≤ f
      · have hR1' : Rep (allocate s (s.base + span u + 8) (adjust_size n))
            (u ++ ⟨adjust_size n, true⟩ :: (⟨f - adjust_size n - 16, false⟩ :: v)) fl' := by
          simpa [carve, hc] using hR1
        obtain ⟨fl2, hR2, -⟩ := myfree_spec hR1'
        rw [hb1] at hR2
        have e2 : coalesce u (adjust_size n) (⟨f - adjust_size n - 16, false⟩ :: v)
            = u ++ ⟨f, false⟩ :: v := by
          have : adjust_size n + (f - adjust_size n - 16 + 16) = f := by omega
          simp [coalesce, hp, nextFree, this]
        rw [e2] at hR2
        exact ⟨_, hR2⟩
      · have hR1' : Rep (allocate s (s.base + span u + 8) (adjust_size n))
            (u ++ ⟨f, true⟩ :: v) fl' := by
          simpa [carve, hc] using hR1
        obtain ⟨fl2, hR2, -⟩ := myfree_spec hR1'
        rw [hb1] at hR2
        have e2 : coalesce u f v = u ++ ⟨f, false⟩ :: v := by
          simp [coalesce, hp, hn]
        rw [e2] at hR2
        exact ⟨_, hR2⟩
    obtain ⟨fl2, hR2⟩ := key
    rw [FreeBlock_iff hR2, FreeBlock_iff hR, myfree_base, hb1]
  · exact absurd hno hnofit
  · exact absurd hno hnofit

/-- Witness of `alloc_free_roundtrip`: `a = mymalloc(24)` right after `myinit`, then
`myfree(a)`: the free block of 4080 bytes at the bottom of the heap is back. -/
theorem alloc_free_roundtrip_witness :
    FreeBlock (myfree demo_a.2 demo_a.1) 4096 4080 ↔ FreeBlock demo_init 4096 4080 :=
  alloc_free_roundtrip 4096 demo_init 24 4 true demo_a.1 demo_a.2 4096 4080 pageOK_4096
    demo_init_reachable ⟨4096, IsBlock.first, by decide, by decide⟩ rfl (by decide)



theorem eq_singleton_of_nodup {l : List Nat} {a : Nat} (hn : l.Nodup)
    (hm : ∀ x, x ∈ l ↔ x = a) : l = [a] := by
  cases l with
  | nil => exact absurd ((hm a).2 rfl) (by simp)
  | cons x t =>
    have hx : x = a := (hm x).1 (by simp)
    subst hx
    cases t with
    | nil => rfl
    | cons y t' =>
      have hy : y = x := (hm y).1 (by simp)
      subst hy
      simp at hn

/-- Claim C9. Full coalescence: in a reachable state in which no block of the heap is
allocated, the free list holds exactly one node, the block whose head is at `base`; its foot
is at `end` and its size is the size of the heap segment minus `2*HFSIZE`. -/
theorem full_coalescence (PAGE_SIZE : Nat) (s : State) (hP : PageOK PAGE_SIZE)
    (hs : Reachable PAGE_SIZE s) (hall : ∀ h, IsBlock s h → read_alloc s.mem h = 0) :
    NextChain s.mem s.free_list_head [s.base] ∧
    payload_to_foot s.mem (head_to_payload s.base) = s.end_ ∧
    read_size s.mem s.base = heap_segment_size s.seg - 2 * HFSIZE := by
  obtain ⟨bs, fl, hR⟩ := reachable_inv hP hs
  have hfree : ∀ u b v, bs = u ++ b :: v → b.used = false := by
    rintro u b v rfl
    have := hall _ (IsBlock_of_decomp hR.mid u b v rfl)
    rw [hR.mid.read.2.1] at this
    cases hu : b.used
    · rfl
    · simp [hu] at this
  obtain ⟨b, rfl⟩ : ∃ b, bs = [b] := by
    cases bs with
    | nil => exact absurd rfl hR.ne
    | cons b t =>
      cases t with
      | nil => exact ⟨b, rfl⟩
      | cons c t' =>
        have h1 := hfree [] b (c :: t') rfl
        have h2 := hfree [b] c t' rfl
        have hn := hR.noadj
        rw [NoAdj_cons_cons] at hn
        rcases hn.1 with h | h
        · rw [h1] at h; exact absurd h (by simp)
        · rw [h2] at h; exact absurd h (by simp)
  have hb := hfree [] b [] rfl
  have hfl : fl = [s.base] := by
    apply eq_singleton_of_nodup (hR.mid.far.imp (fun h => Far_ne h))
    intro x
    rw [hR.mem_iff]
    simp [freeHeads, hb]
  have hM : Mid s ([] ++ b :: []) fl := hR.mid
  have hr := hM.read
  simp only [span_nil, Nat.add_zero] at hr
  have hsp := hR.mid.span_eq
  simp only [span_cons, span_nil] at hsp
  have hg := hR.mid.geo
  refine ⟨?_, ?_, ?_⟩
  · have := NextChain_of_links s.mem fl 0 hR.mid.links
    rw [← hR.mid.head, hfl] at this
    exact this
  · simp only [payload_to_foot, head_to_payload, payload_to_head, HFSIZE, Nat.add_sub_cancel,
      hr.1]
    omega
  · rw [hr.1]
    have := hg.seg_size
    unfold heap_segment_size HFSIZE
    omega

theorem demo_empty_reachable : Reachable 4096 demo_empty :=
  Reachable.free demo_b.1 demo_hole_reachable
    (Or.inr ⟨4136, IsBlock.next IsBlock.first (by decide), by decide, by decide⟩)

theorem demo_empty_blocks : ∀ h, IsBlock demo_empty h → h = 4096 := by
  intro h hb
  induction hb with
  | first => decide
  | next _ hfoot ih =>
    subst ih
    revert hfoot
    decide

/-- Witness of `full_coalescence`: after `a = mymalloc(24)`, `b = mymalloc(24)`,
`myfree(a)`, `myfree(b)` the heap is one free block again. -/
theorem full_coalescence_witness :
    NextChain demo_empty.mem demo_empty.free_list_head [demo_empty.base] ∧
    payload_to_foot demo_empty.mem (head_to_payload demo_empty.base) = demo_empty.end_ ∧
    read_size demo_empty.mem demo_empty.base = heap_segment_size demo_empty.seg - 2 * HFSIZE :=
  full_coalescence 4096 demo_empty pageOK_4096 demo_empty_reachable
    (fun h hb => by rw [demo_empty_blocks h hb]; decide)

theorem validate_loop_spec (m : Mem) :
    ∀ (l : List Nat) (p fuel : Nat), Links m p l 0 →
      (∀ h ∈ l, read_size m h = read_size m (payload_to_foot m (head_to_payload h)) ∧
        read_alloc m h = 0 ∧ read_alloc m (payload_to_foot m (head_to_payload h)) = 0) →
      l.length < fuel → validate_loop m fuel (firstD l 0) = some true := by
  intro l
  induction l with
  | nil =>
    intro p fuel _ _ hf
    cases fuel with
    | zero => simp at hf
    | succ k => simp [validate_loop]
  | cons x t ih =>
    intro p fuel hl hn hf
    cases fuel with
    | zero => simp at hf
    | succ k =>
      obtain ⟨h0, -, h2, h3⟩ := hl
      obtain ⟨n1, n2, n3⟩ := hn x (by simp)
      have hk : t.length < k := by simp at hf; omega
      have := ih x k h3 (fun h hh => hn h (List.mem_cons_of_mem _ hh)) hk
      simp only [firstD_cons, validate_loop, h0, if_false, ← n1, n2, n3, ne_eq, not_true_eq_false,
        or_self]
      simp only [head_to_next, head_to_payload, HFSIZE, PTRSIZE]
      have e : x + 8 + 8 = x + 16 := by omega
      rw [e, h2]
      exact this

/-- Claim C10. In every reachable state `validate_heap` returns true (given enough fuel for
its walk of the free list): `base` is the segment start, `end` is
`base + segment_size - HFSIZE`, the head of the free list has a null `prev` link, and every
node of the list has equal head and foot sizes and both alloc flags 0.  `myfree(null)`
changes nothing, so it keeps that. -/
theorem validate_ok (PAGE_SIZE : Nat) (s : State) (hP : PageOK PAGE_SIZE)
    (hs : Reachable PAGE_SIZE s) :
    (∃ N, ∀ fuel, N ≤ fuel → validate_heap fuel s = some true) ∧ myfree s 0 = s := by
  obtain ⟨bs, fl, hR⟩ := reachable_inv hP hs
  refine ⟨⟨fl.length + 1, fun fuel hf => ?_⟩, myfree_null s⟩
  have hg := hR.mid.geo
  unfold validate_heap heap_segment_start heap_segment_size
  rw [if_neg (by rw [hg.seg_start]; simp), if_neg (by
    have := hg.seg_size
    unfold HFSIZE
    simp only [ne_eq, not_not]
    omega)]
  have hhd : ¬ (s.free_list_head ≠ 0 ∧ s.mem (head_to_prev s.free_list_head) ≠ 0) := by
    rintro ⟨h1, h2⟩
    have hl := hR.mid.links
    have hh := hR.mid.head
    cases fl with
    | nil => exact h1 hh
    | cons x t =>
      rw [hh] at h2
      exact h2 hl.2.1
  rw [if_neg hhd, hR.mid.head]
  apply validate_loop_spec s.mem fl 0 fuel hR.mid.links _ (by omega)
  intro h hh
  obtain ⟨u, f, v, rfl, rfl⟩ := freeHeads_decomp ((hR.mem_iff h).1 hh)
  have hr := hR.mid.read
  have hr1 : read_size s.mem (s.base + span u) = f := hr.1
  have hr3 : read_size s.mem (s.base + span u + 8 + f) = f := hr.2.2.1
  have hr4 : read_alloc s.mem (s.base + span u + 8 + f) = 0 := hr.2.2.2
  simp only [payload_to_foot, head_to_payload, payload_to_head, HFSIZE, Nat.add_sub_cancel,
    hr1, hr3, hr4]
  exact ⟨trivial, hr.2.1, trivial⟩

/-- Witness of `validate_ok`, in the heap with a hole. -/
theorem validate_ok_witness :
    (∃ N, ∀ fuel, N ≤ fuel → validate_heap fuel demo_hole = some true) ∧
      myfree demo_hole 0 = demo_hole :=
  validate_ok 4096 demo_hole pageOK_4096 demo_hole_reachable

/-! ## In-place reallocation and the degenerate calls of `myrealloc` -/

theorem adjust_size_fix {z : Nat} (h8 : z % 8 = 0) (h16 : 16 ≤ z) (hb : z + 8 ≤ WORD) :
    adjust_size z = z := by
  unfold adjust_size PTRSIZE ALIGNMENT
  split_ifs with h
  · omega
  · rw [roundup_8 z hb]; omega

theorem Allocated_ne_zero {s : State} {p : Nat} (hp : Allocated s p) : p ≠ 0 := by
  obtain ⟨h, -, rfl, -⟩ := hp
  unfold head_to_payload HFSIZE
  omega

/-- Claim C11. In a reachable state, for an allocated payload `p` of tagged size `z`,
`myrealloc(p, z)` returns `p` and leaves the whole state as it was; and for every `n ≥ 1`
whose adjusted size is at most `z`, `myrealloc(p, n)` returns `p`. -/
theorem realloc_identity (PAGE_SIZE : Nat) (s : State) (p n fuel : Nat) (grant : Bool)
    (hP : PageOK PAGE_SIZE) (hs : Reachable PAGE_SIZE s) (hp : Allocated s p)
    (h1 : 1 ≤ n) (hle : adjust_size n ≤ read_size s.mem (payload_to_head p)) :
    myrealloc PAGE_SIZE fuel grant s p (read_size s.mem (payload_to_head p)) = some (p, s) ∧
    ∃ s', myrealloc PAGE_SIZE fuel grant s p n = some (p, s') := by
  obtain ⟨bs, fl, hR⟩ := reachable_inv hP hs
  have hp0 := Allocated_ne_zero hp
  obtain ⟨pre, z, post, rfl, rfl⟩ := (Allocated_iff hR p).1 hp
  have hr := hR.mid.read (u := pre) (v := post)
  have hz : read_size s.mem (s.base + span pre) = z := hr.1
  have hsh : z % 8 = 0 ∧ 16 ≤ z := hR.mid.shape ⟨z, true⟩ (by simp)
  have hsp := hR.mid.span_eq
  simp only [span_append, span_cons] at hsp
  have hb := hR.mid.geo.bound
  have hfix : adjust_size z = z := adjust_size_fix hsh.1 hsh.2 (by omega)
  simp only [payload_to_head, HFSIZE, Nat.add_sub_cancel, hz] at hle ⊢
  constructor
  · exact realloc_same hR (by omega) (by rw [hfix]) (by rw [hfix]; omega)
  · unfold myrealloc
    rw [if_neg hp0, if_neg (by omega)]
    simp only [payload_to_head, HFSIZE, Nat.add_sub_cancel, hz, hle, if_true]
    split_ifs
    · exact ⟨_, rfl⟩
    · exact ⟨_, rfl⟩

theorem demo_a_allocated : Allocated demo_a.2 demo_a.1 :=
  ⟨4096, IsBlock.first, by decide, by decide⟩

/-- Witness of `realloc_identity`: the block of 24 bytes, asked for 24 and for 17 bytes. -/
theorem realloc_identity_witness :
    myrealloc 4096 4 true demo_a.2 demo_a.1 (read_size demo_a.2.mem (payload_to_head demo_a.1))
      = some (demo_a.1, demo_a.2) ∧
    ∃ s', myrealloc 4096 4 true demo_a.2 demo_a.1 17 = some (demo_a.1, s') :=
  realloc_identity 4096 demo_a.2 demo_a.1 17 4 true pageOK_4096 demo_a_reachable
    demo_a_allocated (by decide) (by decide)

/-- Claim C12. In every state and for every `n`, `myrealloc(null, n)` is `mymalloc(n)`: same
result, same final state; and for every allocated payload `p` of that state,
`myrealloc(p, 0)` returns null and its final state is that of `myfree(p)`. -/
theorem realloc_degenerate (PAGE_SIZE : Nat) (s : State) (n fuel : Nat) (grant : Bool) :
    myrealloc PAGE_SIZE fuel grant s 0 n = mymalloc PAGE_SIZE fuel grant s n ∧
    ∀ p, Allocated s p → myrealloc PAGE_SIZE fuel grant s p 0 = some (0, myfree s p) := by
  constructor
  · unfold myrealloc; simp
  · intro p hp
    have hp0 := Allocated_ne_zero hp
    unfold myrealloc; simp [hp0]

/-- Witness of `realloc_degenerate`: the first half on the heap right after `myinit`, where
nothing is allocated, the second half at the block of 24 bytes. -/
theorem realloc_degenerate_witness :
    myrealloc 4096 4 true demo_init 0 100 = mymalloc 4096 4 true demo_init 100 ∧
    myrealloc 4096 4 true demo_a.2 demo_a.1 0 = some (0, myfree demo_a.2 demo_a.1) :=
  ⟨(realloc_degenerate 4096 demo_init 100 4 true).1,
    (realloc_degenerate 4096 demo_a.2 100 4 true).2 demo_a.1 demo_a_allocated⟩

/-! ## The growth scenario -/

theorem validate_heap_rep {s : State} {bs : List Blk} {fl : List Nat} (hR : Rep s bs fl)
    (fuel : Nat) (hf : fl.length < fuel) : validate_heap fuel s = some true := by
  have hg := hR.mid.geo
  unfold validate_heap heap_segment_start heap_segment_size
  rw [if_neg (by rw [hg.seg_start]; simp), if_neg (by
    have := hg.seg_size
    unfold HFSIZE
    simp only [ne_eq, not_not]
    omega)]
  have hhd : ¬ (s.free_list_head ≠ 0 ∧ s.mem (head_to_prev s.free_list_head) ≠ 0) := by
    rintro ⟨h1, h2⟩
    have hl := hR.mid.links
    have hh := hR.mid.head
    cases fl with
    | nil => exact h1 hh
    | cons x t =>
      rw [hh] at h2
      exact h2 hl.2.1
  rw [if_neg hhd, hR.mid.head]
  apply validate_loop_spec s.mem fl 0 fuel hR.mid.links _ hf
  intro h hh
  obtain ⟨u, f, v, rfl, rfl⟩ := freeHeads_decomp ((hR.mem_iff h).1 hh)
  have hr := hR.mid.read
  have hr1 : read_size s.mem (s.base + span u) = f := hr.1
  have hr3 : read_size s.mem (s.base + span u + 8 + f) = f := hr.2.2.1
  have hr4 : read_alloc s.mem (s.base + span u + 8 + f) = 0 := hr.2.2.2
  simp only [payload_to_foot, head_to_payload, payload_to_head, HFSIZE, Nat.add_sub_cancel,
    hr1, hr3, hr4]
  exact ⟨trivial, hr.2.1, trivial⟩

theorem nofit_of_find {s : State} {bs : List Blk} {fl : List Nat} (hR : Rep s bs fl)
    {fuel size : Nat} (hfind : find_free_block fuel s size = some 0) :
    ∀ b ∈ bs, b.used = false → b.size < size := by
  have h1 : find_free_block (fuel + (fl.length + 1)) s size = some 0 :=
    find_free_block_from_mono s.mem size fuel s.free_list_head 0 (fl.length + 1) hfind
  rcases find_free_block_spec hR size (fuel + (fl.length + 1)) (by omega) with
    ⟨-, h⟩ | ⟨pre, f, post, -, -, h⟩
  · exact h
  · rw [h] at h1
    simp at h1

/-- Counterexample to claim C13 as stated: with pages of 4096 bytes, `mymalloc(8000)` right
after `myinit` returns, and the heap segment then has two pages, 8192 bytes, not three. -/
theorem growth_scenario_counterexample :
    ¬ (∀ q s', mymalloc 4096 4 true demo_init 8000 = some (q, s') →
      q ≠ 0 ∧ 8000 ≤ read_size s'.mem (payload_to_head q) ∧
      validate_heap 4 s' = some true ∧ 12288 ≤ heap_segment_size s'.seg) := by
  intro H
  have h := (H demo_big.1 demo_big.2 rfl).2.2.2
  revert h
  decide

/-- Claim C13, amended. With pages of 4096 bytes, `mymalloc(8000)` right after a successful
`myinit`, the provider granting the extension, finds no free block that fits, grows the
heap and returns a non-null payload of an allocated block of at least 8000 bytes;
`validate_heap` returns true afterwards, and the heap segment then has exactly two pages
(8192 bytes): the free block of 4080 bytes at the end of the heap is reused, so a single
page is requested. -/
theorem growth_scenario (start fuel : Nat) (s0 : State) (grant : Bool)
    (hinit : (myinit 4096 start s0).1 = true) (hf : 2 ≤ fuel)
    (hgr : (extend_heap_segment 4096 grant (myinit 4096 start s0).2.seg
      (requested_pages 4096 (myinit 4096 start s0).2 (adjust_size 8000))).1 ≠ 0) :
    ∃ q s', mymalloc 4096 fuel grant (myinit 4096 start s0).2 8000 = some (q, s') ∧
      find_free_block fuel (myinit 4096 start s0).2 (adjust_size 8000) = some 0 ∧
      q ≠ 0 ∧ Allocated s' q ∧ 8000 ≤ read_size s'.mem (payload_to_head q) ∧
      validate_heap fuel s' = some true ∧
      heap_segment_size s'.seg = 2 * 4096 := by
  obtain ⟨hR, hb, -, hseg⟩ := myinit_spec pageOK_4096 hinit
  generalize myinit 4096 start s0 = r at *
  obtain ⟨ok, s⟩ := r
  simp only at hR hb hseg hgr ⊢
  have hadj : adjust_size 8000 = 8000 := by decide
  have hfind : find_free_block fuel s (adjust_size 8000) = some 0 := by
    rcases find_free_block_spec hR (adjust_size 8000) fuel (by simpa using hf) with
      ⟨h, -⟩ | ⟨pre, f, post, e, hle, -⟩
    · exact h
    · exfalso
      rw [hadj] at hle
      cases pre with
      | nil =>
        simp only [List.nil_append, List.cons.injEq, Blk.mk.injEq] at e
        omega
      | cons c t => simp at e
  have hfit := nofit_of_find hR hfind
  rw [refused_iff hR] at hgr
  obtain ⟨s', fl', hm, hR', -, hb', -, hsz, -⟩ :=
    @mymalloc_grow 4096 fuel grant _ 8000 _ _ pageOK_4096 hR (by decide) (by decide) hfind hfit hgr
  have hbs : growKeep [(⟨4096 - 16, false⟩ : Blk)] ++
      carve (growFree [(⟨4096 - 16, false⟩ : Blk)]
        (4096 * growPages 4096 [(⟨4096 - 16, false⟩ : Blk)] (adjust_size 8000)))
        (adjust_size 8000) = [⟨8000, true⟩, ⟨160, false⟩] := by rfl
  have hpg : growPages 4096 [(⟨4096 - 16, false⟩ : Blk)] (adjust_size 8000) = 1 := by rfl
  have hch : coalesceHead s.base [(⟨4096 - 16, false⟩ : Blk)] = s.base := by
    simp [coalesceHead, prevFree]
  rw [hbs] at hR'
  rw [hpg] at hsz
  rw [hch] at hm
  have hnd : fl'.Nodup := hR'.mid.far.imp (fun h => Far_ne h)
  have hfl : fl' = [s'.base + 8016] := by
    apply eq_singleton_of_nodup hnd
    intro x
    rw [hR'.mem_iff]
    simp [freeHeads]
  have hr := hR'.mid.read (u := []) (b := ⟨8000, true⟩) (v := [⟨160, false⟩])
  have hr1 : read_size s'.mem (s'.base + span []) = 8000 := hr.1
  simp only [span_nil, Nat.add_zero] at hr1
  refine ⟨s.base + 8, s', hm, hfind, by omega, ?_, ?_, ?_, ?_⟩
  · rw [Allocated_iff hR']
    exact ⟨[], 8000, [⟨160, false⟩], rfl, by simp [hb']⟩
  · simp only [payload_to_head, HFSIZE, Nat.add_sub_cancel, ← hb', hr1]
    exact le_refl _
  · exact validate_heap_rep hR' fuel (by rw [hfl]; simpa using hf)
  · unfold heap_segment_size
    rw [hsz, hseg]

/-- Witness of `growth_scenario`: the segment placed at address 4096. -/
theorem growth_scenario_witness :
    ∃ q s', mymalloc 4096 4 true (myinit 4096 4096 blank).2 8000 = some (q, s') ∧
      find_free_block 4 (myinit 4096 4096 blank).2 (adjust_size 8000) = some 0 ∧
      q ≠ 0 ∧ Allocated s' q ∧ 8000 ≤ read_size s'.mem (payload_to_head q) ∧
      validate_heap 4 s' = some true ∧
      heap_segment_size s'.seg = 2 * 4096 :=
  growth_scenario 4096 4 blank true (by decide) (by decide) (by decide)

/-! ## Head addresses -/

/-- Counterexample to claim C14 as stated: after `mymalloc(24)` the second block of the heap
has its head 40 bytes above `base`, which is not a multiple of 16. -/
theorem head_addresses_counterexample :
    ¬ (∀ h, IsBlock demo_a.2 h → ∃ k, h = demo_a.2.base + 16 * k) := by
  intro hall
  have hb : IsBlock demo_a.2 4136 :=
    @IsBlock.next demo_a.2 4096 IsBlock.first (by decide)
  obtain ⟨k, hk⟩ := hall 4136 hb
  have : demo_a.2.base = 4096 := by decide
  rw [this] at hk
  omega

/-- Claim C14, amended. In every reachable state `base` is eight-byte aligned and the head of
every block of the heap is at `base + 8k` for some `k ≥ 0`. -/
theorem head_addresses (PAGE_SIZE : Nat) (s : State) (h : Nat) (hP : PageOK PAGE_SIZE)
    (hs : Reachable PAGE_SIZE s) (hb : IsBlock s h) :
    s.base % 8 = 0 ∧ ∃ k, h = s.base + 8 * k := by
  obtain ⟨bs, fl, hR⟩ := reachable_inv hP hs
  obtain ⟨pre, c, post, rfl, rfl⟩ := heads_decomp ((IsBlock_heads hR.mid hR.ne).1 hb)
  have hsh : Shape pre := (Shape_append.1 hR.mid.shape).1
  have := span_mod8 hsh
  exact ⟨hR.mid.geo.base_al, span pre / 8, by omega⟩

/-- Witness of `head_addresses`: the second block after `mymalloc(24)`. -/
theorem head_addresses_witness :
    demo_a.2.base % 8 = 0 ∧ ∃ k, 4136 = demo_a.2.base + 8 * k :=
  head_addresses 4096 demo_a.2 4136 pageOK_4096 demo_a_reachable
    (@IsBlock.next demo_a.2 4096 IsBlock.first (by decide))

/-! ## Result of the coalescer -/

theorem freeHeads_bounds {a : Nat} {bs : List Blk} (hs : Shape bs) {y : Nat}
    (hy : y ∈ freeHeads a bs) : a ≤ y ∧ y + 32 ≤ a + span bs :=
  heads_bounds hs (freeHeads_sub hy)

theorem prev_view {s : State} {pre post : List Blk} {sz : Nat} {fl : List Nat}
    (hR : Rep s (pre ++ ⟨sz, true⟩ :: post) fl) :
    (prevFree pre = none ∧ ¬ prev_is_free s (s.base + span pre + 8)) ∨
    (∃ pre' pz, pre = pre' ++ [⟨pz, false⟩] ∧ prev_is_free s (s.base + span pre + 8) ∧
      payload_to_head (prev_block s.mem (s.base + span pre + 8)) = s.base + span pre' ∧
      read_size s.mem (s.base + span pre') = pz) := by
  rcases List.eq_nil_or_concat pre with rfl | ⟨pre', c, rfl⟩
  · left
    refine ⟨rfl, ?_⟩
    rintro ⟨h, -⟩
    apply h
    simp [payload_to_head, HFSIZE]
  · rw [List.concat_eq_append] at hR ⊢
    obtain ⟨pz, u⟩ := c
    have hM : Mid s (pre' ++ ⟨pz, u⟩ :: (⟨sz, true⟩ :: post)) fl := by simpa using hR.mid
    have hr := hM.read
    have r1 : read_size s.mem (s.base + span pre') = pz := hr.1
    have r2 : read_alloc s.mem (s.base + span pre') = if u = true then 1 else 0 := hr.2.1
    have r3 : read_size s.mem (s.base + span pre' + 8 + pz) = pz := hr.2.2.1
    have hsh : pz % 8 = 0 ∧ 16 ≤ pz := hM.shape ⟨pz, u⟩ (by simp)
    have e1 : s.base + span (pre' ++ [⟨pz, u⟩]) + 8 - 2 * HFSIZE = s.base + span pre' + 8 + pz := by
      simp only [span_append, span_cons, span_nil, HFSIZE]; omega
    have hpb : payload_to_head (prev_block s.mem (s.base + span (pre' ++ [⟨pz, u⟩]) + 8)) =
        s.base + span pre' := by
      unfold prev_block payload_to_head
      rw [e1, r3]
      unfold HFSIZE
      omega
    have hne : payload_to_head (s.base + span (pre' ++ [⟨pz, u⟩]) + 8) ≠ s.base := by
      simp only [payload_to_head, HFSIZE, span_append, span_cons, span_nil]
      omega
    cases u
    · right
      exact ⟨pre', pz, rfl, ⟨hne, by rw [hpb, r2]; simp⟩, hpb, r1⟩
    · left
      refine ⟨prevFree_snoc_used _ _, ?_⟩
      rintro ⟨-, h⟩
      rw [hpb, r2] at h
      simp at h

theorem next_view {s : State} {pre post : List Blk} {sz : Nat} {fl : List Nat}
    (hR : Rep s (pre ++ ⟨sz, true⟩ :: post) fl) :
    (nextFree post = none ∧ ¬ next_is_free s (s.base + span pre + 8)) ∨
    (∃ nz post', post = ⟨nz, false⟩ :: post' ∧ next_is_free s (s.base + span pre + 8) ∧
      payload_to_head (next_block s.mem (s.base + span pre + 8)) = s.base + span pre + sz + 16 ∧
      read_size s.mem (s.base + span pre + sz + 16) = nz) := by
  have hr := hR.mid.read
  have r1 : read_size s.mem (s.base + span pre) = sz := hr.1
  have hsp := hR.mid.span_eq
  simp only [span_append, span_cons] at hsp
  have hft : payload_to_foot s.mem (s.base + span pre + 8) = s.base + span pre + 8 + sz := by
    simp only [payload_to_foot, payload_to_head, HFSIZE, Nat.add_sub_cancel, r1]
  have hnb : payload_to_head (next_block s.mem (s.base + span pre + 8)) =
      s.base + span pre + sz + 16 := by
    unfold next_block
    rw [hft]
    simp only [payload_to_head, HFSIZE]
    omega
  cases post with
  | nil =>
    left
    refine ⟨rfl, ?_⟩
    rintro ⟨h, -⟩
    apply h
    rw [hft]
    simp only [span_nil] at hsp
    omega
  | cons d post' =>
    obtain ⟨nz, u⟩ := d
    have hM : Mid s ((pre ++ [⟨sz, true⟩]) ++ ⟨nz, u⟩ :: post') fl := by simpa using hR.mid
    have hr2 := hM.read
    have r2 : read_size s.mem (s.base + span (pre ++ [⟨sz, true⟩])) = nz := hr2.1
    have r3 : read_alloc s.mem (s.base + span (pre ++ [⟨sz, true⟩])) =
        if u = true then 1 else 0 := hr2.2.1
    have e : s.base + span (pre ++ [⟨sz, true⟩]) = s.base + span pre + sz + 16 := by
      simp only [span_append, span_cons, span_nil]; omega
    rw [e] at r2 r3
    have hne : payload_to_foot s.mem (s.base + span pre + 8) ≠ s.end_ := by
      rw [hft]
      simp only [span_cons] at hsp
      omega
    cases u
    · right
      exact ⟨nz, post', rfl, ⟨hne, by rw [hnb, r3]; simp⟩, hnb, r2⟩
    · left
      refine ⟨by simp [nextFree], ?_⟩
      rintro ⟨-, h⟩
      rw [hnb, r3] at h
      simp at h

theorem freeHeads_mid_used (a : Nat) (X Y : List Blk) (z x : Nat) :
    x ∈ freeHeads a (X ++ ⟨z, true⟩ :: Y) ↔
      x ∈ freeHeads a X ∨ x ∈ freeHeads (a + span X + 16 + z) Y := by
  rw [freeHeads_append, List.mem_append]
  simp [freeHeads]

theorem freeHeads_mid_free (a : Nat) (X Y : List Blk) (z x : Nat) :
    x ∈ freeHeads a (X ++ ⟨z, false⟩ :: Y) ↔
      x ∈ freeHeads a X ∨ x = a + span X ∨ x ∈ freeHeads (a + span X + 16 + z) Y := by
  rw [freeHeads_append, List.mem_append]
  simp [freeHeads]

theorem freeHeads_cons_free (a : Nat) (Y : List Blk) (z x : Nat) :
    x ∈ freeHeads a (⟨z, false⟩ :: Y) ↔ x = a ∨ x ∈ freeHeads (a + 16 + z) Y := by
  simp [freeHeads]

theorem coalesce_view {s : State} {pre post : List Blk} {sz : Nat} {fl : List Nat}
    (hR : Rep s (pre ++ ⟨sz, true⟩ :: post) fl) :
    ∃ L T R, coalesce pre sz post = L ++ ⟨T, false⟩ :: R ∧
      coalesceHead s.base pre = s.base + span L ∧
      merged_head s (s.base + span pre + 8) = s.base + span L ∧
      merged_size s (s.base + span pre + 8) = T ∧
      merged_foot s (s.base + span pre + 8) = s.base + span L + 8 + T ∧
      s.base + span L ≤ s.base + span pre ∧
      s.base + span pre + 8 + sz ≤ s.base + span L + 8 + T ∧
      ∀ x, (x ∈ freeHeads s.base (pre ++ ⟨sz, true⟩ :: post) ∧
          ¬ (prev_is_free s (s.base + span pre + 8) ∧
            x = payload_to_head (prev_block s.mem (s.base + span pre + 8))) ∧
          ¬ (next_is_free s (s.base + span pre + 8) ∧
            x = payload_to_head (next_block s.mem (s.base + span pre + 8)))) ↔
        (x ∈ freeHeads s.base (L ++ ⟨T, false⟩ :: R) ∧ x ≠ s.base + span L) := by
  have hr := hR.mid.read
  have r1 : read_size s.mem (s.base + span pre) = sz := hr.1
  clear hr
  have hph : payload_to_head (s.base + span pre + 8) = s.base + span pre := by
    simp [payload_to_head, HFSIZE]
  have hft : payload_to_foot s.mem (s.base + span pre + 8) = s.base + span pre + 8 + sz := by
    simp only [payload_to_foot, payload_to_head, HFSIZE, Nat.add_sub_cancel, r1]
  have hshape := hR.mid.shape
  rw [Shape_append, Shape_cons] at hshape
  obtain ⟨hS1, -, hS3⟩ := hshape
  have hA : ∀ x, x ∈ freeHeads s.base pre → x + 32 ≤ s.base + span pre :=
    fun x hx => (freeHeads_bounds hS1 hx).2
  have hB : ∀ x, x ∈ freeHeads (s.base + span pre + 16 + sz) post →
      s.base + span pre + 16 + sz ≤ x := fun x hx => (freeHeads_bounds hS3 hx).1
  rcases prev_view hR with ⟨hp, hnp⟩ | ⟨pre', pz, rfl, hprev, hpb, hpz⟩
  · rcases next_view hR with ⟨hn, hnn⟩ | ⟨nz, post', rfl, hnext, hnb, hnz⟩
    · refine ⟨pre, sz, post, by unfold coalesce; rw [hp, hn], coalesceHead_none hp, ?_, ?_, ?_,
        le_refl _, le_refl _, ?_⟩
      · unfold merged_head; rw [if_neg hnp, hph]
      · unfold merged_size; rw [if_neg hnp, if_neg hnn, hph, r1]; rfl
      · unfold merged_foot; rw [if_neg hnn, hft]
      · intro x
        rw [freeHeads_mid_used, freeHeads_mid_free]
        simp only [hnp, hnn, false_and, not_false_eq_true, and_true]
        constructor
        · rintro (h | h)
          · exact ⟨Or.inl h, by have := hA x h; omega⟩
          · exact ⟨Or.inr (Or.inr h), by have := hB x h; omega⟩
        · rintro ⟨h | h | h, hne⟩
          · exact Or.inl h
          · exact absurd h hne
          · exact Or.inr h
    · have hS4 : Shape post' := (Shape_cons.1 hS3).2
      have hC : ∀ x, x ∈ freeHeads (s.base + span pre + 16 + (sz + (nz + 16))) post' →
          s.base + span pre + 16 + (sz + (nz + 16)) ≤ x := fun x hx => (freeHeads_bounds hS4 hx).1
      have hnb2 : next_block s.mem (s.base + span pre + 8) = s.base + span pre + sz + 24 := by
        unfold next_block; rw [hft]; unfold HFSIZE; omega
      refine ⟨pre, sz + (nz + 16), post', by unfold coalesce; rw [hp]; simp [nextFree],
        coalesceHead_none hp, ?_, ?_, ?_, le_refl _, by omega, ?_⟩
      · unfold merged_head; rw [if_neg hnp, hph]
      · unfold merged_size; rw [if_neg hnp, if_pos hnext, hph, r1, hnb, hnz]; rfl
      · unfold merged_foot; rw [if_pos hnext]
        unfold payload_to_foot
        rw [hnb, hnz, hnb2]
        omega
      · intro x
        rw [freeHeads_mid_used, freeHeads_mid_free, freeHeads_cons_free, hnb]
        have hNX := iff_true_intro hnext
        simp only [hnp, hNX, false_and, not_false_eq_true, true_and]
        have e : s.base + span pre + 16 + sz + 16 + nz = s.base + span pre + 16 + (sz + (nz + 16))
          := by omega
        rw [e]
        constructor
        · rintro ⟨h | h | h, hne⟩
          · exact ⟨Or.inl h, by have := hA x h; omega⟩
          · exact absurd (by omega) hne
          · exact ⟨Or.inr (Or.inr h), by have := hC x h; omega⟩
        · rintro ⟨h | h | h, hne⟩
          · exact ⟨Or.inl h, by have := hA x h; omega⟩
          · exact absurd h hne
          · exact ⟨Or.inr (Or.inr h), by have := hC x h; omega⟩
  · have hS0 : Shape pre' := (Shape_append.1 hS1).1
    have hshp : pz % 8 = 0 ∧ 16 ≤ pz := (Shape_append.1 hS1).2 ⟨pz, false⟩ (by simp)
    have hA' : ∀ x, x ∈ freeHeads s.base pre' → x + 32 ≤ s.base + span pre' :=
      fun x hx => (freeHeads_bounds hS0 hx).2
    have hsp : span (pre' ++ [(⟨pz, false⟩ : Blk)]) = span pre' + pz + 16 := by
      simp only [span_append, span_cons, span_nil]; omega
    have hold : ∀ x, x ∈ freeHeads s.base (pre' ++ [(⟨pz, false⟩ : Blk)]) ↔
        x ∈ freeHeads s.base pre' ∨ x = s.base + span pre' := by
      intro x
      rw [freeHeads_mid_free]
      simp [freeHeads]
    rcases next_view hR with ⟨hn, hnn⟩ | ⟨nz, post', rfl, hnext, hnb, hnz⟩
    · refine ⟨pre', sz + (pz + 16), post, ?_, coalesceHead_some _ _ _, ?_, ?_, ?_,
        by rw [hsp]; omega, by rw [hsp]; omega, ?_⟩
      · unfold coalesce; rw [prevFree_snoc_free, hn]; simp
      · unfold merged_head; rw [if_pos hprev, hpb]
      · unfold merged_size; rw [if_pos hprev, if_neg hnn, hph, r1, hpb, hpz]; rfl
      · unfold merged_foot; rw [if_neg hnn, hft, hsp]; omega
      · intro x
        rw [freeHeads_mid_used s.base (pre' ++ [(⟨pz, false⟩ : Blk)]) post sz x,
          freeHeads_mid_free s.base pre' post (sz + (pz + 16)) x, hold, hpb]
        have hPV := iff_true_intro hprev
        simp only [hPV, hnn, false_and, not_false_eq_true, and_true, true_and]
        rw [hsp]
        have e : s.base + span pre' + 16 + (sz + (pz + 16)) =
            s.base + (span pre' + pz + 16) + 16 + sz := by omega
        rw [e]
        constructor
        · rintro ⟨(h | h) | h, hne⟩
          · exact ⟨Or.inl h, hne⟩
          · exact absurd h hne
          · exact ⟨Or.inr (Or.inr h), hne⟩
        · rintro ⟨h | h | h, hne⟩
          · exact ⟨Or.inl (Or.inl h), hne⟩
          · exact absurd h hne
          · exact ⟨Or.inr h, hne⟩
    · have hS4 : Shape post' := (Shape_cons.1 hS3).2
      have hC : ∀ x, x ∈ freeHeads (s.base + span pre' + 16 + (sz + (pz + nz + 32))) post' →
          s.base + span pre' + 16 + (sz + (pz + nz + 32)) ≤ x :=
        fun x hx => (freeHeads_bounds hS4 hx).1
      have hnb2 : next_block s.mem (s.base + span (pre' ++ [(⟨pz, false⟩ : Blk)]) + 8) =
          s.base + span (pre' ++ [(⟨pz, false⟩ : Blk)]) + sz + 24 := by
        unfold next_block; rw [hft]; unfold HFSIZE; omega
      refine ⟨pre', sz + (pz + nz + 32), post', ?_, coalesceHead_some _ _ _, ?_, ?_, ?_,
        by rw [hsp]; omega, by rw [hsp]; omega, ?_⟩
      · unfold coalesce; rw [prevFree_snoc_free]; simp [nextFree]
      · unfold merged_head; rw [if_pos hprev, hpb]
      · unfold merged_size
        rw [if_pos hprev, if_pos hnext, hph, r1, hpb, hpz, hnb, hnz]
        unfold HFSIZE; omega
      · unfold merged_foot; rw [if_pos hnext]
        unfold payload_to_foot
        rw [hnb, hnz, hnb2, hsp]
        omega
      · intro x
        rw [freeHeads_mid_used s.base (pre' ++ [(⟨pz, false⟩ : Blk)]) (⟨nz, false⟩ :: post') sz x,
          freeHeads_mid_free s.base pre' post' (sz + (pz + nz + 32)) x, hold,
          freeHeads_cons_free, hpb, hnb]
        have hPV := iff_true_intro hprev
        have hNX := iff_true_intro hnext
        simp only [hPV, hNX, false_and, not_false_eq_true, and_true, true_and]
        rw [hsp]
        have e : s.base + (span pre' + pz + 16) + 16 + sz + 16 + nz =
            s.base + span pre' + 16 + (sz + (pz + nz + 32)) := by omega
        rw [e]
        constructor
        · rintro ⟨(h | h) | h | h, hne, hne2⟩
          · exact ⟨Or.inl h, hne⟩
          · exact absurd h hne
          · exact absurd (by omega) hne2
          · exact ⟨Or.inr (Or.inr h), hne⟩
        · rintro ⟨h | h | h, hne⟩
          · exact ⟨Or.inl (Or.inl h), hne, by have := hA' x h; omega⟩
          · exact absurd h hne
          · exact ⟨Or.inr (Or.inr h), hne, by have := hC x h; omega⟩

/-- Claim C15. Coalescer result: in a reachable state, after `myfree(p)` of an allocated
payload `p`, the free block that covers `p` starts at the head of the previous block when
that block exists and is free, else at the head of `p`; it ends at the foot of the next
block when that block exists and is free, else at the foot of `p`; its head and its foot
both hold the size of `p` plus, for each free neighbour, the size of the neighbour and
`2*HFSIZE`; it is the head of the free list; and the rest of the list is the list before
the call without the absorbed neighbours.  A block whose head is `base` has no previous
block and a block whose foot is `end` has no next block. -/
theorem free_coalesces (PAGE_SIZE : Nat) (s : State) (p : Nat) (hP : PageOK PAGE_SIZE)
    (hs : Reachable PAGE_SIZE s) (hp : Allocated s p) :
    FreeBlock (myfree s p) (merged_head s p) (merged_size s p) ∧
    payload_to_foot (myfree s p).mem (head_to_payload (merged_head s p)) = merged_foot s p ∧
    read_size (myfree s p).mem (merged_foot s p) = merged_size s p ∧
    read_alloc (myfree s p).mem (merged_foot s p) = 0 ∧
    merged_head s p ≤ payload_to_head p ∧ payload_to_foot s.mem p ≤ merged_foot s p ∧
    (myfree s p).free_list_head = merged_head s p ∧
    ∃ fl0 fl, NextChain s.mem s.free_list_head fl0 ∧
      NextChain (myfree s p).mem (myfree s p).free_list_head (merged_head s p :: fl) ∧
      ∀ x, x ∈ fl ↔ (x ∈ fl0 ∧
        ¬ (prev_is_free s p ∧ x = payload_to_head (prev_block s.mem p)) ∧
        ¬ (next_is_free s p ∧ x = payload_to_head (next_block s.mem p))) := by
  obtain ⟨bs, fl0, hR⟩ := reachable_inv hP hs
  obtain ⟨pre, sz, post, rfl, rfl⟩ := (Allocated_iff hR p).1 hp
  obtain ⟨fl', hR', -, -⟩ := myfree_spec hR
  obtain ⟨L, T, R, hco, hch, hmh, hms, hmf, hle1, hle2, hmem⟩ := coalesce_view hR
  have r1 : read_size s.mem (s.base + span pre) = sz := (hR.mid.read (u := pre) (v := post)).1
  have hft : payload_to_foot s.mem (s.base + span pre + 8) = s.base + span pre + 8 + sz := by
    simp only [payload_to_foot, payload_to_head, HFSIZE, Nat.add_sub_cancel, r1]
  have hph : payload_to_head (s.base + span pre + 8) = s.base + span pre := by
    simp [payload_to_head, HFSIZE]
  rw [hco, hch] at hR'
  rw [hmh, hms, hmf, hft, hph]
  generalize hs' : myfree s (s.base + span pre + 8) = s' at *
  have hb' : s'.base = s.base := by rw [← hs', myfree_base]
  have hr := hR'.mid.read (u := L) (b := ⟨T, false⟩) (v := R)
  rw [hb'] at hr
  have q1 : read_size s'.mem (s.base + span L) = T := hr.1
  have q3 : read_size s'.mem (s.base + span L + 8 + T) = T := hr.2.2.1
  have q4 : read_alloc s'.mem (s.base + span L + 8 + T) = 0 := hr.2.2.2
  have hhd : s'.free_list_head = s.base + span L := hR'.mid.head
  have hch2 := NextChain_of_links s'.mem _ 0 hR'.mid.links
  rw [firstD_cons, ← hhd] at hch2
  have hch1 := NextChain_of_links s.mem fl0 0 hR.mid.links
  rw [← hR.mid.head] at hch1
  have hnd : ((s.base + span L) :: fl').Nodup := hR'.mid.far.imp (fun h => Far_ne h)
  refine ⟨?_, ?_, q3, q4, hle1, hle2, hhd, fl0, fl', hch1, ?_, ?_⟩
  · rw [FreeBlock_iff hR']
    exact ⟨L, R, rfl, by rw [hb']⟩
  · simp only [payload_to_foot, head_to_payload, payload_to_head, HFSIZE, Nat.add_sub_cancel, q1]
  · rw [hhd] at hch2 ⊢
    exact hch2
  · intro x
    rw [hR.mem_iff x, hmem x, ← hb', ← hR'.mem_iff x]
    rw [List.nodup_cons] at hnd
    rw [hb']
    constructor
    · intro hx
      exact ⟨List.mem_cons_of_mem _ hx, fun e => hnd.1 (e ▸ hx)⟩
    · rintro ⟨hx, hne⟩
      rcases List.mem_cons.1 hx with h | h
      · exact absurd h hne
      · exact h

theorem demo_b_in_hole : Allocated demo_hole demo_b.1 :=
  ⟨4136, IsBlock.next IsBlock.first (by decide), by decide, by decide⟩

/-- Witness of `free_coalesces`: in the heap with a hole, `myfree(b)` merges the block of
`b` with the free hole before it and the free remainder after it. -/
theorem free_coalesces_witness :
    FreeBlock (myfree demo_hole demo_b.1) (merged_head demo_hole demo_b.1)
      (merged_size demo_hole demo_b.1) ∧
    payload_to_foot (myfree demo_hole demo_b.1).mem
      (head_to_payload (merged_head demo_hole demo_b.1)) = merged_foot demo_hole demo_b.1 ∧
    read_size (myfree demo_hole demo_b.1).mem (merged_foot demo_hole demo_b.1) =
      merged_size demo_hole demo_b.1 ∧
    read_alloc (myfree demo_hole demo_b.1).mem (merged_foot demo_hole demo_b.1) = 0 ∧
    merged_head demo_hole demo_b.1 ≤ payload_to_head demo_b.1 ∧
    payload_to_foot demo_hole.mem demo_b.1 ≤ merged_foot demo_hole demo_b.1 ∧
    (myfree demo_hole demo_b.1).free_list_head = merged_head demo_hole demo_b.1 ∧
    ∃ fl0 fl, NextChain demo_hole.mem demo_hole.free_list_head fl0 ∧
      NextChain (myfree demo_hole demo_b.1).mem (myfree demo_hole demo_b.1).free_list_head
        (merged_head demo_hole demo_b.1 :: fl) ∧
      ∀ x, x ∈ fl ↔ (x ∈ fl0 ∧
        ¬ (prev_is_free demo_hole demo_b.1 ∧
          x = payload_to_head (prev_block demo_hole.mem demo_b.1)) ∧
        ¬ (next_is_free demo_hole demo_b.1 ∧
          x = payload_to_head (next_block demo_hole.mem demo_b.1))) :=
  free_coalesces 4096 demo_hole demo_b.1 pageOK_4096 demo_hole_reachable demo_b_in_hole

/-! ## Placement after growth -/

theorem growth_ptr_eq {s : State} {bs : List Blk} {fl : List Nat} (hR : Rep s bs fl) :
    growth_ptr s = s.base + span (growKeep bs) + 8 := by
  have h := hR.tail_read.2
  rw [coalesceHead_growKeep] at h
  rw [← h]
  unfold growth_ptr
  split_ifs <;> rfl

theorem growth_state_spec {P fuel : Nat} {grant : Bool} {s : State} {n : Nat} {bs : List Blk}
    {fl : List Nat} (hP : PageOK P) (hR : Rep s bs fl) (h1 : 1 ≤ n) (h2 : n ≤ INT_MAX)
    (hfind : find_free_block fuel s (adjust_size n) = some 0)
    (hfit : ∀ b ∈ bs, b.used = false → b.size < adjust_size n)
    (hgr : (extend_heap_segment P grant s.seg (growPages P bs (adjust_size n))).1 ≠ 0) :
    ∃ fl', mymalloc P fuel grant s n = some (growth_ptr s,
        allocate (growth_state P grant s (adjust_size n)) (growth_ptr s) (adjust_size n)) ∧
      Rep (growth_state P grant s (adjust_size n))
        (growKeep bs ++ [⟨growFree bs (P * growPages P bs (adjust_size n)), false⟩])
        ((s.base + span (growKeep bs)) :: fl') ∧
      adjust_size n ≤ growFree bs (P * growPages P bs (adjust_size n)) ∧
      (growth_state P grant s (adjust_size n)).base = s.base ∧
      (growth_state P grant s (adjust_size n)).end_ =
        s.end_ + P * growPages P bs (adjust_size n) := by
  obtain ⟨a8, a16, ale, aub⟩ := adjust_size_facts n h1 h2
  obtain ⟨hP32, hP8, hPub⟩ := hP.page_facts
  have hg := hR.mid.geo
  have hb := hg.bound
  have htl := tailFree_lt hfit a16
  have hgp := growth_ptr_eq hR
  obtain ⟨htr1, htr2⟩ := hR.tail_read
  generalize hsize : adjust_size n = size at *
  generalize he : tailFree bs = e at *
  unfold INT_MAX at aub
  have hneed : add64 (sub64 size e) (2 * HFSIZE) = size - e + 16 := by
    have : sub64 size e = size - e := sub64_eq (by omega) (by unfold WORD; omega)
    rw [this]
    have h16 : 2 * HFSIZE = 16 := rfl
    rw [h16]
    exact add64_eq (by unfold WORD; omega)
  have hkdef : growPages P bs size = roundup (size - e + 16) P / P := by
    unfold growPages; rw [he, hneed]
  obtain ⟨hk1, hk2, hk3⟩ := num_pages_facts hP (size - e + 16) (by omega)
    (by unfold WORD; omega)
  rw [← hkdef] at hk1 hk2 hk3
  generalize hk : growPages P bs size = k at *
  have hext : grant = true ∧ s.seg.start + s.seg.size + k * P < WORD := by
    by_contra hc
    apply hgr
    unfold extend_heap_segment
    rw [if_neg hc]
  have hext1 : (extend_heap_segment P grant s.seg k).1 = s.end_ + 8 := by
    unfold extend_heap_segment
    rw [if_pos hext]
    show s.seg.start + s.seg.size = _
    rw [hg.seg_start, hg.seg_size]
  have hext2 : (extend_heap_segment P grant s.seg k).2 = ⟨s.seg.start, s.seg.size + k * P⟩ := by
    unfold extend_heap_segment
    rw [if_pos hext]
  have hkP : k * P = P * k := Nat.mul_comm _ _
  generalize hbytes : P * k = bytes at *
  have hbb : s.end_ + 8 + bytes < WORD := by
    have := hext.2
    rw [hg.seg_start, hg.seg_size, hkP] at this
    exact this
  have hmul : mul64 P k = bytes := by
    unfold mul64; rw [hbytes]; exact Nat.mod_eq_of_lt (by omega)
  have hb8 : bytes % 8 = 0 := by
    rw [← hbytes]
    exact Nat.mod_eq_zero_of_dvd ((Nat.dvd_of_mod_eq_zero hP8).mul_right k)
  have hb32 : 32 ≤ bytes := by
    rw [← hbytes]
    calc 32 ≤ P := hP32
      _ = P * 1 := (Nat.mul_one P).symm
      _ ≤ P * k := Nat.mul_le_mul_left _ hk3
  have hsub : sub64 bytes (2 * HFSIZE) = bytes - 16 := sub64_eq (by unfold HFSIZE; omega) (by omega)
  have hsp := hR.mid.span_eq
  generalize hs1 : ({ s with
      mem := (s.mem.write (s.end_ + 8) (bytes - 16)).write (s.end_ + 8 + bytes - 8) (bytes - 16),
      end_ := s.end_ + 8 + bytes - 8,
      seg := ⟨s.seg.start, s.seg.size + k * P⟩ } : State) = s1
  have hs1b : s1.base = s.base := by rw [← hs1]
  have hs1e : s1.end_ = s.end_ + 8 + bytes - 8 := by rw [← hs1]
  have hs1m : ∀ x, x < s.end_ + 8 → s1.mem x = s.mem x := by
    intro x hx
    rw [← hs1]
    show ((s.mem.write (s.end_ + 8) (bytes - 16)).write (s.end_ + 8 + bytes - 8) (bytes - 16)) x
      = s.mem x
    rw [write_other _ _ _ _ (by omega), write_other _ _ _ _ (by omega)]
  have hkk : roundup (size - e + 16) P / P = k := by rw [← hkdef]
  have e1 : s.end_ + 8 + HFSIZE = s.base + span bs + 8 := by unfold HFSIZE; omega
  have e2 : s.end_ + 8 + bytes - HFSIZE = s.end_ + 8 + bytes - 8 := rfl
  have hgs : growth_state P grant s size = merge_free_block s1 (s.base + span bs + 8) := by
    unfold growth_state
    simp only [htr1, hneed, hkk, hext1, hext2, hmul, hsub, write_size_free, head_to_payload]
    rw [e1, e2, ← hs1]
  have hmal : mymalloc P fuel grant s n =
      some (coalesceHead s.base bs + 8,
        allocate (merge_free_block s1 (s.base + span bs + 8)) (coalesceHead s.base bs + 8) size)
      := by
    unfold mymalloc
    have : ¬ (n = 0 ∨ n > INT_MAX) := by omega
    rw [if_neg this]
    simp only [hsize, hfind]
    simp only [htr2]
    simp only [htr1, hneed, ne_eq, not_true_eq_false, if_false]
    simp only [hkk, hext1, hext2, hmul, hsub, write_size_free, head_to_payload]
    have hz : ¬ (s.end_ + 8 = 0) := by omega
    simp only [hz, if_false]
    rw [e1, e2, ← hs1]
  have hPM : PreMerge s1 bs (bytes - 16) [] fl := by
    have hshape : Shape (bs ++ [⟨bytes - 16, false⟩]) := by
      rw [Shape_append, Shape_cons]
      exact ⟨hR.mid.shape, ⟨by dsimp only; omega, by dsimp only; omega⟩, Shape_nil⟩
    refine ⟨⟨?_, hshape, ?_, ?_, ?_, ?_, hR.mid.far⟩, ?_, hR.noadj, by simp [NoAdj]⟩
    · rw [← hs1]
      refine ⟨hg.base_pos, hg.base_al, hg.seg_start, ?_, ?_⟩
      · show s.base + (s.seg.size + k * P) = s.end_ + 8 + bytes - 8 + 8
        have := hg.seg_size
        omega
      · show s.end_ + 8 + bytes - 8 + 8 < WORD
        omega
    · rw [hs1b, Tags_append]
      refine ⟨Tags_frame_range hR.mid.shape ?_ hR.mid.tags, ?_, ?_, trivial⟩
      · intro x _ hx
        exact hs1m x (by omega)
      · rw [← hs1]
        show ((s.mem.write (s.end_ + 8) (bytes - 16)).write (s.end_ + 8 + bytes - 8) (bytes - 16))
          (s.base + span bs) = bytes - 16 + 0
        rw [write_other _ _ _ _ (by omega), hsp, write_same, Nat.add_zero]
      · rw [← hs1]
        show ((s.mem.write (s.end_ + 8) (bytes - 16)).write (s.end_ + 8 + bytes - 8) (bytes - 16))
          (s.base + span bs + 8 + (bytes - 16)) = bytes - 16 + 0
        have : s.base + span bs + 8 + (bytes - 16) = s.end_ + 8 + bytes - 8 := by omega
        rw [this, write_same, Nat.add_zero]
    · rw [hs1b, hs1e]
      simp only [span_append, span_cons, span_nil]
      omega
    · apply Links_frame _ hR.mid.links
      intro y hy
      have := heads_bounds hR.mid.shape (Rep_far hR y hy)
      exact ⟨hs1m _ (by omega), hs1m _ (by omega)⟩
    · rw [← hs1]; exact hR.mid.head
    · intro y
      rw [hs1b, hR.mem_iff]
      simp [freeHeads]
  obtain ⟨fl3, hR3, -, -⟩ := merge_spec hPM
  rw [hs1b, coalesce_nil, coalesceHead_growKeep] at hR3
  have hFle : size ≤ growFree bs bytes := by
    unfold growFree
    cases hp : prevFree bs with
    | none =>
      have : e = 0 := by rw [← he]; simp [tailFree, hp]
      simp only; omega
    | some e' =>
      have : e = e' := by rw [← he]; simp [tailFree, hp]
      simp only; omega
  rw [coalesceHead_growKeep, ← hgp, ← hgs] at hmal
  rw [← hgs] at hR3
  refine ⟨fl3, hmal, hR3, hFle, ?_, ?_⟩
  · rw [hgs, merge_free_block_base, hs1b]
  · rw [hgs, merge_free_block_end, hs1e]; omega

/-- Claim C16. Growth placement: in a reachable state, when `find_free_block` finds no block
for the adjusted size of a request and the provider grants the extension, `mymalloc`
calls `allocate` at the address `ptr` (`end + 2*HFSIZE` of the old heap when its last block
was allocated, `end - end_size` when it was free) in the state left by
`merge_free_block`; in that state `ptr` is the payload of a block of the heap that is free,
is on the free list (at its head), has its foot at the new `end`, and has at least the
adjusted size. -/
theorem growth_placement (PAGE_SIZE : Nat) (s : State) (n fuel : Nat) (grant : Bool)
    (hP : PageOK PAGE_SIZE) (hs : Reachable PAGE_SIZE s) (h1 : 1 ≤ n) (h2 : n ≤ INT_MAX)
    (hfind : find_free_block fuel s (adjust_size n) = some 0)
    (hgr : (extend_heap_segment PAGE_SIZE grant s.seg
      (requested_pages PAGE_SIZE s (adjust_size n))).1 ≠ 0) :
    mymalloc PAGE_SIZE fuel grant s n = some (growth_ptr s,
      allocate (growth_state PAGE_SIZE grant s (adjust_size n)) (growth_ptr s)
        (adjust_size n)) ∧
    IsBlock (growth_state PAGE_SIZE grant s (adjust_size n)) (payload_to_head (growth_ptr s)) ∧
    read_alloc (growth_state PAGE_SIZE grant s (adjust_size n)).mem
      (payload_to_head (growth_ptr s)) = 0 ∧
    (∃ fl, NextChain (growth_state PAGE_SIZE grant s (adjust_size n)).mem
        (growth_state PAGE_SIZE grant s (adjust_size n)).free_list_head fl ∧
      payload_to_head (growth_ptr s) ∈ fl) ∧
    (growth_state PAGE_SIZE grant s (adjust_size n)).free_list_head =
      payload_to_head (growth_ptr s) ∧
    payload_to_foot (growth_state PAGE_SIZE grant s (adjust_size n)).mem (growth_ptr s) =
      (growth_state PAGE_SIZE grant s (adjust_size n)).end_ ∧
    (growth_state PAGE_SIZE grant s (adjust_size n)).end_ =
      s.end_ + PAGE_SIZE * requested_pages PAGE_SIZE s (adjust_size n) ∧
    adjust_size n ≤ read_size (growth_state PAGE_SIZE grant s (adjust_size n)).mem
      (payload_to_head (growth_ptr s)) := by
  obtain ⟨bs, fl, hR⟩ := reachable_inv hP hs
  have hfit := nofit_of_find hR hfind
  rw [refused_iff hR] at hgr ⊢
  obtain ⟨fl', hmal, hR', hle, hb', he'⟩ := growth_state_spec hP hR h1 h2 hfind hfit hgr
  have hgp := growth_ptr_eq hR
  generalize growth_state PAGE_SIZE grant s (adjust_size n) = g at *
  generalize growFree bs (PAGE_SIZE * growPages PAGE_SIZE bs (adjust_size n)) = F at *
  have hph : payload_to_head (growth_ptr s) = g.base + span (growKeep bs) := by
    rw [hgp, hb']; simp [payload_to_head, HFSIZE]
  have hr := hR'.mid.read (u := growKeep bs) (b := ⟨F, false⟩) (v := [])
  have q1 : read_size g.mem (g.base + span (growKeep bs)) = F := hr.1
  have q2 : read_alloc g.mem (g.base + span (growKeep bs)) = 0 := hr.2.1
  have hsp := hR'.mid.span_eq
  simp only [span_append, span_cons, span_nil] at hsp
  have hhd : g.free_list_head = s.base + span (growKeep bs) := hR'.mid.head
  have hch := NextChain_of_links g.mem _ 0 hR'.mid.links
  rw [firstD_cons, ← hhd] at hch
  rw [hph]
  refine ⟨hmal, IsBlock_of_decomp hR'.mid _ _ _ rfl, q2, ⟨_, hch, ?_⟩, by rw [hhd, hb'], ?_,
    he', by rw [q1]; exact hle⟩
  · rw [hhd, hb']; simp
  · rw [hgp]
    simp only [payload_to_foot, payload_to_head, HFSIZE, Nat.add_sub_cancel]
    rw [← hb', q1]
    omega

/-- Witness of `growth_placement`: `mymalloc(8000)` right after `myinit`. -/
theorem growth_placement_witness :
    mymalloc 4096 4 true demo_init 8000 = some (growth_ptr demo_init,
      allocate (growth_state 4096 true demo_init (adjust_size 8000)) (growth_ptr demo_init)
        (adjust_size 8000)) ∧
    IsBlock (growth_state 4096 true demo_init (adjust_size 8000))
      (payload_to_head (growth_ptr demo_init)) ∧
    read_alloc (growth_state 4096 true demo_init (adjust_size 8000)).mem
      (payload_to_head (growth_ptr demo_init)) = 0 ∧
    (∃ fl, NextChain (growth_state 4096 true demo_init (adjust_size 8000)).mem
        (growth_state 4096 true demo_init (adjust_size 8000)).free_list_head fl ∧
      payload_to_head (growth_ptr demo_init) ∈ fl) ∧
    (growth_state 4096 true demo_init (adjust_size 8000)).free_list_head =
      payload_to_head (growth_ptr demo_init) ∧
    payload_to_foot (growth_state 4096 true demo_init (adjust_size 8000)).mem
      (growth_ptr demo_init) = (growth_state 4096 true demo_init (adjust_size 8000)).end_ ∧
    (growth_state 4096 true demo_init (adjust_size 8000)).end_ =
      demo_init.end_ + 4096 * requested_pages 4096 demo_init (adjust_size 8000) ∧
    adjust_size 8000 ≤ read_size (growth_state 4096 true demo_init (adjust_size 8000)).mem
      (payload_to_head (growth_ptr demo_init)) :=
  growth_placement 4096 demo_init 8000 4 true pageOK_4096 demo_init_reachable (by decide)
    (by decide) (by decide) (by decide)

/-! ## First fit -/

theorem find_from_chain (m : Mem) (size : Nat) :
    ∀ (fl : List Nat) (cur fuel : Nat), NextChain m cur fl → fl.length < fuel →
      (find_free_block_from m size fuel cur = some 0 ∧ ∀ h ∈ fl, read_size m h < size) ∨
      (∃ pre h post, fl = pre ++ h :: post ∧ (∀ x ∈ pre, read_size m x < size) ∧
        size ≤ read_size m h ∧
        find_free_block_from m size fuel cur = some (head_to_payload h)) := by
  intro fl
  induction fl with
  | nil =>
    intro cur fuel hc hf
    cases fuel with
    | zero => simp at hf
    | succ k =>
      left
      have : cur = 0 := hc
      subst this
      simp [find_free_block_from]
  | cons x t ih =>
    intro cur fuel hc hf
    cases fuel with
    | zero => simp at hf
    | succ k =>
      obtain ⟨rfl, h0, hn⟩ := hc
      have hk : t.length < k := by simp at hf; omega
      by_cases hx : size ≤ read_size m cur
      · right
        refine ⟨[], cur, t, rfl, by simp, hx, ?_⟩
        simp [find_free_block_from, h0, hx]
      · have e : find_free_block_from m size (k + 1) cur =
            find_free_block_from m size k (m (head_to_next cur)) := by
          simp [find_free_block_from, h0, hx]
        rcases ih _ k hn hk with ⟨h1, h2⟩ | ⟨pre, h, post, rfl, h2, h3, h4⟩
        · left
          refine ⟨by rw [e, h1], ?_⟩
          intro y hy
          rcases List.mem_cons.1 hy with rfl | hy
          · omega
          · exact h2 y hy
        · right
          refine ⟨cur :: pre, h, post, rfl, ?_, h3, by rw [e, h4]⟩
          intro y hy
          rcases List.mem_cons.1 hy with rfl | hy
          · omega
          · exact h2 y hy

/-- Claim C17. First fit: when the `next` links from `free_list_head` run through the finite
list `fl` and end at null, `find_free_block(size)` returns (fuel above the length of the
list is enough); the result is the payload of the first node of `fl`, in list order, whose
tagged size is at least `size`, and it is null if and only if no node of `fl` has a size of
at least `size`.  The function only reads: its result carries no state. -/
theorem first_fit (s : State) (size fuel : Nat) (fl : List Nat)
    (hl : NextChain s.mem s.free_list_head fl) (hf : fl.length < fuel) :
    ((find_free_block fuel s size = some 0 ∧ ∀ h ∈ fl, read_size s.mem h < size) ∨
      (∃ pre h post, fl = pre ++ h :: post ∧ (∀ x ∈ pre, read_size s.mem x < size) ∧
        size ≤ read_size s.mem h ∧ find_free_block fuel s size = some (head_to_payload h))) ∧
    (find_free_block fuel s size = some 0 ↔ ∀ h ∈ fl, read_size s.mem h < size) := by
  have key := find_from_chain s.mem size fl s.free_list_head fuel hl hf
  refine ⟨key, ?_⟩
  rcases key with ⟨h1, h2⟩ | ⟨pre, h, post, rfl, h2, h3, h4⟩
  · exact ⟨fun _ => h2, fun _ => h1⟩
  · constructor
    · intro h0
      have h5 : find_free_block fuel s size = some (head_to_payload h) := h4
      rw [h5] at h0
      simp [head_to_payload, HFSIZE] at h0
    · intro hall
      have := hall h (by simp)
      omega

/-- Witness of `first_fit`: in the heap with a hole the list is the hole of 24 bytes, then
the remainder of 4000 bytes; a request of 32 bytes skips the hole. -/
theorem first_fit_witness :
    ((find_free_block 3 demo_hole 32 = some 0 ∧
        ∀ h ∈ [4096, 4176], read_size demo_hole.mem h < 32) ∨
      (∃ pre h post, [4096, 4176] = pre ++ h :: post ∧
        (∀ x ∈ pre, read_size demo_hole.mem x < 32) ∧
        32 ≤ read_size demo_hole.mem h ∧
        find_free_block 3 demo_hole 32 = some (head_to_payload h))) ∧
    (find_free_block 3 demo_hole 32 = some 0 ↔
      ∀ h ∈ [4096, 4176], read_size demo_hole.mem h < 32) :=
  first_fit demo_hole 32 3 [4096, 4176]
    (show demo_hole.free_list_head = 4096 ∧ 4096 ≠ 0 ∧
      (demo_hole.mem (head_to_next 4096) = 4176 ∧ 4176 ≠ 0 ∧
        demo_hole.mem (head_to_next 4176) = 0) from by decide)
    (by decide)

/-! ## Page rounding -/

theorem least_multiple_div (X sz : Nat) (hX : 0 < X) :
    least_multiple X sz ((sz + X - 1) / X * X) := by
  have h1 : (sz + X - 1) / X * X ≤ sz + X - 1 := Nat.div_mul_le_self _ _
  have h2 : sz + X - 1 < X * ((sz + X - 1) / X + 1) := Nat.lt_mul_div_succ _ hX
  rw [Nat.mul_add, Nat.mul_one, Nat.mul_comm] at h2
  refine ⟨Nat.dvd_mul_left _ _, by omega, ?_⟩
  rintro r' ⟨c, rfl⟩ hle
  by_contra hc
  have hlt : X * c < (sz + X - 1) / X * X := by omega
  rw [Nat.mul_comm X c] at hlt hle
  have hcd : c < (sz + X - 1) / X := Nat.lt_of_mul_lt_mul_right hlt
  have : (c + 1) * X ≤ (sz + X - 1) / X * X := Nat.mul_le_mul_right X hcd
  rw [Nat.add_mul, Nat.one_mul] at this
  omega

theorem least_pages_of_facts {P need k : Nat} (h1 : need ≤ P * k) (h2 : P * k < need + P) :
    least_pages P need k := by
  refine ⟨by rw [Nat.mul_comm]; exact h1, ?_⟩
  intro j hj
  by_contra hc
  have hjk : j + 1 ≤ k := by omega
  have : P * (j + 1) ≤ P * k := Nat.mul_le_mul_left P hjk
  rw [Nat.mul_add, Nat.mul_one, Nat.mul_comm P j] at this
  omega

/-- Counterexample to claim C18 as stated: with pages of 40 bytes, a multiple of eight,
`mymalloc(72)` right after `myinit` finds the free block of 24 bytes too small and asks the
provider for one page, although `72 - 24 + 16 = 64` bytes are needed; `roundup(64, 40)` is
64, which is not a multiple of 40. -/
theorem page_rounding_counterexample :
    ¬ (∀ PAGE_SIZE start s0 n, 0 < PAGE_SIZE → PAGE_SIZE % 8 = 0 →
        (myinit PAGE_SIZE start s0).1 = true → 1 ≤ n → n ≤ INT_MAX →
        find_free_block 4 (myinit PAGE_SIZE start s0).2 (adjust_size n) = some 0 →
        least_pages PAGE_SIZE (growth_need (myinit PAGE_SIZE start s0).2 (adjust_size n))
          (requested_pages PAGE_SIZE (myinit PAGE_SIZE start s0).2 (adjust_size n))) ∧
    ¬ (∀ mult sz, 0 < mult → mult % 8 = 0 → least_multiple mult sz (roundup sz mult)) := by
  constructor
  · intro H
    have h := (H 40 4096 blank 72 (by decide) (by decide) (by decide) (by decide) (by decide)
      (by decide)).1
    revert h
    decide
  · intro H
    have h := (H 40 64 (by decide) (by decide)).1
    revert h
    decide

/-- Claim C18, amended. Page rounding on growth, for a page size that is a power of two
(`32 ≤ PAGE_SIZE ≤ 2^63`): in a reachable state, when no free block fits the adjusted size
of a request, the number of pages asked from the provider is the least `k` with
`k * PAGE_SIZE ≥ size - tail_free_size + 2*HFSIZE`; and `roundup(sz, PAGE_SIZE)` is the
least multiple of `PAGE_SIZE` that is at least `sz`, as long as `sz + PAGE_SIZE` does not
exceed `2^64`. -/
theorem page_rounding (PAGE_SIZE : Nat) (s : State) (n fuel : Nat) (hP : PageOK PAGE_SIZE)
    (hs : Reachable PAGE_SIZE s) (h1 : 1 ≤ n) (h2 : n ≤ INT_MAX)
    (hfind : find_free_block fuel s (adjust_size n) = some 0) :
    least_pages PAGE_SIZE (growth_need s (adjust_size n))
      (requested_pages PAGE_SIZE s (adjust_size n)) ∧
    ∀ sz, sz + PAGE_SIZE ≤ WORD →
      least_multiple PAGE_SIZE sz (roundup sz PAGE_SIZE) := by
  obtain ⟨bs, fl, hR⟩ := reachable_inv hP hs
  obtain ⟨a8, a16, ale, aub⟩ := adjust_size_facts n h1 h2
  obtain ⟨hP32, hP8, hPub⟩ := hP.page_facts
  constructor
  · have hfit := nofit_of_find hR hfind
    have htl := tailFree_lt hfit a16
    obtain ⟨htr1, -⟩ := hR.tail_read
    unfold growth_need requested_pages
    rw [htr1]
    generalize adjust_size n = size at *
    generalize tailFree bs = e at *
    unfold INT_MAX at aub
    have hneed : add64 (sub64 size e) (2 * HFSIZE) = size - e + 16 := by
      have : sub64 size e = size - e := sub64_eq (by omega) (by unfold WORD; omega)
      rw [this]
      have h16 : 2 * HFSIZE = 16 := rfl
      rw [h16]
      exact add64_eq (by unfold WORD; omega)
    rw [hneed]
    obtain ⟨hk1, hk2, -⟩ := num_pages_facts hP (size - e + 16) (by omega)
      (by unfold WORD; omega)
    exact least_pages_of_facts hk1 hk2
  · intro sz hsz
    obtain ⟨k, -, hk, rfl⟩ := hP
    rw [roundup_pow2 sz k hk hsz]
    exact least_multiple_div _ _ (Nat.two_pow_pos k)

/-- Witness of `page_rounding`: `mymalloc(8000)` right after `myinit` with pages of 4096
bytes. -/
theorem page_rounding_witness :
    least_pages 4096 (growth_need demo_init (adjust_size 8000))
      (requested_pages 4096 demo_init (adjust_size 8000)) ∧
    ∀ sz, sz + 4096 ≤ WORD → least_multiple 4096 sz (roundup sz 4096) :=
  page_rounding 4096 demo_init 8000 4 pageOK_4096 demo_init_reachable (by decide) (by decide)
    (by decide)

/-! ## Allocations do not disturb each other -/

theorem BlockAt_nil (a h : Nat) (b : Blk) : ¬ BlockAt a [] h b := by
  rintro ⟨u, v, e, -⟩
  simp at e

theorem BlockAt_cons (a : Nat) (c : Blk) (t : List Blk) (h : Nat) (b : Blk) :
    BlockAt a (c :: t) h b ↔ (h = a ∧ b = c) ∨ BlockAt (a + 16 + c.size) t h b := by
  constructor
  · rintro ⟨u, v, e, rfl⟩
    cases u with
    | nil =>
      simp only [List.nil_append, List.cons.injEq] at e
      exact Or.inl ⟨by simp, e.1.symm⟩
    | cons d u' =>
      simp only [List.cons_append, List.cons.injEq] at e
      obtain ⟨rfl, rfl⟩ := e
      exact Or.inr ⟨u', v, rfl, by simp only [span_cons]; omega⟩
  · rintro (⟨rfl, rfl⟩ | ⟨u, v, rfl, rfl⟩)
    · exact ⟨[], t, rfl, by simp⟩
    · exact ⟨c :: u, v, rfl, by simp only [span_cons]; omega⟩

theorem BlockAt_append (a : Nat) (x y : List Blk) (h : Nat) (b : Blk) :
    BlockAt a (x ++ y) h b ↔ BlockAt a x h b ∨ BlockAt (a + span x) y h b := by
  induction x generalizing a with
  | nil => simp [BlockAt_nil]
  | cons c t ih =>
    rw [List.cons_append, BlockAt_cons, BlockAt_cons, ih, span_cons]
    have e : a + 16 + c.size + span t = a + (c.size + 16 + span t) := by omega
    rw [e, or_assoc]

theorem BlockAt_bounds {a : Nat} {bs : List Blk} {h : Nat} {b : Blk} (hb : BlockAt a bs h b) :
    a ≤ h ∧ h + 16 + b.size ≤ a + span bs := by
  obtain ⟨u, v, rfl, rfl⟩ := hb
  simp only [span_append, span_cons]
  omega

theorem BlockAt_congr {a a' : Nat} {bs : List Blk} {h : Nat} {b : Blk} (e : a = a')
    (hb : BlockAt a bs h b) : BlockAt a' bs h b := e ▸ hb

theorem BlockAt_disjoint {a : Nat} {bs : List Blk} {h h' : Nat} {b b' : Blk}
    (hb : BlockAt a bs h b) (hb' : BlockAt a bs h' b') (hne : h ≠ h') :
    h + 16 + b.size ≤ h' ∨ h' + 16 + b'.size ≤ h := by
  induction bs generalizing a with
  | nil => exact absurd hb (BlockAt_nil _ _ _)
  | cons c t ih =>
    rw [BlockAt_cons] at hb hb'
    rcases hb with ⟨rfl, rfl⟩ | hb
    · rcases hb' with ⟨rfl, rfl⟩ | hb'
      · exact absurd rfl hne
      · left
        have := (BlockAt_bounds hb').1
        omega
    · rcases hb' with ⟨rfl, rfl⟩ | hb'
      · right
        have := (BlockAt_bounds hb).1
        omega
      · exact ih hb hb'

theorem BlockAt_InUsed {a : Nat} {bs : List Blk} {h z x : Nat}
    (hb : BlockAt a bs h ⟨z, true⟩) (h1 : h ≤ x) (h2 : x < h + 16 + z) : InUsed a bs x := by
  obtain ⟨u, v, rfl, rfl⟩ := hb
  rw [InUsed_append]
  right
  simp only [InUsed]
  left
  exact ⟨trivial, h1, h2⟩

theorem span_carve (f size : Nat) : span (carve f size) = f + 16 := by
  unfold carve
  split_ifs <;> simp only [span_cons, span_nil] <;> omega

theorem BlockAt_growKeep {a : Nat} {bs : List Blk} {h z : Nat}
    (hb : BlockAt a bs h ⟨z, true⟩) : BlockAt a (growKeep bs) h ⟨z, true⟩ := by
  cases hp : prevFree bs with
  | none => simpa [growKeep, hp] using hb
  | some e =>
    obtain ⟨pre', rfl⟩ := prevFree_some hp
    have : growKeep (pre' ++ [(⟨e, false⟩ : Blk)]) = pre' := by simp [growKeep, hp]
    rw [this]
    rw [BlockAt_append, BlockAt_cons] at hb
    rcases hb with hb | ⟨-, hb⟩ | hb
    · exact hb
    · simp at hb
    · exact absurd hb (BlockAt_nil _ _ _)

theorem Frame_refl {s : State} {bs : List Blk} {fl : List Nat} (hR : Rep s bs fl)
    (hp need : Nat) : Frame s s bs hp 0 need :=
  ⟨bs, fl, hR, rfl, fun _ _ hb _ => ⟨hb, fun _ _ _ => rfl, fun h => absurd rfl h⟩,
    fun h => absurd rfl h⟩

theorem mymalloc_frame {P fuel : Nat} {grant : Bool} {s : State} {bs : List Blk}
    {fl : List Nat} {n r : Nat} {s' : State} (hP : PageOK P) (hR : Rep s bs fl)
    (h : mymalloc P fuel grant s n = some (r, s')) (hp : Nat) :
    Frame s s' bs hp r (adjust_size n) := by
  have h' := mymalloc_mono h (fl.length + 1)
  rcases @mymalloc_cases P (fuel + (fl.length + 1)) s bs fl hP hR (by omega) grant n with
    ⟨-, e⟩ | ⟨h1, h2, pre, f, post, fl', rfl, hle, e, hR', hfr⟩ | ⟨-, -, -, -, e⟩ |
    ⟨h1, h2, hfit, hgr, s2, fl', e, hR', hle, hb', he', -, hfr⟩
  · rw [e] at h'
    simp only [Option.some.injEq, Prod.mk.injEq] at h'
    obtain ⟨rfl, rfl⟩ := h'
    exact Frame_refl hR _ _
  · rw [e] at h'
    simp only [Option.some.injEq, Prod.mk.injEq] at h'
    obtain ⟨rfl, rfl⟩ := h'
    generalize adjust_size n = size at *
    have hb' : (allocate s (s.base + span pre + 8) size).base = s.base := allocate_base _ _ _
    generalize allocate s (s.base + span pre + 8) size = s' at *
    have hsc := span_carve f size
    obtain ⟨c, rest, hc, hcle⟩ := carve_head hle
    refine ⟨_, fl', hR', hb', ?_, fun _ => ⟨by omega, c, ?_, hcle⟩⟩
    · intro hh z hb _
      refine ⟨?_, fun x hx1 hx2 => hfr x (InUsed_not_InFree (BlockAt_InUsed hb hx1 hx2)), ?_⟩
      · rw [BlockAt_append, BlockAt_cons] at hb
        rw [BlockAt_append, BlockAt_append]
        rcases hb with hb | ⟨-, hb⟩ | hb
        · exact Or.inl (Or.inl hb)
        · simp at hb
        · right
          exact BlockAt_congr (by simp only [span_append, hsc]; omega) hb
      · intro _
        rw [BlockAt_append, BlockAt_cons] at hb
        rcases hb with hb | ⟨-, hb⟩ | hb
        · have := (BlockAt_bounds hb).2
          simp only at this
          omega
        · simp at hb
        · have := (BlockAt_bounds hb).1
          omega
    · rw [hc]
      exact ⟨pre, rest ++ post, by simp, by omega⟩
  · rw [e] at h'
    simp only [Option.some.injEq, Prod.mk.injEq] at h'
    obtain ⟨rfl, rfl⟩ := h'
    exact Frame_refl hR _ _
  · rw [e] at h'
    simp only [Option.some.injEq, Prod.mk.injEq] at h'
    obtain ⟨rfl, rfl⟩ := h'
    rw [coalesceHead_growKeep]
    generalize adjust_size n = size at *
    generalize growFree bs (P * growPages P bs size) = F at *
    obtain ⟨c, rest, hc, hcle⟩ := carve_head hle
    have hsp := hR.mid.span_eq
    refine ⟨_, fl', hR', hb', ?_, fun _ => ⟨by omega, c, ?_, hcle⟩⟩
    · intro hh z hb _
      have hbd := (BlockAt_bounds hb).2
      have hb2 := BlockAt_growKeep hb
      have hbd2 := (BlockAt_bounds hb2).2
      simp only at hbd hbd2
      refine ⟨?_, fun x hx1 hx2 => hfr x (InUsed_not_InFree (BlockAt_InUsed hb hx1 hx2))
        (by omega), fun _ => by omega⟩
      rw [BlockAt_append]
      exact Or.inl hb2
    · rw [hc]
      exact ⟨growKeep bs, rest, rfl, by omega⟩

theorem BlockAt_coalesce {a : Nat} {pre post : List Blk} {c : Blk} {sz h z : Nat}
    (hb : BlockAt a (pre ++ c :: post) h ⟨z, true⟩) (hc : c.size = sz)
    (hne : h ≠ a + span pre) : BlockAt a (coalesce pre sz post) h ⟨z, true⟩ := by
  subst hc
  rw [BlockAt_append, BlockAt_cons] at hb
  have hb2 : BlockAt a pre h ⟨z, true⟩ ∨ BlockAt (a + span pre + 16 + c.size) post h ⟨z, true⟩ := by
    rcases hb with hb | ⟨hb, -⟩ | hb
    · exact Or.inl hb
    · exact absurd hb hne
    · exact Or.inr hb
  clear hb
  cases hp : prevFree pre with
  | none =>
    cases hn : nextFree post with
    | none =>
      have e : coalesce pre c.size post = pre ++ ⟨c.size, false⟩ :: post := by
        unfold coalesce; rw [hp, hn]
      rw [e, BlockAt_append, BlockAt_cons]
      rcases hb2 with hb | hb
      · exact Or.inl hb
      · exact Or.inr (Or.inr hb)
    | some nz =>
      obtain ⟨post', rfl⟩ := nextFree_some hn
      have e : coalesce pre c.size (⟨nz, false⟩ :: post') =
          pre ++ ⟨c.size + (nz + 16), false⟩ :: post' := by
        unfold coalesce; rw [hp]; simp [nextFree]
      rw [e, BlockAt_append, BlockAt_cons]
      rcases hb2 with hb | hb
      · exact Or.inl hb
      · rw [BlockAt_cons] at hb
        rcases hb with ⟨-, hb⟩ | hb
        · simp at hb
        · exact Or.inr (Or.inr (BlockAt_congr (by simp only; omega) hb))
  | some pz =>
    obtain ⟨pre', rfl⟩ := prevFree_some hp
    have hb3 : BlockAt a pre' h ⟨z, true⟩ ∨
        BlockAt (a + span pre' + 16 + pz + 16 + c.size) post h ⟨z, true⟩ := by
      rcases hb2 with hb | hb
      · rw [BlockAt_append, BlockAt_cons] at hb
        rcases hb with hb | ⟨-, hb⟩ | hb
        · exact Or.inl hb
        · simp at hb
        · exact absurd hb (BlockAt_nil _ _ _)
      · exact Or.inr (BlockAt_congr (by simp only [span_append, span_cons, span_nil]; omega) hb)
    cases hn : nextFree post with
    | none =>
      have e : coalesce (pre' ++ [⟨pz, false⟩]) c.size post =
          pre' ++ ⟨c.size + (pz + 16), false⟩ :: post := by
        unfold coalesce; rw [prevFree_snoc_free, hn]; simp
      rw [e, BlockAt_append, BlockAt_cons]
      rcases hb3 with hb | hb
      · exact Or.inl hb
      · exact Or.inr (Or.inr (BlockAt_congr (by simp only; omega) hb))
    | some nz =>
      obtain ⟨post', rfl⟩ := nextFree_some hn
      have e : coalesce (pre' ++ [⟨pz, false⟩]) c.size (⟨nz, false⟩ :: post') =
          pre' ++ ⟨c.size + (pz + nz + 32), false⟩ :: post' := by
        unfold coalesce; rw [prevFree_snoc_free]; simp [nextFree]
      rw [e, BlockAt_append, BlockAt_cons]
      rcases hb3 with hb | hb
      · exact Or.inl hb
      · rw [BlockAt_cons] at hb
        rcases hb with ⟨-, hb⟩ | hb
        · simp at hb
        · exact Or.inr (Or.inr (BlockAt_congr (by simp only; omega) hb))

theorem BlockAt_swap {a : Nat} {pre post : List Blk} {c d : Blk} {h : Nat} {b : Blk}
    (hb : BlockAt a (pre ++ c :: post) h b) (hcd : c.size = d.size) (hne : h ≠ a + span pre) :
    BlockAt a (pre ++ d :: post) h b := by
  rw [BlockAt_append, BlockAt_cons] at hb ⊢
  rcases hb with hb | ⟨hb, -⟩ | hb
  · exact Or.inl hb
  · exact absurd hb hne
  · exact Or.inr (Or.inr (hcd ▸ hb))

theorem myfree_frame {s : State} {pre post : List Blk} {sz : Nat} {fl : List Nat}
    (hR : Rep s (pre ++ ⟨sz, true⟩ :: post) fl) (need : Nat) :
    Frame s (myfree s (s.base + span pre + 8)) (pre ++ ⟨sz, true⟩ :: post)
      (s.base + span pre) 0 need := by
  obtain ⟨fl', hR', -, hfr⟩ := myfree_spec hR
  refine ⟨_, _, hR', myfree_base _ _, ?_, fun h => absurd rfl h⟩
  intro h z hb hne
  refine ⟨BlockAt_coalesce hb rfl hne, ?_, fun h0 => absurd rfl h0⟩
  intro x hx1 hx2
  apply hfr
  exact InUsed_not_InFree (BlockAt_InUsed
    (BlockAt_swap (d := ⟨sz, false⟩) hb rfl hne) hx1 hx2)

theorem memcpy_in_other (m : Mem) (dst : Nat) (temp : Nat → Nat) (n x : Nat)
    (h : ¬ (dst ≤ x ∧ x < dst + n)) : memcpy_in m dst temp n x = m x := by
  unfold memcpy_in
  rw [if_neg h]

theorem myrealloc_frame {P fuel : Nat} {grant : Bool} {s : State} {pre post : List Blk}
    {oldsz n : Nat} {fl : List Nat} (hP : PageOK P)
    (hR : Rep s (pre ++ ⟨oldsz, true⟩ :: post) fl)
    (h1 : 1 ≤ n) (h2 : n ≤ INT_MAX) {r : Nat} {s' : State}
    (h : myrealloc P fuel grant s (s.base + span pre + 8) n = some (r, s')) :
    Frame s s' (pre ++ ⟨oldsz, true⟩ :: post) (s.base + span pre) r (adjust_size n) := by
  obtain ⟨a8, a16, ale, aub⟩ := adjust_size_facts n h1 h2
  by_cases hle : adjust_size n ≤ oldsz
  · by_cases hsp : adjust_size n + 32 ≤ oldsz
    · obtain ⟨s1, fl1, e, hR1, hb, -, -, hfr⟩ :=
        @realloc_split_spec P fuel grant _ _ _ _ _ _ hR h1 h2 hsp
      rw [e] at h
      simp only [Option.some.injEq, Prod.mk.injEq] at h
      obtain ⟨rfl, rfl⟩ := h
      generalize adjust_size n = size at *
      have hc : ∃ rest, coalesce (pre ++ [⟨size, true⟩]) (oldsz - size - 16) post =
          pre ++ ⟨size, true⟩ :: rest := by
        unfold coalesce
        rw [prevFree_snoc_used]
        cases nextFree post <;> simp
      obtain ⟨rest, hc⟩ := hc
      refine ⟨_, fl1, hR1, hb, ?_, fun _ => ⟨by omega, size, ?_, le_refl _⟩⟩
      · intro hh z hbk hne
        have hpos : hh + 16 + z ≤ s.base + span pre ∨ s.base + span pre + 16 + oldsz ≤ hh := by
          rw [BlockAt_append, BlockAt_cons] at hbk
          rcases hbk with hbk | ⟨hbk, -⟩ | hbk
          · left
            have := (BlockAt_bounds hbk).2
            simpa using this
          · exact absurd hbk hne
          · right
            exact (BlockAt_bounds hbk).1
        have hbk2 : BlockAt s.base ((pre ++ [⟨size, true⟩]) ++
            (⟨oldsz - size - 16, false⟩ : Blk) :: post) hh ⟨z, true⟩ := by
          rw [BlockAt_append, BlockAt_cons] at hbk
          rw [BlockAt_append]
          rcases hbk with hbk | ⟨hbk, -⟩ | hbk
          · left
            rw [BlockAt_append]
            exact Or.inl hbk
          · exact absurd hbk hne
          · right
            rw [BlockAt_cons]
            right
            exact BlockAt_congr (by simp only [span_append, span_cons, span_nil]; omega) hbk
        refine ⟨BlockAt_coalesce hbk2 rfl
          (by simp only [span_append, span_cons, span_nil]; omega), ?_, fun _ => by omega⟩
        intro x hx1 hx2
        apply hfr
        · apply InUsed_not_InFree
          have hbk3 : BlockAt s.base (pre ++ (⟨size, true⟩ : Blk) ::
              (⟨oldsz - size - 16, false⟩ : Blk) :: post) hh ⟨z, true⟩ := by
            simpa using hbk2
          exact BlockAt_InUsed hbk3 hx1 hx2
        · omega
        · omega
      · rw [hc]
        exact ⟨pre, rest, rfl, by omega⟩
    · rw [realloc_same hR h1 hle (by omega)] at h
      simp only [Option.some.injEq, Prod.mk.injEq] at h
      obtain ⟨rfl, rfl⟩ := h
      refine ⟨_, fl, hR, rfl, ?_, fun _ => ⟨by omega, oldsz, ⟨pre, post, rfl, by omega⟩, hle⟩⟩
      intro hh z hbk hne
      exact ⟨hbk, fun _ _ _ => rfl, fun _ => by omega⟩
  · rw [realloc_move_eq hR h1 (by omega)] at h
    obtain ⟨bs1, fl1, hR1, hb1, hk1, -⟩ := myfree_frame hR 0
    generalize hs1 : myfree s (s.base + span pre + 8) = s1 at *
    cases hm : mymalloc P fuel grant s1 (adjust_size n) with
    | none => simp [hm] at h
    | some res =>
      obtain ⟨q2, s2⟩ := res
      simp only [hm] at h
      by_cases hq : q2 = 0
      · simp [hq] at h
      · rw [if_neg hq] at h
        simp only [Option.some.injEq, Prod.mk.injEq] at h
        obtain ⟨rfl, rfl⟩ := h
        obtain ⟨bs2, fl2, hR2, hb2, hk2, hnew⟩ := mymalloc_frame hP hR1 hm 0
        obtain ⟨hq8, c, hbc, hcle⟩ := hnew hq
        clear hnew
        have hn2 : adjust_size n ≤ INT_MAX := by
          by_contra hc2
          have : mymalloc P fuel grant s1 (adjust_size n) = some (0, s1) := by
            unfold mymalloc
            rw [if_pos (Or.inr (by omega))]
          rw [this] at hm
          simp only [Option.some.injEq, Prod.mk.injEq] at hm
          exact hq hm.1.symm
        rw [adjust_size_idem n h1 h2 hn2] at hcle
        rw [hb1] at hk2 hbc hb2
        obtain ⟨u, v, rfl, hqe⟩ := hbc
        have hRf : Rep { s2 with mem := (memcpy_in s2.mem q2
            (memcpy_out s.mem (s.base + span pre + 8)) oldsz) } (u ++ ⟨c, true⟩ :: v) fl2 := by
          apply Rep_payload hR2
          intro x hx
          apply memcpy_in_other
          rw [hb2] at hx
          omega
        refine ⟨_, fl2, hRf, hb2, ?_, fun _ => ⟨hq8, c, ⟨u, v, rfl, hqe⟩, hcle⟩⟩
        intro hh z hbk hne
        obtain ⟨k1, m1, -⟩ := hk1 hh z hbk hne
        have hh0 : hh ≠ 0 := by
          have := (BlockAt_bounds hbk).1
          have := hR.mid.geo.base_pos
          omega
        obtain ⟨k2, m2, n2⟩ := hk2 hh z k1 hh0
        have hne2 : hh ≠ q2 - 8 := by
          have := n2 hq
          omega
        have hd := BlockAt_disjoint k2 ⟨u, v, rfl, hqe⟩ hne2
        simp only at hd
        refine ⟨k2, ?_, fun _ => n2 hq⟩
        intro x hx1 hx2
        show memcpy_in s2.mem q2 _ oldsz x = s.mem x
        rw [memcpy_in_other _ _ _ _ _ (by omega), m2 x hx1 hx2, m1 x hx1 hx2]

theorem frame_final {s s' : State} {bs : List Blk} {fl : List Nat} {hp r need q : Nat}
    (hR : Rep s bs fl) (hF : Frame s s' bs hp r need) (hq : Allocated s q)
    (hne : payload_to_head q ≠ hp) :
    Allocated s' q ∧
    read_size s'.mem (payload_to_head q) = read_size s.mem (payload_to_head q) ∧
    (∀ i, i < read_size s.mem (payload_to_head q) →
      byte_at s'.mem (q + i) = byte_at s.mem (q + i)) ∧
    (r ≠ 0 → r + read_size s'.mem (payload_to_head r) ≤ q ∨
      q + read_size s'.mem (payload_to_head q) ≤ r) := by
  obtain ⟨bs', fl', hR', hb', hk, hnew⟩ := hF
  obtain ⟨u, z, v, rfl, rfl⟩ := (Allocated_iff hR q).1 hq
  have hph : payload_to_head (s.base + span u + 8) = s.base + span u := by
    simp [payload_to_head, HFSIZE]
  rw [hph] at hne ⊢
  obtain ⟨k1, m1, n1⟩ := hk (s.base + span u) z ⟨u, v, rfl, rfl⟩ hne
  have hbk := k1
  obtain ⟨u', v', rfl, hu'⟩ := k1
  have r0 : read_size s.mem (s.base + span u) = z := (hR.mid.read (u := u) (v := v)).1
  have r1 : read_size s'.mem (s'.base + span u') = z := (hR'.mid.read (u := u') (v := v')).1
  rw [hb', ← hu'] at r1
  have hsh : z % 8 = 0 ∧ 16 ≤ z := hR.mid.shape ⟨z, true⟩ (by simp)
  have hal : (s.base + span u + 8) % 8 = 0 := by
    have := span_mod8 (Shape_append.1 hR.mid.shape).1
    have := hR.mid.geo.base_al
    omega
  rw [r0, r1]
  refine ⟨?_, rfl, ?_, ?_⟩
  · rw [Allocated_iff hR']
    exact ⟨u', z, v', rfl, by rw [hb']; omega⟩
  · intro i hi
    exact byte_at_eq hal hal (fun j hj => m1 _ (by omega) (by omega)) hsh.1 hi
  · intro hr
    obtain ⟨hr8, c, hbc, -⟩ := hnew hr
    clear hnew
    have hne2 : s.base + span u ≠ r - 8 := by
      have := n1 hr
      omega
    have hd := BlockAt_disjoint hbk hbc hne2
    simp only at hd
    have hbc2 := hbc
    obtain ⟨u2, v2, e2, hu2⟩ := hbc2
    have r2 : read_size s'.mem (s'.base + span u2) = c := by
      have hM : Mid s' (u2 ++ ⟨c, true⟩ :: v2) fl' := e2 ▸ hR'.mid
      exact hM.read.1
    rw [hb', ← hu2] at r2
    have hph2 : payload_to_head r = r - 8 := rfl
    rw [hph2, r2]
    omega

/-- Claim C19. Allocations do not disturb each other: in a reachable state, for a call of
`mymalloc(n)`, of `myfree(p)` or of `myrealloc(p, n)` with valid arguments that returns `r`
and leaves the state `s'`, every payload `q` other than `p` that is allocated before the
call is still allocated after it, at the same address, with the same tagged size and the
same payload bytes; and a non-null payload `r` returned by the call does not overlap the
payload of `q`. -/
theorem others_undisturbed (PAGE_SIZE : Nat) (s : State) (p n fuel : Nat) (grant : Bool)
    (r : Nat) (s' : State) (q : Nat) (hP : PageOK PAGE_SIZE) (hs : Reachable PAGE_SIZE s)
    (hcall : (p = 0 ∧ mymalloc PAGE_SIZE fuel grant s n = some (r, s')) ∨
      ((p = 0 ∨ Allocated s p) ∧ r = 0 ∧ s' = myfree s p) ∨
      ((p = 0 ∨ Allocated s p) ∧ n ≤ INT_MAX ∧
        myrealloc PAGE_SIZE fuel grant s p n = some (r, s')))
    (hq : Allocated s q) (hne : q ≠ p) :
    Allocated s' q ∧
    read_size s'.mem (payload_to_head q) = read_size s.mem (payload_to_head q) ∧
    (∀ i, i < read_size s.mem (payload_to_head q) →
      byte_at s'.mem (q + i) = byte_at s.mem (q + i)) ∧
    (r ≠ 0 → r + read_size s'.mem (payload_to_head r) ≤ q ∨
      q + read_size s'.mem (payload_to_head q) ≤ r) := by
  obtain ⟨bs, fl, hR⟩ := reachable_inv hP hs
  have hq9 : 9 ≤ q := by
    obtain ⟨u, z, v, -, rfl⟩ := (Allocated_iff hR q).1 hq
    have := hR.mid.geo.base_pos
    omega
  have key : Frame s s' bs (payload_to_head p) r (adjust_size n) := by
    rcases hcall with ⟨-, h⟩ | ⟨hp, rfl, rfl⟩ | ⟨hp, hn, h⟩
    · exact mymalloc_frame hP hR h _
    · rcases hp with rfl | hp
      · rw [myfree_null]
        exact Frame_refl hR _ _
      · obtain ⟨pre, sz, post, rfl, rfl⟩ := (Allocated_iff hR p).1 hp
        have := myfree_frame hR (adjust_size n)
        simpa [payload_to_head, HFSIZE] using this
    · rcases hp with rfl | hp
      · have e : myrealloc PAGE_SIZE fuel grant s 0 n = mymalloc PAGE_SIZE fuel grant s n := by
          unfold myrealloc; simp
        rw [e] at h
        exact mymalloc_frame hP hR h _
      · obtain ⟨pre, sz, post, rfl, rfl⟩ := (Allocated_iff hR p).1 hp
        by_cases hn0 : n = 0
        · subst hn0
          have e : myrealloc PAGE_SIZE fuel grant s (s.base + span pre + 8) 0 =
              some (0, myfree s (s.base + span pre + 8)) := by
            unfold myrealloc; simp
          rw [e] at h
          simp only [Option.some.injEq, Prod.mk.injEq] at h
          obtain ⟨rfl, rfl⟩ := h
          have := myfree_frame hR (adjust_size 0)
          simpa [payload_to_head, HFSIZE] using this
        · have := myrealloc_frame hP hR (by omega) hn h
          simpa [payload_to_head, HFSIZE] using this
  refine frame_final hR key hq ?_
  have hp8 : p = 0 ∨ 8 ≤ p := by
    rcases hcall with ⟨rfl, -⟩ | ⟨hp, -, -⟩ | ⟨hp, -, -⟩
    · exact Or.inl rfl
    · rcases hp with rfl | ⟨h, -, rfl, -⟩
      · exact Or.inl rfl
      · right; unfold head_to_payload HFSIZE; omega
    · rcases hp with rfl | ⟨h, -, rfl, -⟩
      · exact Or.inl rfl
      · right; unfold head_to_payload HFSIZE; omega
  show q - 8 ≠ p - 8
  omega

/-- Witness of `others_undisturbed`: the second `mymalloc(24)` leaves the block of the first
one alone. -/
theorem others_undisturbed_witness :
    Allocated demo_b.2 demo_a.1 ∧
    read_size demo_b.2.mem (payload_to_head demo_a.1) =
      read_size demo_a.2.mem (payload_to_head demo_a.1) ∧
    (∀ i, i < read_size demo_a.2.mem (payload_to_head demo_a.1) →
      byte_at demo_b.2.mem (demo_a.1 + i) = byte_at demo_a.2.mem (demo_a.1 + i)) ∧
    (demo_b.1 ≠ 0 → demo_b.1 + read_size demo_b.2.mem (payload_to_head demo_b.1) ≤ demo_a.1 ∨
      demo_a.1 + read_size demo_b.2.mem (payload_to_head demo_a.1) ≤ demo_b.1) :=
  others_undisturbed 4096 demo_a.2 0 24 4 true demo_b.1 demo_b.2 demo_a.1 pageOK_4096
    demo_a_reachable (Or.inl ⟨rfl, rfl⟩) demo_a_allocated (by decide)

/-! ## Block sizes -/

/-- Claim C20. Block-size invariant: in a reachable state every block `h` of the heap has a
tagged size that is a multiple of eight and at least `2*PTRSIZE`, so the two links of a
free block end at or before its foot.  In particular `allocate`, on a free block, splits
only when the difference of the sizes is at least `2*HFSIZE + 2*PTRSIZE`, and the remainder
then has the difference minus `2*HFSIZE` bytes, at least `2*PTRSIZE`; otherwise the block
keeps its size.  Likewise the in-place shrink of `myrealloc`, on an allocated block: it
splits only under the same condition, the remainder is free and has at least the
difference minus `2*HFSIZE` bytes (more when it is merged with a free successor);
otherwise nothing changes. -/
theorem block_sizes (PAGE_SIZE : Nat) (s : State) (h : Nat) (hP : PageOK PAGE_SIZE)
    (hs : Reachable PAGE_SIZE s) (hb : IsBlock s h) :
    (read_size s.mem h % 8 = 0 ∧ 2 * PTRSIZE ≤ read_size s.mem h ∧
      head_to_next h + PTRSIZE ≤ payload_to_foot s.mem (head_to_payload h)) ∧
    (∀ size, read_alloc s.mem h = 0 → size % 8 = 0 → 2 * PTRSIZE ≤ size →
      size ≤ read_size s.mem h →
      (2 * HFSIZE + 2 * PTRSIZE ≤ read_size s.mem h - size →
        read_size (allocate s (head_to_payload h) size).mem h = size ∧
        read_size (allocate s (head_to_payload h) size).mem (h + size + 2 * HFSIZE) =
          read_size s.mem h - size - 2 * HFSIZE ∧
        2 * PTRSIZE ≤ read_size s.mem h - size - 2 * HFSIZE) ∧
      (¬ 2 * HFSIZE + 2 * PTRSIZE ≤ read_size s.mem h - size →
        read_size (allocate s (head_to_payload h) size).mem h = read_size s.mem h)) ∧
    (∀ n fuel grant, read_alloc s.mem h = 1 → 1 ≤ n → n ≤ INT_MAX →
      adjust_size n ≤ read_size s.mem h →
      ∃ s', myrealloc PAGE_SIZE fuel grant s (head_to_payload h) n =
          some (head_to_payload h, s') ∧
        (2 * HFSIZE + 2 * PTRSIZE ≤ read_size s.mem h - adjust_size n →
          read_size s'.mem h = adjust_size n ∧
          read_alloc s'.mem (h + adjust_size n + 2 * HFSIZE) = 0 ∧
          read_size s.mem h - adjust_size n - 2 * HFSIZE ≤
            read_size s'.mem (h + adjust_size n + 2 * HFSIZE) ∧
          2 * PTRSIZE ≤ read_size s.mem h - adjust_size n - 2 * HFSIZE) ∧
        (¬ 2 * HFSIZE + 2 * PTRSIZE ≤ read_size s.mem h - adjust_size n → s' = s)) := by
  obtain ⟨bs, fl, hR⟩ := reachable_inv hP hs
  obtain ⟨pre, c, post, rfl, rfl⟩ := heads_decomp ((IsBlock_heads hR.mid hR.ne).1 hb)
  obtain ⟨z, u⟩ := c
  have hr := hR.mid.read (u := pre) (b := ⟨z, u⟩) (v := post)
  have hz : read_size s.mem (s.base + span pre) = z := hr.1
  have hu : read_alloc s.mem (s.base + span pre) = if u = true then 1 else 0 := hr.2.1
  have hsh : z % 8 = 0 ∧ 16 ≤ z := hR.mid.shape ⟨z, u⟩ (by simp)
  simp only [hz, HFSIZE, PTRSIZE, head_to_payload, head_to_next, payload_to_foot,
    payload_to_head, Nat.add_sub_cancel]
  refine ⟨⟨hsh.1, by omega, by omega⟩, ?_, ?_⟩
  · intro size ha s8 s16 sle
    have hu' : u = false := by
      cases u
      · rfl
      · rw [hu] at ha; simp at ha
    subst hu'
    obtain ⟨fl', hR', -⟩ := allocate_spec hR s8 (by omega) sle
    generalize hs' : allocate s (s.base + span pre + 8) size = s' at *
    have hb' : s'.base = s.base := by rw [← hs', allocate_base]
    rw [← hb']
    constructor
    · intro hsplit
      have hc : carve z size = [⟨size, true⟩, ⟨z - size - 16, false⟩] := by
        unfold carve; rw [if_pos (by omega)]
      rw [hc] at hR'
      have hM1 : Mid s' (pre ++ ⟨size, true⟩ :: (⟨z - size - 16, false⟩ :: post)) fl' := by
        simpa using hR'.mid
      have hM2 : Mid s' ((pre ++ [⟨size, true⟩]) ++ ⟨z - size - 16, false⟩ :: post) fl' := by
        simpa using hR'.mid
      have r1 : read_size s'.mem (s'.base + span pre) = size := hM1.read.1
      have r2 : read_size s'.mem (s'.base + span (pre ++ [⟨size, true⟩])) = z - size - 16 :=
        hM2.read.1
      simp only [span_append, span_cons, span_nil] at r2
      have e : s'.base + span pre + size + 2 * 8 = s'.base + (span pre + (size + 16 + 0)) := by
        omega
      rw [e]
      exact ⟨r1, r2, by omega⟩
    · intro hns
      have hc : carve z size = [⟨z, true⟩] := by
        unfold carve; rw [if_neg (by omega)]
      rw [hc] at hR'
      have hM1 : Mid s' (pre ++ ⟨z, true⟩ :: post) fl' := by simpa using hR'.mid
      have r1 : read_size s'.mem (s'.base + span pre) = z := hM1.read.1
      exact r1
  · intro n fuel grant ha n1 n2 nle
    have hu' : u = true := by
      cases u
      · rw [hu] at ha; simp at ha
      · rfl
    subst hu'
    obtain ⟨a8, a16, -, -⟩ := adjust_size_facts n n1 n2
    by_cases hsp : adjust_size n + 32 ≤ z
    · obtain ⟨s', fl', e, hR', hb', -, -, -⟩ :=
        @realloc_split_spec PAGE_SIZE fuel grant _ _ _ _ _ _ hR n1 n2 hsp
      refine ⟨s', e, ?_, fun hc => absurd (by omega) hc⟩
      intro _
      rw [← hb']
      generalize adjust_size n = size at *
      have hpf : prevFree (pre ++ [(⟨size, true⟩ : Blk)]) = none := prevFree_snoc_used _ _
      cases hn : nextFree post with
      | none =>
        have hc : coalesce (pre ++ [⟨size, true⟩]) (z - size - 16) post =
            (pre ++ [⟨size, true⟩]) ++ ⟨z - size - 16, false⟩ :: post := by
          unfold coalesce; rw [hpf, hn]
        rw [hc] at hR'
        have hM1 : Mid s' (pre ++ ⟨size, true⟩ :: (⟨z - size - 16, false⟩ :: post)) fl' := by
          simpa using hR'.mid
        have r1 : read_size s'.mem (s'.base + span pre) = size := hM1.read.1
        have r2 := hR'.mid.read
        have r3 : read_size s'.mem (s'.base + span (pre ++ [⟨size, true⟩])) = z - size - 16 :=
          r2.1
        have r4 : read_alloc s'.mem (s'.base + span (pre ++ [⟨size, true⟩])) = 0 := r2.2.1
        simp only [span_append, span_cons, span_nil] at r3 r4
        have e : s'.base + span pre + size + 2 * 8 = s'.base + (span pre + (size + 16 + 0)) := by
          omega
        rw [e, r3]
        exact ⟨r1, r4, le_refl _, by omega⟩
      | some nx =>
        have hc : coalesce (pre ++ [⟨size, true⟩]) (z - size - 16) post =
            (pre ++ [⟨size, true⟩]) ++ ⟨z - size - 16 + (nx + 16), false⟩ :: post.tail := by
          unfold coalesce; rw [hpf, hn]
        rw [hc] at hR'
        have hM1 : Mid s' (pre ++ ⟨size, true⟩ ::
            (⟨z - size - 16 + (nx + 16), false⟩ :: post.tail)) fl' := by
          simpa using hR'.mid
        have r1 : read_size s'.mem (s'.base + span pre) = size := hM1.read.1
        have r2 := hR'.mid.read
        have r3 : read_size s'.mem (s'.base + span (pre ++ [⟨size, true⟩])) =
            z - size - 16 + (nx + 16) := r2.1
        have r4 : read_alloc s'.mem (s'.base + span (pre ++ [⟨size, true⟩])) = 0 := r2.2.1
        simp only [span_append, span_cons, span_nil] at r3 r4
        have e : s'.base + span pre + size + 2 * 8 = s'.base + (span pre + (size + 16 + 0)) := by
          omega
        rw [e, r3]
        exact ⟨r1, r4, by omega, by omega⟩
    · refine ⟨s, realloc_same hR n1 nle (by omega), fun hc => absurd hc (by omega), fun _ => rfl⟩

/-- Witness of `block_sizes`: the free block of 4080 bytes right after `myinit`. -/
theorem block_sizes_witness :
    (read_size demo_init.mem 4096 % 8 = 0 ∧ 2 * PTRSIZE ≤ read_size demo_init.mem 4096 ∧
      head_to_next 4096 + PTRSIZE ≤ payload_to_foot demo_init.mem (head_to_payload 4096)) ∧
    (∀ size, read_alloc demo_init.mem 4096 = 0 → size % 8 = 0 → 2 * PTRSIZE ≤ size →
      size ≤ read_size demo_init.mem 4096 →
      (2 * HFSIZE + 2 * PTRSIZE ≤ read_size demo_init.mem 4096 - size →
        read_size (allocate demo_init (head_to_payload 4096) size).mem 4096 = size ∧
        read_size (allocate demo_init (head_to_payload 4096) size).mem
            (4096 + size + 2 * HFSIZE) =
          read_size demo_init.mem 4096 - size - 2 * HFSIZE ∧
        2 * PTRSIZE ≤ read_size demo_init.mem 4096 - size - 2 * HFSIZE) ∧
      (¬ 2 * HFSIZE + 2 * PTRSIZE ≤ read_size demo_init.mem 4096 - size →
        read_size (allocate demo_init (head_to_payload 4096) size).mem 4096 =
          read_size demo_init.mem 4096)) ∧
    (∀ n fuel grant, read_alloc demo_init.mem 4096 = 1 → 1 ≤ n → n ≤ INT_MAX →
      adjust_size n ≤ read_size demo_init.mem 4096 →
      ∃ s', myrealloc 4096 fuel grant demo_init (head_to_payload 4096) n =
          some (head_to_payload 4096, s') ∧
        (2 * HFSIZE + 2 * PTRSIZE ≤ read_size demo_init.mem 4096 - adjust_size n →
          read_size s'.mem 4096 = adjust_size n ∧
          read_alloc s'.mem (4096 + adjust_size n + 2 * HFSIZE) = 0 ∧
          read_size demo_init.mem 4096 - adjust_size n - 2 * HFSIZE ≤
            read_size s'.mem (4096 + adjust_size n + 2 * HFSIZE) ∧
          2 * PTRSIZE ≤ read_size demo_init.mem 4096 - adjust_size n - 2 * HFSIZE) ∧
        (¬ 2 * HFSIZE + 2 * PTRSIZE ≤ read_size demo_init.mem 4096 - adjust_size n →
          s' = demo_init)) :=
  block_sizes 4096 demo_init 4096 pageOK_4096 demo_init_reachable IsBlock.first

end Allocator
